import Mathlib

/-!
# Verification of the Connect-4 search core (`src/App.tsx`)

Shallow embedding of the board model, evaluator, transposition table and
the three search strategies (plain alpha-beta, alpha-beta with a
transposition table, and MTD(f) over a memory-enhanced alpha-beta) of the
`connect-4-game` repository, together with proofs about them.

Modelling conventions:
* JavaScript numbers that can legitimately hold `±Infinity` (window bounds,
  running best scores, MTD(f) bounds, cached scores) are modelled by `JNum`,
  integers extended with two infinities; all arithmetic that the code
  performs on them (`Math.max`, `Math.min`, `<=`, `+ 1`, `- 1`) is defined
  case by case to match JavaScript's behaviour on those values.
* Boards are lists of rows of `Nat` cells (0 empty, 1 player, 2 bot), with a
  well-formedness predicate `BoardWF` recording the 6×7 shape and the cell
  range, exactly the invariant the TypeScript types enforce.
* The mutable `Map` transposition table becomes a list of key/entry pairs
  with newest-first lookup; `Map.set` is modelled by consing (lookup finds
  the newest binding, which is observationally the same).
* The `nodesRef.count++` shared counter becomes an explicit count of nodes
  returned by each call and summed by callers.
* The `while` loop of `mtdfAlgorithm` is modelled with explicit fuel; the
  function returns `none` when the fuel runs out, and we prove that the
  fuel chosen always suffices, which is the termination statement.
-/

set_option maxHeartbeats 1000000
set_option maxRecDepth 100000

namespace Connect4

/-- Integers extended with `-Infinity` and `+Infinity`, modelling the
JavaScript numbers used for scores and alpha/beta window bounds. -/
inductive JNum where
  | negInf : JNum
  | fin (n : Int) : JNum
  | posInf : JNum
deriving DecidableEq, Repr

namespace JNum

/-- JavaScript `a <= b` on the values we use. -/
def ble : JNum → JNum → Bool
  | negInf, _ => true
  | _, posInf => true
  | fin m, fin n => m ≤ n
  | _, _ => false

/-- JavaScript `a < b` on the values we use. -/
def blt : JNum → JNum → Bool
  | _, negInf => false
  | posInf, _ => false
  | fin m, fin n => m < n
  | negInf, _ => true
  | _, posInf => true

/-- `Math.max`. -/
def max (a b : JNum) : JNum := if blt a b then b else a

/-- `Math.min`. -/
def min (a b : JNum) : JNum := if blt a b then a else b

/-- Adding an integer constant to a JavaScript number
(`-Infinity + 1 = -Infinity`, `Infinity - 1 = Infinity`). -/
def addInt : JNum → Int → JNum
  | negInf, _ => negInf
  | posInf, _ => posInf
  | fin n, k => fin (n + k)

end JNum

/-! ## Board model (`src/App.tsx` lines 7–31, 75–179) -/

/-- `ROWS` -/
def ROWS : Nat := 6
/-- `COLS` -/
def COLS : Nat := 7
/-- `PLAYER` -/
def PLAYER : Nat := 1
/-- `BOT` -/
def BOT : Nat := 2

/-- A cell holds 0 (empty), 1 (player) or 2 (bot); a board is a list of rows. -/
abbrev Board := List (List Nat)

/-- Reading `board[r][c]`; `none` models JavaScript's `undefined` for
out-of-range access. -/
def getCell (b : Board) (r c : Nat) : Option Nat :=
  (b.get? r).bind (fun row => row.get? c)

/-- Writing a single cell (used by `makeMove` after it has located the
target row; out-of-range writes leave the board unchanged, matching the
fact that the code only writes to indices it has just read). -/
def setCell (b : Board) (r c v : Nat) : Board :=
  match b.get? r with
  | none => b
  | some row => b.set r (row.set c v)

/-- The 6×7 shape plus cell-range invariant maintained by the TypeScript
types (`Cell = 0 | 1 | 2`, `Board = Cell[][]`). -/
def BoardWF (b : Board) : Prop :=
  b.length = ROWS ∧ ∀ row ∈ b, row.length = COLS ∧ ∀ c ∈ row, c ≤ 2

instance : DecidablePred BoardWF := fun b => by
  unfold BoardWF; infer_instance

/-- `isValidMove` (line 145): the top cell of the column is empty. -/
def isValidMove (b : Board) (col : Nat) : Bool :=
  getCell b 0 col == some 0

/-- `isBoardFull` (line 149): every cell of the top row is non-empty. -/
def isBoardFull (b : Board) : Bool :=
  (b.headD []).all (fun cell => !(cell == 0))

/-- The row that `makeMove`'s loop (`for r = ROWS-1; r >= 0; r--`) finds:
the bottommost empty row of the column, if any. -/
def dropRow (b : Board) (col : Nat) : Option Nat :=
  [5, 4, 3, 2, 1, 0].find? (fun r => getCell b r col == some 0)

/-- `makeMove` (lines 157–168): copy the board, place the piece at the
bottommost empty row of the column; if the loop finds no empty cell (full
or out-of-range column) the copy is returned unchanged. -/
def makeMove (b : Board) (col : Nat) (player : Nat) : Board :=
  match dropRow b col with
  | none => b
  | some r => setCell b r col player

/-- `getValidMoves` (lines 170–179): columns 0..6 whose top cell is empty,
in ascending order. -/
def getValidMoves (b : Board) : List Nat :=
  (List.range COLS).filter (fun c => isValidMove b c)

/-! ## Winner detection (`checkWinner`, lines 85–143) -/

/-- One four-cell line check: the value at the start cell if it is non-zero
and all four cells along the given offsets are equal, else `none`. -/
def winAt (b : Board) (r c : Nat) (cells : List (Nat × Nat)) : Option Nat :=
  match getCell b r c with
  | none => none
  | some v =>
    if v ≠ 0 ∧ ∀ p ∈ cells, getCell b p.1 p.2 = some v then some v else none

/-- The `(r, c)` pairs scanned by a doubly nested loop
`for r in rs, for c in cs`. -/
def scanPairs (rs cs : List Nat) : List (Nat × Nat) :=
  rs.flatMap (fun r => cs.map (fun c => (r, c)))

/-- The horizontal scan of `checkWinner` (lines 87–98). -/
def scanHorizontal (b : Board) : Option Nat :=
  (scanPairs (List.range ROWS) (List.range (COLS - 3))).findSome?
    (fun p => winAt b p.1 p.2
      [(p.1, p.2 + 1), (p.1, p.2 + 2), (p.1, p.2 + 3)])

/-- The vertical scan of `checkWinner` (lines 101–112). -/
def scanVertical (b : Board) : Option Nat :=
  (scanPairs (List.range (ROWS - 3)) (List.range COLS)).findSome?
    (fun p => winAt b p.1 p.2
      [(p.1 + 1, p.2), (p.1 + 2, p.2), (p.1 + 3, p.2)])

/-- The bottom-left-to-top-right diagonal scan of `checkWinner`
(lines 115–126); the scan starts at rows 3..5 and steps up-right. -/
def scanDiagUp (b : Board) : Option Nat :=
  (scanPairs (List.range' 3 (ROWS - 3)) (List.range (COLS - 3))).findSome?
    (fun p => winAt b p.1 p.2
      [(p.1 - 1, p.2 + 1), (p.1 - 2, p.2 + 2), (p.1 - 3, p.2 + 3)])

/-- The top-left-to-bottom-right diagonal scan of `checkWinner`
(lines 129–140). -/
def scanDiagDown (b : Board) : Option Nat :=
  (scanPairs (List.range (ROWS - 3)) (List.range (COLS - 3))).findSome?
    (fun p => winAt b p.1 p.2
      [(p.1 + 1, p.2 + 1), (p.1 + 2, p.2 + 2), (p.1 + 3, p.2 + 3)])

/-- `checkWinner` (lines 85–143): the four directional scans in order,
returning at the first hit, else 0. -/
def checkWinner (b : Board) : Nat :=
  match scanHorizontal b with
  | some v => v
  | none =>
    match scanVertical b with
    | some v => v
    | none =>
      match scanDiagUp b with
      | some v => v
      | none =>
        match scanDiagDown b with
        | some v => v
        | none => 0

/-! ## Static evaluation (`evaluateBoard`, lines 185–272) -/

/-- `evaluateWindow` (lines 190–213). -/
def evaluateWindow (window : List Nat) (player opponent : Nat) : Int :=
  let playerCount := (window.filter (fun c => c == player)).length
  let opponentCount := (window.filter (fun c => c == opponent)).length
  let emptyCount := (window.filter (fun c => c == 0)).length
  (if playerCount = 4 then (100 : Int)
   else if playerCount = 3 ∧ emptyCount = 1 then 5
   else if playerCount = 2 ∧ emptyCount = 2 then 2
   else 0) +
  (if opponentCount = 3 ∧ emptyCount = 1 then (-4 : Int)
   else if opponentCount = 2 ∧ emptyCount = 2 then -1
   else 0)

/-- The four cells of a window starting at `(r, c)` with the given offsets,
as the code reads them (`board[r][c]` etc., `undefined` collapsed away is
impossible on well-formed boards; we use `getD 0` which is only exercised
in range on well-formed boards). -/
def windowCells (b : Board) (ps : List (Nat × Nat)) : List Nat :=
  ps.map (fun p => (getCell b p.1 p.2).getD 0)

/-- All windows scanned by `evaluateBoard`, in the code's order:
horizontal, vertical, top-left-to-bottom-right diagonal,
bottom-left-to-top-right diagonal. -/
def allWindows (b : Board) : List (List Nat) :=
  ((scanPairs (List.range ROWS) (List.range (COLS - 3))).map (fun p =>
    windowCells b [(p.1, p.2), (p.1, p.2 + 1), (p.1, p.2 + 2), (p.1, p.2 + 3)])) ++
  ((scanPairs (List.range (ROWS - 3)) (List.range COLS)).map (fun p =>
    windowCells b [(p.1, p.2), (p.1 + 1, p.2), (p.1 + 2, p.2), (p.1 + 3, p.2)])) ++
  ((scanPairs (List.range (ROWS - 3)) (List.range (COLS - 3))).map (fun p =>
    windowCells b [(p.1, p.2), (p.1 + 1, p.2 + 1), (p.1 + 2, p.2 + 2), (p.1 + 3, p.2 + 3)])) ++
  ((scanPairs (List.range' 3 (ROWS - 3)) (List.range (COLS - 3))).map (fun p =>
    windowCells b [(p.1, p.2), (p.1 - 1, p.2 + 1), (p.1 - 2, p.2 + 2), (p.1 - 3, p.2 + 3)]))

/-- `evaluateBoard` (lines 185–272): sum of all window scores plus 3 per
subject piece in the centre column (`Math.floor(COLS / 2) = 3`). -/
def evaluateBoard (b : Board) (player : Nat) : Int :=
  let opponent := if player = PLAYER then BOT else PLAYER
  let windowSum := ((allWindows b).map (fun w => evaluateWindow w player opponent)).sum
  let centerCount := (b.filter (fun row => row.get? 3 == some player)).length
  windowSum + centerCount * 3

/-! ## Specification-side winner predicate (the spec's §4.1 `winner`) -/

/-- Four equal consecutive cells of value `p` in one of the four
directions (horizontal, vertical, rising diagonal, falling diagonal);
`getCell` returning `some` keeps every index on the board. -/
def hasFourInRow (b : Board) (p : Nat) : Prop :=
  ∃ r c,
    (getCell b r c = some p ∧ getCell b r (c + 1) = some p ∧
      getCell b r (c + 2) = some p ∧ getCell b r (c + 3) = some p) ∨
    (getCell b r c = some p ∧ getCell b (r + 1) c = some p ∧
      getCell b (r + 2) c = some p ∧ getCell b (r + 3) c = some p) ∨
    (getCell b (r + 3) c = some p ∧ getCell b (r + 2) (c + 1) = some p ∧
      getCell b (r + 1) (c + 2) = some p ∧ getCell b r (c + 3) = some p) ∨
    (getCell b r c = some p ∧ getCell b (r + 1) (c + 1) = some p ∧
      getCell b (r + 2) (c + 2) = some p ∧ getCell b (r + 3) (c + 3) = some p)

theorem winAt_some {b : Board} {r c : Nat} {cells : List (Nat × Nat)}
    {v : Nat} (h : winAt b r c cells = some v) :
    v ≠ 0 ∧ getCell b r c = some v ∧
      ∀ q ∈ cells, getCell b q.1 q.2 = some v := by
  unfold winAt at h
  cases hc : getCell b r c with
  | none => rw [hc] at h; simp at h
  | some w =>
    rw [hc] at h
    replace h : (if w ≠ 0 ∧ ∀ q ∈ cells, getCell b q.1 q.2 = some w
        then some w else none) = some v := h
    by_cases hcond : w ≠ 0 ∧ ∀ q ∈ cells, getCell b q.1 q.2 = some w
    · rw [if_pos hcond] at h
      injection h with h
      subst h
      exact ⟨hcond.1, rfl, hcond.2⟩
    · rw [if_neg hcond] at h
      simp at h

theorem winAt_of_run {b : Board} {r c : Nat} {cells : List (Nat × Nat)}
    {p : Nat} (hp : p ≠ 0) (h0 : getCell b r c = some p)
    (hall : ∀ q ∈ cells, getCell b q.1 q.2 = some p) :
    winAt b r c cells = some p := by
  unfold winAt
  rw [h0]
  show (if p ≠ 0 ∧ ∀ q ∈ cells, getCell b q.1 q.2 = some p
      then some p else none) = some p
  rw [if_pos ⟨hp, hall⟩]

theorem mem_scanPairs {rs cs : List Nat} {q : Nat × Nat} :
    q ∈ scanPairs rs cs ↔ q.1 ∈ rs ∧ q.2 ∈ cs := by
  unfold scanPairs
  cases q with
  | mk r c =>
    simp only [List.mem_flatMap, List.mem_map, Prod.mk.injEq]
    constructor
    · rintro ⟨r', hr', c', hc', rfl, rfl⟩
      exact ⟨hr', hc'⟩
    · rintro ⟨hr, hc⟩
      exact ⟨r, hr, c, hc, rfl, rfl⟩

/-- A horizontal scan hit is a real horizontal run. -/
theorem scanHorizontal_sound {b : Board} {v : Nat}
    (h : scanHorizontal b = some v) : v ≠ 0 ∧ hasFourInRow b v := by
  obtain ⟨q, hq, hwin⟩ := List.exists_of_findSome?_eq_some h
  obtain ⟨hv0, hstart, hcells⟩ := winAt_some hwin
  exact ⟨hv0, q.1, q.2, Or.inl ⟨hstart, hcells (q.1, q.2 + 1) (by simp),
    hcells (q.1, q.2 + 2) (by simp), hcells (q.1, q.2 + 3) (by simp)⟩⟩

/-- A vertical scan hit is a real vertical run. -/
theorem scanVertical_sound {b : Board} {v : Nat}
    (h : scanVertical b = some v) : v ≠ 0 ∧ hasFourInRow b v := by
  obtain ⟨q, hq, hwin⟩ := List.exists_of_findSome?_eq_some h
  obtain ⟨hv0, hstart, hcells⟩ := winAt_some hwin
  exact ⟨hv0, q.1, q.2, Or.inr (Or.inl ⟨hstart, hcells (q.1 + 1, q.2) (by simp),
    hcells (q.1 + 2, q.2) (by simp), hcells (q.1 + 3, q.2) (by simp)⟩)⟩

/-- A rising-diagonal scan hit is a real rising-diagonal run. -/
theorem scanDiagUp_sound {b : Board} {v : Nat}
    (h : scanDiagUp b = some v) : v ≠ 0 ∧ hasFourInRow b v := by
  obtain ⟨q, hq, hwin⟩ := List.exists_of_findSome?_eq_some h
  obtain ⟨hv0, hstart, hcells⟩ := winAt_some hwin
  have hr3 : 3 ≤ q.1 := by
    have := (mem_scanPairs.mp hq).1
    rw [List.mem_range'] at this
    obtain ⟨i, _, hi⟩ := this
    omega
  refine ⟨hv0, q.1 - 3, q.2, Or.inr (Or.inr (Or.inl ⟨?_, ?_, ?_, ?_⟩))⟩
  · rw [show q.1 - 3 + 3 = q.1 from by omega]; exact hstart
  · rw [show q.1 - 3 + 2 = q.1 - 1 from by omega]
    exact hcells (q.1 - 1, q.2 + 1) (by simp)
  · rw [show q.1 - 3 + 1 = q.1 - 2 from by omega]
    exact hcells (q.1 - 2, q.2 + 2) (by simp)
  · exact hcells (q.1 - 3, q.2 + 3) (by simp)

/-- A falling-diagonal scan hit is a real falling-diagonal run. -/
theorem scanDiagDown_sound {b : Board} {v : Nat}
    (h : scanDiagDown b = some v) : v ≠ 0 ∧ hasFourInRow b v := by
  obtain ⟨q, hq, hwin⟩ := List.exists_of_findSome?_eq_some h
  obtain ⟨hv0, hstart, hcells⟩ := winAt_some hwin
  exact ⟨hv0, q.1, q.2, Or.inr (Or.inr (Or.inr ⟨hstart,
    hcells (q.1 + 1, q.2 + 1) (by simp), hcells (q.1 + 2, q.2 + 2) (by simp),
    hcells (q.1 + 3, q.2 + 3) (by simp)⟩))⟩

/-- Soundness of `checkWinner`: a non-zero result is the value of a real
four-in-a-row. -/
theorem checkWinner_sound {b : Board} (h : checkWinner b ≠ 0) :
    hasFourInRow b (checkWinner b) := by
  unfold checkWinner at *
  cases e1 : scanHorizontal b with
  | some v => exact (scanHorizontal_sound e1).2
  | none =>
    cases e2 : scanVertical b with
    | some v => exact (scanVertical_sound e2).2
    | none =>
      cases e3 : scanDiagUp b with
      | some v => exact (scanDiagUp_sound e3).2
      | none =>
        cases e4 : scanDiagDown b with
        | some v => exact (scanDiagDown_sound e4).2
        | none =>
          rw [e1, e2, e3, e4] at h
          exact absurd rfl h

/-- On a well-formed board, `getCell` hits stay within the 6×7 frame. -/
theorem getCell_bounds {b : Board} (hWF : BoardWF b) {r c v : Nat}
    (hv : getCell b r c = some v) : r < ROWS ∧ c < COLS := by
  unfold getCell at hv
  cases hrow : b.get? r with
  | none => rw [hrow] at hv; simp at hv
  | some row =>
    rw [hrow] at hv
    replace hv : row.get? c = some v := hv
    have h1 : r < b.length := (List.get?_eq_some.mp hrow).choose
    have h2 : c < row.length := (List.get?_eq_some.mp hv).choose
    have hlen := hWF.1
    have hrl : row.length = COLS := (hWF.2 row (List.get?_mem hrow)).1
    omega

/-- Completeness of `checkWinner` on well-formed boards: if a non-empty
four-in-a-row exists, the scan does not return 0. -/
theorem checkWinner_complete {b : Board} (hWF : BoardWF b) {p : Nat}
    (hp : p ≠ 0) (h : hasFourInRow b p) : checkWinner b ≠ 0 := by
  have hscan : scanHorizontal b ≠ none ∨ scanVertical b ≠ none ∨
      scanDiagUp b ≠ none ∨ scanDiagDown b ≠ none := by
    obtain ⟨r, c, hrun⟩ := h
    rcases hrun with h4 | h4 | h4 | h4
    · left
      intro hfs
      have hmem : (r, c) ∈ scanPairs (List.range ROWS) (List.range (COLS - 3)) := by
        rw [mem_scanPairs]
        refine ⟨List.mem_range.mpr (getCell_bounds hWF h4.1).1,
          List.mem_range.mpr ?_⟩
        have := (getCell_bounds hWF h4.2.2.2).2
        show c < COLS - 3
        omega
      have hwin : winAt b r c [(r, c + 1), (r, c + 2), (r, c + 3)] = some p :=
        winAt_of_run hp h4.1 (by
          intro q hq
          simp only [List.mem_cons, List.not_mem_nil, or_false] at hq
          rcases hq with rfl | rfl | rfl
          · exact h4.2.1
          · exact h4.2.2.1
          · exact h4.2.2.2)
      have := List.findSome?_eq_none_iff.mp hfs _ hmem
      rw [hwin] at this
      simp at this
    · right; left
      intro hfs
      have hmem : (r, c) ∈ scanPairs (List.range (ROWS - 3)) (List.range COLS) := by
        rw [mem_scanPairs]
        refine ⟨List.mem_range.mpr ?_,
          List.mem_range.mpr (getCell_bounds hWF h4.1).2⟩
        have := (getCell_bounds hWF h4.2.2.2).1
        show r < ROWS - 3
        omega
      have hwin : winAt b r c [(r + 1, c), (r + 2, c), (r + 3, c)] = some p :=
        winAt_of_run hp h4.1 (by
          intro q hq
          simp only [List.mem_cons, List.not_mem_nil, or_false] at hq
          rcases hq with rfl | rfl | rfl
          · exact h4.2.1
          · exact h4.2.2.1
          · exact h4.2.2.2)
      have := List.findSome?_eq_none_iff.mp hfs _ hmem
      rw [hwin] at this
      simp at this
    · right; right; left
      intro hfs
      have hmem : (r + 3, c) ∈ scanPairs (List.range' 3 (ROWS - 3))
          (List.range (COLS - 3)) := by
        rw [mem_scanPairs]
        constructor
        · rw [List.mem_range']
          have := (getCell_bounds hWF h4.1).1
          exact ⟨r, by show r < ROWS - 3; omega, by omega⟩
        · refine List.mem_range.mpr ?_
          have := (getCell_bounds hWF h4.2.2.2).2
          show c < COLS - 3
          omega
      have hwin : winAt b (r + 3) c
          [(r + 3 - 1, c + 1), (r + 3 - 2, c + 2), (r + 3 - 3, c + 3)] = some p :=
        winAt_of_run hp h4.1 (by
          intro q hq
          simp only [List.mem_cons, List.not_mem_nil, or_false] at hq
          rcases hq with rfl | rfl | rfl
          · rw [show r + 3 - 1 = r + 2 from by omega]; exact h4.2.1
          · rw [show r + 3 - 2 = r + 1 from by omega]; exact h4.2.2.1
          · rw [show r + 3 - 3 = r from by omega]; exact h4.2.2.2)
      have := List.findSome?_eq_none_iff.mp hfs _ hmem
      rw [hwin] at this
      simp at this
    · right; right; right
      intro hfs
      have hmem : (r, c) ∈ scanPairs (List.range (ROWS - 3))
          (List.range (COLS - 3)) := by
        rw [mem_scanPairs]
        constructor
        · refine List.mem_range.mpr ?_
          have := (getCell_bounds hWF h4.2.2.2).1
          show r < ROWS - 3
          omega
        · refine List.mem_range.mpr ?_
          have := (getCell_bounds hWF h4.2.2.2).2
          show c < COLS - 3
          omega
      have hwin : winAt b r c
          [(r + 1, c + 1), (r + 2, c + 2), (r + 3, c + 3)] = some p :=
        winAt_of_run hp h4.1 (by
          intro q hq
          simp only [List.mem_cons, List.not_mem_nil, or_false] at hq
          rcases hq with rfl | rfl | rfl
          · exact h4.2.1
          · exact h4.2.2.1
          · exact h4.2.2.2)
      have := List.findSome?_eq_none_iff.mp hfs _ hmem
      rw [hwin] at this
      simp at this
  intro hzero
  unfold checkWinner at hzero
  cases e1 : scanHorizontal b with
  | some v =>
    rw [e1] at hzero
    exact (scanHorizontal_sound e1).1 hzero
  | none =>
    rw [e1] at hzero
    cases e2 : scanVertical b with
    | some v =>
      rw [e2] at hzero
      exact (scanVertical_sound e2).1 hzero
    | none =>
      rw [e2] at hzero
      cases e3 : scanDiagUp b with
      | some v =>
        rw [e3] at hzero
        exact (scanDiagUp_sound e3).1 hzero
      | none =>
        rw [e3] at hzero
        cases e4 : scanDiagDown b with
        | some v =>
          rw [e4] at hzero
          exact (scanDiagDown_sound e4).1 hzero
        | none =>
          rcases hscan with hs | hs | hs | hs
          · exact hs e1
          · exact hs e2
          · exact hs e3
          · exact hs e4

/-! ## Specification-side evaluator (the wording of the spec's §4.2) -/

/-- The window score exactly as the spec words it: `+100` if all four
cells are the subject's, `+5` for exactly 3 subject and 1 empty, `+2` for
exactly 2 subject and 2 empty, `−4` for exactly 3 opponent and 1 empty,
`−1` for exactly 2 opponent and 2 empty, `0` otherwise. -/
def specWindowScore (w : List Nat) (subject opponent : Nat) : Int :=
  let s := (w.filter (fun c => c == subject)).length
  let o := (w.filter (fun c => c == opponent)).length
  let e := (w.filter (fun c => c == 0)).length
  if s = 4 then 100
  else if s = 3 ∧ e = 1 then 5
  else if s = 2 ∧ e = 2 then 2
  else if o = 3 ∧ e = 1 then (-4)
  else if o = 2 ∧ e = 2 then (-1)
  else 0

/-- The spec's evaluator: sum of the window scores over all length-4
windows in the four directions, plus 3 per subject piece in column 3. -/
def specEvaluate (b : Board) (subject : Nat) : Int :=
  let opponent := if subject = PLAYER then BOT else PLAYER
  ((allWindows b).map (fun w => specWindowScore w subject opponent)).sum +
    ((List.range ROWS).countP (fun r => getCell b r 3 == some subject)) * 3

/-- In a list, the elements equal to three pairwise-distinct values are
three disjoint groups. -/
theorem count_three_le (w : List Nat) {p o : Nat} (hp : p ≠ 0) (ho : o ≠ 0)
    (hpo : p ≠ o) :
    (w.filter (fun c => c == p)).length + (w.filter (fun c => c == o)).length +
      (w.filter (fun c => c == 0)).length ≤ w.length := by
  induction w with
  | nil => simp
  | cons a w ih =>
    simp only [List.filter_cons, List.length_cons]
    by_cases h1 : a = p <;> by_cases h2 : a = o <;> by_cases h3 : a = 0 <;>
      simp_all <;> omega

/-- The code's `evaluateWindow` computes exactly the spec's window score on
length-4 windows with distinct non-zero players. -/
theorem evaluateWindow_eq_spec (w : List Nat) (hw : w.length = 4)
    {p o : Nat} (hp : p ≠ 0) (ho : o ≠ 0) (hpo : p ≠ o) :
    evaluateWindow w p o = specWindowScore w p o := by
  have hsum := count_three_le w hp ho hpo
  rw [hw] at hsum
  unfold evaluateWindow specWindowScore
  set s := (w.filter (fun c => c == p)).length with hs
  set oc := (w.filter (fun c => c == o)).length with hoc
  set e := (w.filter (fun c => c == 0)).length with he
  by_cases h4 : s = 4
  · have hoc0 : ¬(oc = 3 ∧ e = 1) := by omega
    have hoc1 : ¬(oc = 2 ∧ e = 2) := by omega
    simp only [h4, if_true, if_pos]
    have h1 : ¬(oc = 3 ∧ e = 1) := by omega
    have h2 : ¬(oc = 2 ∧ e = 2) := by omega
    simp [h1, h2]
  · by_cases h31 : s = 3 ∧ e = 1
    · have h1 : ¬(oc = 3 ∧ e = 1) := by omega
      have h2 : ¬(oc = 2 ∧ e = 2) := by omega
      simp [h4, h31, h1, h2] <;> omega
    · by_cases h22 : s = 2 ∧ e = 2
      · have h1 : ¬(oc = 3 ∧ e = 1) := by omega
        have h2 : ¬(oc = 2 ∧ e = 2) := by omega
        simp [h4, h31, h22, h1, h2] <;> omega
      · by_cases hb0 : oc = 3 ∧ e = 1
        · have hs3 : ¬s = 3 := by omega
          have hs2 : ¬s = 2 := by omega
          simp [h4, h31, h22, hb0, hs3, hs2] <;> omega
        · by_cases hb1 : oc = 2 ∧ e = 2
          · have hs3 : ¬s = 3 := by omega
            have hs2 : ¬s = 2 := by omega
            simp [h4, h31, h22, hb0, hb1, hs3, hs2] <;> omega
          · simp [h4, h31, h22, hb0, hb1]

/-- Every window produced by `allWindows` has exactly four cells. -/
theorem allWindows_length {b : Board} {w : List Nat}
    (h : w ∈ allWindows b) : w.length = 4 := by
  unfold allWindows at h
  simp only [List.mem_append, List.mem_map] at h
  rcases h with ((⟨q, _, hq⟩ | ⟨q, _, hq⟩) | ⟨q, _, hq⟩) | ⟨q, _, hq⟩ <;>
    · rw [← hq]; rfl

/-- Counting matching rows is the same as counting matching row indices. -/
theorem countP_rows_eq_range (b : Board) (f : List Nat → Bool) :
    (List.range b.length).countP
        (fun r => match b.get? r with | none => false | some row => f row) =
      b.countP f := by
  induction b with
  | nil => simp
  | cons row rest ih =>
    rw [List.length_cons, List.range_succ_eq_map, List.countP_cons]
    simp only [List.countP_map, Function.comp_def, List.get?]
    rw [ih, List.countP_cons]

/-- The code's centre-column count agrees with counting subject pieces in
column 3 by row index. -/
theorem centerCount_eq (b : Board) (hlen : b.length = ROWS) (p : Nat) :
    ((List.range ROWS).countP (fun r => getCell b r 3 == some p)) =
      (b.filter (fun row => row.get? 3 == some p)).length := by
  rw [← hlen, ← List.countP_eq_length_filter, ← countP_rows_eq_range b
    (fun row => row.get? 3 == some p)]
  apply List.countP_congr
  intro r _
  unfold getCell
  cases hrow : b.get? r <;> simp

/-- `evaluateBoard` computes the spec's formula (claim C5's content). -/
theorem evaluateBoard_eq_spec (b : Board) (subject : Nat)
    (hWF : BoardWF b) (hs : subject = 1 ∨ subject = 2) :
    evaluateBoard b subject = specEvaluate b subject := by
  simp only [evaluateBoard, specEvaluate]
  have hopp : (if subject = PLAYER then BOT else PLAYER) ≠ 0 ∧ subject ≠ 0 ∧
      subject ≠ (if subject = PLAYER then BOT else PLAYER) := by
    rcases hs with h | h <;> subst h <;> simp [PLAYER, BOT]
  have hmapeq : (allWindows b).map (fun w => evaluateWindow w subject
        (if subject = PLAYER then BOT else PLAYER)) =
      (allWindows b).map (fun w => specWindowScore w subject
        (if subject = PLAYER then BOT else PLAYER)) := by
    apply List.map_congr_left
    intro w hw
    exact evaluateWindow_eq_spec w (allWindows_length hw) hopp.2.1 hopp.1
      hopp.2.2
  rw [hmapeq, centerCount_eq b hWF.1 subject]

/-- `getBoardHash` (lines 274–276): rows serialized as digit strings joined
with `"-"`. -/
def getBoardHash (b : Board) : String :=
  String.intercalate "-" (b.map (fun row => String.join (row.map (fun c => toString c))))

/-- `TTFlag` (line 38). -/
inductive TTFlag where
  | EXACT : TTFlag
  | LOWERBOUND : TTFlag
  | UPPERBOUND : TTFlag
deriving DecidableEq, Repr

/-- `TTEntry` (lines 39–43).  The stored score is a `JNum` because it is a
JavaScript number field. -/
structure TTEntry where
  score : JNum
  depth : Int
  flag : TTFlag
deriving DecidableEq, Repr

/-- The transposition table: newest-first association list modelling the
global `Map<string, TTEntry>`. -/
abbrev TT := List (String × TTEntry)

/-- `transpositionTable.get hash`. -/
def ttGet (t : TT) (key : String) : Option TTEntry :=
  (t.find? (fun p => p.1 == key)).map (fun p => p.2)

/-- `transpositionTable.set hash entry` (newest binding shadows older ones). -/
def ttSet (t : TT) (key : String) (e : TTEntry) : TT :=
  (key, e) :: t

/-! ## Termination measure: every recursive call of the searches plays a
piece into an empty cell, so the number of empty cells strictly shrinks. -/

/-- Number of empty cells on the board. -/
def countEmpty (b : Board) : Nat :=
  (b.map (fun row => row.countP (fun c => c == 0))).sum

theorem countP_set_lt {l : List Nat} {i : Nat} (h : l.get? i = some 0)
    {v : Nat} (hv : v ≠ 0) :
    (l.set i v).countP (fun c => c == 0) < l.countP (fun c => c == 0) := by
  induction l generalizing i with
  | nil => simp at h
  | cons a tl ih =>
    cases i with
    | zero =>
      simp only [List.get?] at h
      injection h with h
      subst h
      simp [List.countP_cons, hv]
    | succ j =>
      simp only [List.get?] at h
      have := ih h
      simp only [List.set, List.countP_cons]
      omega

theorem sum_set_lt {l : List Nat} {i : Nat} {x : Nat} (h : l.get? i = some x)
    {y : Nat} (hy : y < x) : (l.set i y).sum < l.sum := by
  induction l generalizing i with
  | nil => simp at h
  | cons a tl ih =>
    cases i with
    | zero =>
      simp only [List.get?] at h
      injection h with h
      subst h
      simp only [List.set, List.sum_cons]
      omega
    | succ j =>
      simp only [List.get?] at h
      have := ih h
      simp only [List.set, List.sum_cons]
      omega

/-- Placing a non-empty value into an empty cell strictly decreases the
number of empty cells. -/
theorem countEmpty_setCell_lt {b : Board} {r c : Nat}
    (h : getCell b r c = some 0) {v : Nat} (hv : v ≠ 0) :
    countEmpty (setCell b r c v) < countEmpty b := by
  unfold getCell at h
  cases hrow : b.get? r with
  | none => rw [hrow] at h; simp at h
  | some row =>
    rw [hrow] at h
    replace h : row.get? c = some 0 := h
    unfold setCell
    rw [hrow]
    unfold countEmpty
    rw [List.map_set]
    exact sum_set_lt (by rw [List.get?_map, hrow]; rfl) (countP_set_lt h hv)

/-- If a column is a valid move, `makeMove` actually finds a drop row and
that row's cell is empty. -/
theorem dropRow_of_valid {b : Board} {col : Nat}
    (h : isValidMove b col = true) :
    ∃ r, dropRow b col = some r ∧ getCell b r col = some 0 := by
  unfold isValidMove at h
  have h0 : getCell b 0 col = some 0 := by
    simpa using h
  cases hfind : dropRow b col with
  | none =>
    exfalso
    unfold dropRow at hfind
    have := List.find?_eq_none.mp hfind 0 (by decide)
    exact this (by simp [h0])
  | some r =>
    refine ⟨r, rfl, ?_⟩
    unfold dropRow at hfind
    have := List.find?_some hfind
    simpa using this

/-- The key termination fact: a legal move strictly decreases the number
of empty cells. -/
theorem countEmpty_makeMove_lt {b : Board} {col : Nat}
    (h : col ∈ getValidMoves b) {p : Nat} (hp : p ≠ 0) :
    countEmpty (makeMove b col p) < countEmpty b := by
  have hv : isValidMove b col = true := by
    unfold getValidMoves at h
    exact (List.mem_filter.mp h).2
  obtain ⟨r, hdrop, hcell⟩ := dropRow_of_valid hv
  unfold makeMove
  rw [hdrop]
  exact countEmpty_setCell_lt hcell hp

/-! ## Cell-level characterization of `setCell` and `makeMove` -/

theorem getCell_setCell_same {b : Board} {r c : Nat} {x : Nat}
    (h : getCell b r c = some x) (v : Nat) :
    getCell (setCell b r c v) r c = some v := by
  unfold getCell at h
  cases hrow : b.get? r with
  | none => rw [hrow] at h; simp at h
  | some row =>
    rw [hrow] at h
    replace h : row.get? c = some x := h
    have hset : setCell b r c v = b.set r (row.set c v) := by
      unfold setCell; rw [hrow]
    rw [hset]
    unfold getCell
    have hb : (b.set r (row.set c v)).get? r = some (row.set c v) := by
      rw [List.get?_set_eq, hrow]; rfl
    rw [hb]
    show (row.set c v).get? c = some v
    have hc : c < row.length := (List.get?_eq_some.mp h).choose
    rw [List.get?_set_eq_of_lt _ hc]

theorem getCell_setCell_other {b : Board} {r c : Nat} (v : Nat) {r' c' : Nat}
    (h : ¬(r' = r ∧ c' = c)) :
    getCell (setCell b r c v) r' c' = getCell b r' c' := by
  cases hrow : b.get? r with
  | none =>
    have hset : setCell b r c v = b := by unfold setCell; rw [hrow]
    rw [hset]
  | some row =>
    have hset : setCell b r c v = b.set r (row.set c v) := by
      unfold setCell; rw [hrow]
    rw [hset]
    unfold getCell
    by_cases hr : r' = r
    · subst hr
      have hc : c' ≠ c := fun hc => h ⟨rfl, hc⟩
      have hb : (b.set r' (row.set c v)).get? r' = some (row.set c v) := by
        rw [List.get?_set_eq, hrow]; rfl
      rw [hb, hrow]
      show (row.set c v).get? c' = row.get? c'
      exact List.get?_set_ne _ _ (Ne.symm hc)
    · rw [List.get?_set_ne _ _ (Ne.symm hr)]

/-- The gravity invariant of the data model: a non-empty cell sits on a
non-empty cell (row 0 is the top, row 5 the bottom). -/
def Gravity (b : Board) : Prop :=
  ∀ r, r < ROWS - 1 → ∀ c, c < COLS →
    getCell b r c ≠ some 0 → getCell b (r + 1) c ≠ some 0

instance : DecidablePred Gravity := fun b => by
  unfold Gravity; infer_instance

theorem getCell_exists {b : Board} (hWF : BoardWF b) {r col : Nat}
    (hr : r < ROWS) (hc : col < COLS) : ∃ v, getCell b r col = some v := by
  obtain ⟨hlen, hrows⟩ := hWF
  cases hrow : b.get? r with
  | none =>
    have := List.get?_eq_none.mp hrow
    omega
  | some row =>
    cases hcol : row.get? col with
    | none =>
      have hge := List.get?_eq_none.mp hcol
      have hlr : row.length = COLS := (hrows row (List.get?_mem hrow)).1
      omega
    | some v =>
      exact ⟨v, by unfold getCell; rw [hrow]; exact hcol⟩

/-- In a well-formed board, a cell read giving `some` pins the column index
below 7. -/
theorem col_lt_of_getCell {b : Board} (hWF : BoardWF b) {r col v : Nat}
    (h : getCell b r col = some v) : col < COLS := by
  unfold getCell at h
  cases hrow : b.get? r with
  | none => rw [hrow] at h; simp at h
  | some row =>
    rw [hrow] at h
    replace h : row.get? col = some v := h
    have := (List.get?_eq_some.mp h).choose
    have hlr : row.length = COLS := ((hWF.2 row (List.get?_mem hrow)).1)
    omega

/-- Under gravity, a non-empty top cell forces the whole column to be
non-empty. -/
theorem gravity_column {b : Board} (hWF : BoardWF b) (hG : Gravity b)
    {col v₀ : Nat} (h0 : getCell b 0 col = some v₀) (hv0 : v₀ ≠ 0) :
    ∀ r, r < ROWS → ∀ v, getCell b r col = some v → v ≠ 0 := by
  intro r
  induction r with
  | zero =>
    intro _ v hv
    rw [h0] at hv
    injection hv with hv
    exact hv ▸ hv0
  | succ k ih =>
    intro hk v hv
    have hkr : k < ROWS := Nat.lt_of_succ_lt hk
    have hc : col < COLS := col_lt_of_getCell hWF h0
    obtain ⟨w, hw⟩ := getCell_exists hWF hkr hc
    have hne : getCell b k col ≠ some 0 := by
      rw [hw]
      intro e
      injection e with e
      exact ih hkr w hw e
    have hne1 : getCell b (k + 1) col ≠ some 0 :=
      hG k (by show k < ROWS - 1; omega) col hc hne
    intro hv0'
    rw [hv0'] at hv
    exact hne1 hv

/-- `dropRow` returns a row whose cell is empty and below which no empty
cell exists (it scans from the bottom row upwards). -/
theorem dropRow_lowest {b : Board} {col r : Nat}
    (h : dropRow b col = some r) :
    getCell b r col = some 0 ∧
      ∀ r', r < r' → r' < ROWS → getCell b r' col ≠ some 0 := by
  unfold dropRow at h
  simp only [List.find?] at h
  by_cases h5 : (getCell b 5 col == some 0) = true
  · rw [h5] at h
    injection h with h
    subst h
    exact ⟨by simpa using h5, fun r' h1 h2 => by
      replace h2 : r' < 6 := h2; omega⟩
  · rw [Bool.not_eq_true] at h5
    rw [h5] at h
    by_cases h4 : (getCell b 4 col == some 0) = true
    · rw [h4] at h
      injection h with h
      subst h
      refine ⟨by simpa using h4, fun r' h1 h2 => ?_⟩
      replace h2 : r' < 6 := h2
      have : r' = 5 := by omega
      subst this
      simpa using h5
    · rw [Bool.not_eq_true] at h4
      rw [h4] at h
      by_cases h3 : (getCell b 3 col == some 0) = true
      · rw [h3] at h
        injection h with h
        subst h
        refine ⟨by simpa using h3, fun r' h1 h2 => ?_⟩
        replace h2 : r' < 6 := h2
        interval_cases r'
        · simpa using h4
        · simpa using h5
      · rw [Bool.not_eq_true] at h3
        rw [h3] at h
        by_cases h2 : (getCell b 2 col == some 0) = true
        · rw [h2] at h
          injection h with h
          subst h
          refine ⟨by simpa using h2, fun r' ha hb => ?_⟩
          replace hb : r' < 6 := hb
          interval_cases r'
          · simpa using h3
          · simpa using h4
          · simpa using h5
        · rw [Bool.not_eq_true] at h2
          rw [h2] at h
          by_cases h1 : (getCell b 1 col == some 0) = true
          · rw [h1] at h
            injection h with h
            subst h
            refine ⟨by simpa using h1, fun r' ha hb => ?_⟩
            replace hb : r' < 6 := hb
            interval_cases r'
            · simpa using h2
            · simpa using h3
            · simpa using h4
            · simpa using h5
          · rw [Bool.not_eq_true] at h1
            rw [h1] at h
            by_cases h0 : (getCell b 0 col == some 0) = true
            · rw [h0] at h
              injection h with h
              subst h
              refine ⟨by simpa using h0, fun r' ha hb => ?_⟩
              replace hb : r' < 6 := hb
              interval_cases r'
              · simpa using h1
              · simpa using h2
              · simpa using h3
              · simpa using h4
              · simpa using h5
            · rw [Bool.not_eq_true] at h0
              rw [h0] at h
              simp at h

/-- `makeMove` on a valid column: the piece lands on the drop row (which
was empty), every other cell is untouched. -/
theorem makeMove_valid_spec (b : Board) (col : Nat) {p : Nat} (hp : p ≠ 0)
    (hv : isValidMove b col = true) :
    ∃ r, dropRow b col = some r ∧ getCell b r col = some 0 ∧
      getCell (makeMove b col p) r col = some p ∧
      ∀ r' c', ¬(r' = r ∧ c' = col) →
        getCell (makeMove b col p) r' c' = getCell b r' c' := by
  obtain ⟨r, hdrop, hcell⟩ := dropRow_of_valid hv
  refine ⟨r, hdrop, hcell, ?_, ?_⟩
  · unfold makeMove
    rw [hdrop]
    exact getCell_setCell_same hcell p
  · intro r' c' hne
    unfold makeMove
    rw [hdrop]
    exact getCell_setCell_other p hne

/-- `makeMove` on an invalid column (full under gravity, or out of range)
returns the board unchanged. -/
theorem makeMove_invalid (b : Board) (col p : Nat) (hWF : BoardWF b)
    (hG : Gravity b) (hv : isValidMove b col = false) :
    makeMove b col p = b := by
  cases hdrop : dropRow b col with
  | none => unfold makeMove; rw [hdrop]
  | some r =>
    exfalso
    have hr0 := (dropRow_lowest hdrop).1
    unfold isValidMove at hv
    have hne : getCell b 0 col ≠ some 0 := by
      intro hcontra
      rw [hcontra] at hv
      simp at hv
    have hc : col < COLS := col_lt_of_getCell hWF hr0
    have hr6 : r < ROWS := by
      unfold dropRow at hdrop
      have hmem : r ∈ [5, 4, 3, 2, 1, 0] := List.mem_of_find?_eq_some hdrop
      have : r ≤ 5 := by
        simp only [List.mem_cons, List.not_mem_nil, or_false] at hmem
        rcases hmem with rfl | rfl | rfl | rfl | rfl | rfl <;> omega
      show r < 6
      omega
    cases h0 : getCell b 0 col with
    | none =>
      obtain ⟨v, hv0⟩ := @getCell_exists b hWF 0 col (by show (0:Nat) < 6; omega) hc
      rw [h0] at hv0
      simp at hv0
    | some v =>
      have hvne : v ≠ 0 := by
        intro hveq
        rw [hveq] at h0
        exact hne h0
      exact gravity_column hWF hG h0 hvne r hr6 0 hr0 rfl

/-! ## Players

TypeScript types the player arguments as the literal union `1 | 2`; we use
the corresponding subtype. -/

/-- The literal union type `1 | 2`. -/
def Player := {n : Nat // n = 1 ∨ n = 2}

instance : DecidableEq Player := fun a b =>
  decidable_of_iff (a.val = b.val) Subtype.ext_iff.symm

/-- The constant `PLAYER` as a `Player`. -/
def playerP : Player := ⟨1, Or.inl rfl⟩

/-- The constant `BOT` as a `Player`. -/
def playerB : Player := ⟨2, Or.inr rfl⟩

/-- `botPlayer === BOT ? PLAYER : BOT` (lines 300, 387). -/
def humanOf (botPlayer : Player) : Player :=
  if botPlayer.val = BOT then playerP else playerB

/-- `currentPlayer === PLAYER ? BOT : PLAYER` (line 533). -/
def opponentOf (currentPlayer : Player) : Player :=
  if currentPlayer.val = PLAYER then playerB else playerP

theorem player_val_ne_zero (p : Player) : p.val ≠ 0 := by
  rcases p.2 with h | h <;> simp [h]

/-! ## The search algorithms

The recursive searches are modelled with an explicit fuel argument and
structural recursion (so that they compute by reduction); every recursive
call plays a piece, so `countEmpty b + 1` fuel — which all entry points
supply — is always enough, and the out-of-fuel branch is unreachable
(`searchFuel_sufficient` below makes this precise through the proofs that
rely on it).  The `for (const col of validMoves)` loops with `break` are
modelled as list recursions parameterized by the evaluation of a child
board, mirroring the loop bodies line by line. -/

/-! ### Plain alpha-beta (`alphaBetaPruningAlgorithm`, lines 289–366)

Each function returns the score together with the number of times the code
would have executed `nodesRef.count++` during the call. -/

/-- The maximizing `for (const col of validMoves)` loop of
`alphaBetaPruningAlgorithm` (lines 318–340): `child nb a bb` evaluates the
recursive call on `nb` with window `(a, bb)`; `acc` carries `maxEval`. -/
def abMaxLoop (child : Board → JNum → JNum → JNum × Nat) (b : Board)
    (bot : Player) : List Nat → JNum → JNum → JNum → JNum × Nat
  | [], _, _, acc => (acc, 0)
  | col :: rest, alpha, beta, acc =>
    let r := child (makeMove b col bot.val) alpha beta
    let acc' := JNum.max acc r.1
    let alpha' := JNum.max alpha r.1
    if JNum.ble beta alpha' then (acc', r.2)
    else
      let rest' := abMaxLoop child b bot rest alpha' beta acc'
      (rest'.1, r.2 + rest'.2)

/-- The minimizing loop of `alphaBetaPruningAlgorithm` (lines 341–365),
playing the human's piece; `acc` carries `minEval`. -/
def abMinLoop (child : Board → JNum → JNum → JNum × Nat) (b : Board)
    (human : Player) : List Nat → JNum → JNum → JNum → JNum × Nat
  | [], _, _, acc => (acc, 0)
  | col :: rest, alpha, beta, acc =>
    let r := child (makeMove b col human.val) alpha beta
    let acc' := JNum.min acc r.1
    let beta' := JNum.min beta r.1
    if JNum.ble beta' alpha then (acc', r.2)
    else
      let rest' := abMinLoop child b human rest alpha beta' acc'
      (rest'.1, r.2 + rest'.2)

/-- `alphaBetaPruningAlgorithm` (lines 289–366), fuelled. -/
def alphaBetaPruningAlgorithm : Nat → Board → Int → JNum → JNum → Bool →
    Player → JNum × Nat
  | 0, _, _, _, _, _, _ => (JNum.negInf, 0)
  | fuel + 1, b, depth, alpha, beta, maximizing, botPlayer =>
    let humanPlayer := humanOf botPlayer
    let winner := checkWinner b
    if winner = botPlayer.val then (JNum.fin (10000 + depth), 1)
    else if winner = humanPlayer.val then (JNum.fin (-10000 - depth), 1)
    else if depth = 0 ∨ isBoardFull b then
      (JNum.fin (evaluateBoard b botPlayer.val), 1)
    else if maximizing then
      let r := abMaxLoop
        (fun nb a bb => alphaBetaPruningAlgorithm fuel nb (depth - 1) a bb
          false botPlayer)
        b botPlayer (getValidMoves b) alpha beta JNum.negInf
      (r.1, r.2 + 1)
    else
      let r := abMinLoop
        (fun nb a bb => alphaBetaPruningAlgorithm fuel nb (depth - 1) a bb
          true botPlayer)
        b humanPlayer (getValidMoves b) alpha beta JNum.posInf
      (r.1, r.2 + 1)

/-! ### Alpha-beta with transposition table
(`alphaBetaPruningWithTranspositionTableAlgorithm`, lines 375–495)

Each function returns `(score, table after the call, nodes counted)`. -/

/-- The transposition-table lookup block shared by both table-based
searches (lines 392–406 and 516–531): given the cached entry, produce the
narrowed `(alpha, beta)` and an early-return score when the code `return`s
inside the block. -/
def ttLookup (cached : Option TTEntry) (depth : Int) (alpha beta : JNum) :
    JNum × JNum × Option JNum :=
  match cached with
  | none => (alpha, beta, none)
  | some e =>
    if depth ≤ e.depth then
      match e.flag with
      | TTFlag.EXACT => (alpha, beta, some e.score)
      | TTFlag.LOWERBOUND =>
        let alpha' := JNum.max alpha e.score
        (alpha', beta, if JNum.ble beta alpha' then some e.score else none)
      | TTFlag.UPPERBOUND =>
        let beta' := JNum.min beta e.score
        (alpha, beta', if JNum.ble beta' alpha then some e.score else none)
    else (alpha, beta, none)

/-- The flag stored after search (lines 483–490 and 604–611):
`UPPERBOUND` when `score <= alphaOrig`, `LOWERBOUND` when
`score >= betaOrig`, otherwise `EXACT`. -/
def storeFlag (score alphaOrig betaOrig : JNum) : TTFlag :=
  if JNum.ble score alphaOrig then TTFlag.UPPERBOUND
  else if JNum.ble betaOrig score then TTFlag.LOWERBOUND
  else TTFlag.EXACT

/-- The maximizing move loop of the transposition-table search
(lines 427–451), threading the table; `acc` carries `maxEval`. -/
def ttMaxLoop (child : Board → JNum → JNum → TT → JNum × TT × Nat)
    (b : Board) (bot : Player) :
    List Nat → JNum → JNum → TT → JNum → JNum × TT × Nat
  | [], _, _, t, acc => (acc, t, 0)
  | col :: rest, alpha, beta, t, acc =>
    let r := child (makeMove b col bot.val) alpha beta t
    let acc' := JNum.max acc r.1
    let alpha' := JNum.max alpha r.1
    if JNum.ble beta alpha' then (acc', r.2.1, r.2.2)
    else
      let rest' := ttMaxLoop child b bot rest alpha' beta r.2.1 acc'
      (rest'.1, rest'.2.1, r.2.2 + rest'.2.2)

/-- The minimizing move loop of the transposition-table search
(lines 452–477); `acc` carries `minEval`. -/
def ttMinLoop (child : Board → JNum → JNum → TT → JNum × TT × Nat)
    (b : Board) (human : Player) :
    List Nat → JNum → JNum → TT → JNum → JNum × TT × Nat
  | [], _, _, t, acc => (acc, t, 0)
  | col :: rest, alpha, beta, t, acc =>
    let r := child (makeMove b col human.val) alpha beta t
    let acc' := JNum.min acc r.1
    let beta' := JNum.min beta r.1
    if JNum.ble beta' alpha then (acc', r.2.1, r.2.2)
    else
      let rest' := ttMinLoop child b human rest alpha beta' r.2.1 acc'
      (rest'.1, rest'.2.1, r.2.2 + rest'.2.2)

/-- `alphaBetaPruningWithTranspositionTableAlgorithm` (lines 375–495),
fuelled.  `alphaOrig` is the `alpha` received at entry (line 386, before
the table lookup); `betaOrig` is `beta` as of line 424, after the lookup
may have narrowed it. -/
def alphaBetaPruningWithTranspositionTableAlgorithm : Nat → Board → Int →
    JNum → JNum → Bool → Player → TT → JNum × TT × Nat
  | 0, _, _, _, _, _, _, t => (JNum.negInf, t, 0)
  | fuel + 1, b, depth, alpha, beta, maximizing, botPlayer, t =>
    let alphaOrig := alpha
    let humanPlayer := humanOf botPlayer
    let hash := getBoardHash b ++ "-" ++ (if maximizing then "max" else "min")
    let look := ttLookup (ttGet t hash) depth alpha beta
    match look.2.2 with
    | some s => (s, t, 1)
    | none =>
      let alpha1 := look.1
      let beta1 := look.2.1
      let winner := checkWinner b
      if winner = botPlayer.val then (JNum.fin (10000 + depth), t, 1)
      else if winner = humanPlayer.val then (JNum.fin (-10000 - depth), t, 1)
      else if depth = 0 ∨ isBoardFull b then
        (JNum.fin (evaluateBoard b botPlayer.val), t, 1)
      else
        let betaOrig := beta1
        let r :=
          if maximizing then
            ttMaxLoop
              (fun nb a bb t' =>
                alphaBetaPruningWithTranspositionTableAlgorithm fuel nb
                  (depth - 1) a bb false botPlayer t')
              b botPlayer (getValidMoves b) alpha1 beta1 t JNum.negInf
          else
            ttMinLoop
              (fun nb a bb t' =>
                alphaBetaPruningWithTranspositionTableAlgorithm fuel nb
                  (depth - 1) a bb true botPlayer t')
              b humanPlayer (getValidMoves b) alpha1 beta1 t JNum.posInf
        let score := r.1
        let flag := storeFlag score alphaOrig betaOrig
        (score, ttSet r.2.1 hash ⟨score, depth, flag⟩, r.2.2 + 1)

/-! ### Memory-enhanced alpha-beta for MTD(f)
(`alphaBetaPruningWithMemoryAlgorithm`, lines 503–616) -/

/-- The maximizing move loop of the memory search (lines 554–575):
`bestScore` in `acc`; note `alpha` is updated from the running `bestScore`
and the cutoff test is `alpha >= beta`. -/
def memMaxLoop (child : Board → JNum → JNum → TT → JNum × TT × Nat)
    (b : Board) (currentPlayer : Player) :
    List Nat → JNum → JNum → TT → JNum → JNum × TT × Nat
  | [], _, _, t, acc => (acc, t, 0)
  | col :: rest, alpha, beta, t, acc =>
    let r := child (makeMove b col currentPlayer.val) alpha beta t
    let acc' := JNum.max acc r.1
    let alpha' := JNum.max alpha acc'
    if JNum.ble beta alpha' then (acc', r.2.1, r.2.2)
    else
      let rest' := memMaxLoop child b currentPlayer rest alpha' beta r.2.1 acc'
      (rest'.1, rest'.2.1, r.2.2 + rest'.2.2)

/-- The minimizing move loop of the memory search (lines 576–598):
`bestScore` in `acc`; `beta` is updated from the running `bestScore` and
the cutoff test is `alpha >= beta`. -/
def memMinLoop (child : Board → JNum → JNum → TT → JNum × TT × Nat)
    (b : Board) (currentPlayer : Player) :
    List Nat → JNum → JNum → TT → JNum → JNum × TT × Nat
  | [], _, _, t, acc => (acc, t, 0)
  | col :: rest, alpha, beta, t, acc =>
    let r := child (makeMove b col currentPlayer.val) alpha beta t
    let acc' := JNum.min acc r.1
    let beta' := JNum.min beta acc'
    if JNum.ble beta' alpha then (acc', r.2.1, r.2.2)
    else
      let rest' := memMinLoop child b currentPlayer rest alpha beta' r.2.1 acc'
      (rest'.1, rest'.2.1, r.2.2 + rest'.2.2)

/-- `alphaBetaPruningWithMemoryAlgorithm` (lines 503–616), fuelled: like
the transposition-table search but parameterized by the player to move,
whose hash key records that player; maximizes exactly when
`currentPlayer = botPlayer`. -/
def alphaBetaPruningWithMemoryAlgorithm : Nat → Board → Int → JNum → JNum →
    Player → Player → TT → JNum × TT × Nat
  | 0, _, _, _, _, _, _, t => (JNum.negInf, t, 0)
  | fuel + 1, b, depth, alpha, beta, currentPlayer, botPlayer, t =>
    let alphaOrig := alpha
    let hash := getBoardHash b ++ "-" ++ toString currentPlayer.val
    let look := ttLookup (ttGet t hash) depth alpha beta
    match look.2.2 with
    | some s => (s, t, 1)
    | none =>
      let alpha1 := look.1
      let beta1 := look.2.1
      let opponent := opponentOf currentPlayer
      let winner := checkWinner b
      if winner = botPlayer.val then (JNum.fin (10000 + depth), t, 1)
      else if winner ≠ 0 ∧ winner ≠ botPlayer.val then
        (JNum.fin (-10000 - depth), t, 1)
      else if depth = 0 ∨ isBoardFull b then
        (JNum.fin (evaluateBoard b botPlayer.val), t, 1)
      else
        let betaOrig := beta1
        let r :=
          if currentPlayer = botPlayer then
            memMaxLoop
              (fun nb a bb t' =>
                alphaBetaPruningWithMemoryAlgorithm fuel nb (depth - 1)
                  a bb opponent botPlayer t')
              b currentPlayer (getValidMoves b) alpha1 beta1 t JNum.negInf
          else
            memMinLoop
              (fun nb a bb t' =>
                alphaBetaPruningWithMemoryAlgorithm fuel nb (depth - 1)
                  a bb opponent botPlayer t')
              b currentPlayer (getValidMoves b) alpha1 beta1 t JNum.posInf
        let bestScore := r.1
        let flag := storeFlag bestScore alphaOrig betaOrig
        (bestScore, ttSet r.2.1 hash ⟨bestScore, depth, flag⟩, r.2.2 + 1)


/-! ## MTD(f) (`mtdfAlgorithm`, lines 624–661)

The `while (lowerBound < upperBound)` loop is modelled with fuel; `none`
models a run that would still be looping after `fuel` iterations.  We
later prove that `mtdfFuel` always suffices. -/

/-- Upper bound on the absolute value of the finite scores stored in a
table. -/
def ttAbsBound (t : TT) : Nat :=
  t.foldr (fun p acc =>
    Nat.max acc (match p.2.score with | JNum.fin n => n.natAbs | _ => 0)) 0

/-- A bound on the magnitude of every score the memory search can produce
from a given table at a given depth (win scores are at most
`10000 + |depth|`, static evaluations are far smaller, and at most 42
plies are ever added). -/
def scoreBound (t : TT) (depth : Int) : Nat :=
  Nat.max (10043 + depth.natAbs + ttAbsBound t) 10043

/-- Fuel that provably suffices for the MTD(f) convergence loop. -/
def mtdfFuel (t : TT) (depth : Int) : Nat :=
  4 * scoreBound t depth + 16

/-- One iteration of the `while` loop of `mtdfAlgorithm` (lines 637–658),
iterated with fuel. -/
def mtdfLoop (b : Board) (depth : Int) (currentPlayer botPlayer : Player) :
    Nat → JNum → JNum → JNum → TT → Nat → Option (JNum × TT × Nat)
  | fuel, g, lowerBound, upperBound, t, nodes =>
    if JNum.blt lowerBound upperBound then
      match fuel with
      | 0 => none
      | fuel' + 1 =>
        let beta := JNum.max g (JNum.addInt lowerBound 1)
        let r := alphaBetaPruningWithMemoryAlgorithm (countEmpty b + 1) b
          depth (JNum.addInt beta (-1)) beta currentPlayer botPlayer t
        let g' := r.1
        if JNum.blt g' beta then
          mtdfLoop b depth currentPlayer botPlayer fuel' g' lowerBound g' r.2.1 (nodes + r.2.2)
        else
          mtdfLoop b depth currentPlayer botPlayer fuel' g' g' upperBound r.2.1 (nodes + r.2.2)
    else some (g, t, nodes)

/-- `mtdfAlgorithm` (lines 624–661). -/
def mtdfAlgorithm (b : Board) (depth : Int) (firstGuess : JNum)
    (currentPlayer botPlayer : Player) (t : TT) : Option (JNum × TT × Nat) :=
  mtdfLoop b depth currentPlayer botPlayer (mtdfFuel t depth) firstGuess
    JNum.negInf JNum.posInf t 0

/-! ## Root move selection (`findBestMove`, lines 663–747) -/

/-- `Algorithm` (line 9). -/
inductive Algorithm where
  | alphabeta : Algorithm
  | transposition : Algorithm
  | mtdf : Algorithm
deriving DecidableEq, Repr

/-- The result object of `findBestMove` (lines 742–746); `col = none`
models the `undefined` produced when there is no valid move. -/
structure SearchResult where
  col : Option Nat
  evaluation : JNum
  nodes : Nat
deriving DecidableEq, Repr

/-- The root candidate loop for the non-MTD(f) branch (lines 712–739),
threading the table (which the plain branch simply never touches). -/
def rootLoopAB (b : Board) (useTransposition : Bool) (depth : Int)
    (moves : List Nat) (bestCol : Option Nat) (bestScore : JNum) (t : TT)
    (nodes : Nat) : Option Nat × JNum × TT × Nat :=
  match moves with
  | [] => (bestCol, bestScore, t, nodes)
  | col :: rest =>
    let newBoard := makeMove b col BOT
    let r :=
      if useTransposition then
        alphaBetaPruningWithTranspositionTableAlgorithm (countEmpty newBoard + 1)
          newBoard (depth - 1) JNum.negInf JNum.posInf false playerB t
      else
        let r0 := alphaBetaPruningAlgorithm (countEmpty newBoard + 1) newBoard
          (depth - 1) JNum.negInf JNum.posInf false playerB
        (r0.1, t, r0.2)
    let score := r.1
    if JNum.blt bestScore score then
      rootLoopAB b useTransposition depth rest (some col) score r.2.1 (nodes + r.2.2)
    else
      rootLoopAB b useTransposition depth rest bestCol bestScore r.2.1 (nodes + r.2.2)

/-- The inner candidate loop of the MTD(f) branch (lines 686–702).
Returns `none` if some null-window loop fails to converge within its fuel
(which we prove never happens). -/
def rootLoopMtdf (b : Board) (moves : List Nat) (d : Int)
    (firstGuess : JNum) (tempBestCol : Option Nat) (tempBestScore : JNum)
    (t : TT) (nodes : Nat) : Option (Option Nat × JNum × TT × Nat) :=
  match moves with
  | [] => some (tempBestCol, tempBestScore, t, nodes)
  | col :: rest =>
    let newBoard := makeMove b col BOT
    match mtdfAlgorithm newBoard (d - 1) firstGuess playerP playerB t with
    | none => none
    | some r =>
      let score := r.1
      if JNum.blt tempBestScore score then
        rootLoopMtdf b rest d firstGuess (some col) score r.2.1 (nodes + r.2.2)
      else
        rootLoopMtdf b rest d firstGuess tempBestCol tempBestScore r.2.1 (nodes + r.2.2)

/-- The iterative-deepening loop of the MTD(f) branch (lines 682–707),
over `d = 1 .. depth`. -/
def rootDeepenMtdf (b : Board) (moves : List Nat) :
    List Int → JNum → Option Nat → JNum → TT → Nat →
    Option (Option Nat × JNum × TT × Nat)
  | [], _, bestCol, bestScore, t, nodes => some (bestCol, bestScore, t, nodes)
  | d :: ds, firstGuess, bestCol, bestScore, t, nodes =>
    match rootLoopMtdf b moves d firstGuess moves.head? JNum.negInf t nodes with
    | none => none
    | some r =>
      rootDeepenMtdf b moves ds r.2.1 r.1 r.2.1 r.2.2.1 r.2.2.2

/-- `findBestMove` (lines 663–747), with the ambient global transposition
table made an explicit argument and returned.  Returns `none` only when an
MTD(f) null-window loop would not have converged within our fuel (we prove
this does not happen). -/
def findBestMove (b : Board) (algorithm : Algorithm) (depth : Int)
    (t : TT) : Option (SearchResult × TT) :=
  let validMoves := getValidMoves b
  match algorithm with
  | Algorithm.mtdf =>
    let ds := (List.range depth.toNat).map (fun i => Int.ofNat i + 1)
    match rootDeepenMtdf b validMoves ds (JNum.fin 0) validMoves.head?
        JNum.negInf t 0 with
    | none => none
    | some r => some (⟨r.1, r.2.1, r.2.2.2⟩, r.2.2.1)
  | a =>
    let r := rootLoopAB b (a = Algorithm.transposition) depth validMoves
      validMoves.head? JNum.negInf t 0
    some (⟨r.1, r.2.1, r.2.2.2⟩, r.2.2.1)

/-- Looking up the key just stored returns the stored entry. -/
theorem ttGet_ttSet_same (t : TT) (k : String) (e : TTEntry) :
    ttGet (ttSet t k e) k = some e := by
  unfold ttGet ttSet
  simp [List.find?]

/-! ## Preservation and boundedness lemmas -/

/-- `makeMove` with a cell value in range preserves well-formedness. -/
theorem BoardWF_makeMove {b : Board} (hWF : BoardWF b) (col : Nat)
    {p : Nat} (hp : p ≤ 2) : BoardWF (makeMove b col p) := by
  cases hdrop : dropRow b col with
  | none =>
    rw [show makeMove b col p = b from by unfold makeMove; rw [hdrop]]
    exact hWF
  | some r =>
    rw [show makeMove b col p = setCell b r col p from by
      unfold makeMove; rw [hdrop]]
    cases hrow : b.get? r with
    | none =>
      rw [show setCell b r col p = b from by unfold setCell; rw [hrow]]
      exact hWF
    | some row =>
      rw [show setCell b r col p = b.set r (row.set col p) from by
        unfold setCell; rw [hrow]]
      obtain ⟨hlen, hrows⟩ := hWF
      refine ⟨by rw [List.length_set]; exact hlen, ?_⟩
      intro row' hrow'
      rcases List.mem_or_eq_of_mem_set hrow' with hmem | rfl
      · exact hrows row' hmem
      · obtain ⟨hrl, hrc⟩ := hrows row (List.get?_mem hrow)
        refine ⟨by rw [List.length_set]; exact hrl, ?_⟩
        intro c hc
        rcases List.mem_or_eq_of_mem_set hc with hmem | rfl
        · exact hrc c hmem
        · exact hp

/-- Lists of rows of fixed width 7 have total length `7 * rows`. -/
theorem sum_row_lengths (l : List (List Nat))
    (h : ∀ row ∈ l, row.length = 7) :
    (l.map (fun row => row.length)).sum = 7 * l.length := by
  induction l with
  | nil => simp
  | cons row rest ih =>
    simp only [List.map_cons, List.sum_cons, List.length_cons]
    rw [h row (List.mem_cons_self _ _), ih (fun r hr => h r (List.mem_cons_of_mem _ hr))]
    ring

/-- On a well-formed board there are at most 42 empty cells. -/
theorem countEmpty_le_42 {b : Board} (hWF : BoardWF b) :
    countEmpty b ≤ 42 := by
  obtain ⟨hlen, hrows⟩ := hWF
  unfold countEmpty
  have h1 : (b.map (fun row => row.countP (fun c => c == 0))).sum ≤
      (b.map (fun row => row.length)).sum :=
    List.sum_le_sum (fun row _ => List.countP_le_length _)
  have h2 := sum_row_lengths b (fun row hrow => (hrows row hrow).1)
  have h3 : b.length = 6 := hlen
  omega

/-- A well-formed, not-full board has at least one valid move. -/
theorem getValidMoves_ne_nil {b : Board} (hWF : BoardWF b)
    (hfull : isBoardFull b = false) : getValidMoves b ≠ [] := by
  rcases b with _ | ⟨row0, rest⟩
  · exact absurd hWF.1 (by decide)
  · unfold isBoardFull at hfull
    simp only [List.headD_cons, List.all_eq_false] at hfull
    obtain ⟨cell, hcell, hcell0⟩ := hfull
    have hcz : cell = 0 := by
      by_cases h : cell = 0
      · exact h
      · exact absurd (by simp [h]) hcell0
    subst hcz
    obtain ⟨c, hc⟩ := List.mem_iff_get?.mp hcell
    have hclen : c < row0.length := (List.get?_eq_some.mp hc).choose
    have hc7 : c < 7 := by
      have h7 : row0.length = 7 := (hWF.2 row0 (List.mem_cons_self _ _)).1
      omega
    have hvalid : isValidMove (row0 :: rest) c = true := by
      unfold isValidMove
      have hg : getCell (row0 :: rest) 0 c = some 0 := by
        unfold getCell
        show row0.get? c = some 0
        exact hc
      rw [hg]
      rfl
    apply List.ne_nil_of_mem (a := c)
    unfold getValidMoves
    rw [List.mem_filter]
    exact ⟨List.mem_range.mpr hc7, hvalid⟩

/-- A single window's score lies in `[-4, 100]`. -/
theorem evaluateWindow_bounds (w : List Nat) (p o : Nat) :
    -4 ≤ evaluateWindow w p o ∧ evaluateWindow w p o ≤ 100 := by
  unfold evaluateWindow
  dsimp only
  split_ifs <;> constructor <;> omega

/-- Summing values in `[-4, 100]`. -/
theorem sum_bounds_int (l : List Int) (h : ∀ x ∈ l, -4 ≤ x ∧ x ≤ 100) :
    -4 * (l.length : Int) ≤ l.sum ∧ l.sum ≤ 100 * (l.length : Int) := by
  induction l with
  | nil => simp
  | cons a rest ih =>
    have ha := h a (List.mem_cons_self _ _)
    have hr := ih (fun x hx => h x (List.mem_cons_of_mem _ hx))
    simp only [List.sum_cons, List.length_cons]
    push_cast
    constructor <;> nlinarith [ha.1, ha.2, hr.1, hr.2]

/-- `evaluateBoard` scans exactly 69 windows on any board. -/
theorem allWindows_count (b : Board) : (allWindows b).length = 69 := by
  rfl

/-- The static evaluation of a well-formed board has magnitude at
most 6918. -/
theorem evaluateBoard_bound {b : Board} (hWF : BoardWF b) (p : Nat) :
    (evaluateBoard b p).natAbs ≤ 6918 := by
  unfold evaluateBoard
  set opp := if p = PLAYER then BOT else PLAYER
  have hsum := sum_bounds_int ((allWindows b).map (fun w => evaluateWindow w p opp))
    (by
      intro x hx
      obtain ⟨w, _, rfl⟩ := List.mem_map.mp hx
      exact evaluateWindow_bounds w p opp)
  rw [List.length_map, allWindows_count] at hsum
  have hcenter : (b.filter (fun row => row.get? 3 == some p)).length ≤ 6 := by
    calc (b.filter (fun row => row.get? 3 == some p)).length ≤ b.length :=
      List.length_filter_le _ _
    _ = 6 := hWF.1
  have heq : (let opponent := opp;
      let windowSum := ((allWindows b).map
        (fun w => evaluateWindow w p opponent)).sum;
      let centerCount := (b.filter (fun row => row.get? 3 == some p)).length;
      windowSum + (centerCount : Int) * 3) =
      ((allWindows b).map (fun w => evaluateWindow w p opp)).sum +
        ((b.filter (fun row => row.get? 3 == some p)).length : Int) * 3 := rfl
  rw [heq]
  omega

/-! ## Score boundedness of the memory search

These lemmas bound every value the memory-enhanced search can return or
store, which is what makes the MTD(f) convergence loop terminate. -/

/-- `x` is a finite value of magnitude at most `W`. -/
def InB (W : Nat) (x : JNum) : Prop :=
  ∃ n : Int, x = JNum.fin n ∧ n.natAbs ≤ W

/-- Every score stored in the table is finite with magnitude at most `W`. -/
def TBnd (W : Nat) (t : TT) : Prop := ∀ p ∈ t, InB W p.2.score

/-- Every score stored in the table is a finite number (no `±Infinity`);
true of every table a real run can produce. -/
def TTFinite (t : TT) : Prop := ∀ p ∈ t, ∃ n : Int, p.2.score = JNum.fin n

theorem TBnd_ttGet {W : Nat} {t : TT} (h : TBnd W t) {k : String}
    {e : TTEntry} (hg : ttGet t k = some e) : InB W e.score := by
  unfold ttGet at hg
  cases hf : t.find? (fun p => p.1 == k) with
  | none => rw [hf] at hg; simp at hg
  | some q =>
    rw [hf] at hg
    injection hg with hg
    exact hg ▸ h q (List.mem_of_find?_eq_some hf)

theorem TBnd_ttSet {W : Nat} {t : TT} (h : TBnd W t) {k : String}
    {e : TTEntry} (he : InB W e.score) : TBnd W (ttSet t k e) := by
  intro q hq
  rcases List.mem_cons.mp hq with rfl | hq
  · exact he
  · exact h q hq

/-- A finite table's scores are bounded by `ttAbsBound`. -/
theorem TTFinite_TBnd {t : TT} (h : TTFinite t) : TBnd (ttAbsBound t) t := by
  induction t with
  | nil => intro q hq; simp at hq
  | cons p rest ih =>
    intro q hq
    have habs : ttAbsBound (p :: rest) =
        Nat.max (ttAbsBound rest)
          (match p.2.score with | JNum.fin n => n.natAbs | _ => 0) := rfl
    rcases List.mem_cons.mp hq with rfl | hq
    · obtain ⟨n, hn⟩ := h q (List.mem_cons_self _ _)
      exact ⟨n, hn, by rw [habs, hn]; exact Nat.le_max_right _ _⟩
    · obtain ⟨n, hn, hb⟩ := ih (fun r hr => h r (List.mem_cons_of_mem _ hr)) q hq
      exact ⟨n, hn, by rw [habs]; exact le_trans hb (Nat.le_max_left _ _)⟩

/-- Growing the bound preserves `InB` and `TBnd`. -/
theorem InB_mono {W W' : Nat} (h : W ≤ W') {x : JNum} (hx : InB W x) :
    InB W' x := by
  obtain ⟨n, hn, hb⟩ := hx
  exact ⟨n, hn, le_trans hb h⟩

theorem TBnd_mono {W W' : Nat} (h : W ≤ W') {t : TT} (ht : TBnd W t) :
    TBnd W' t := fun p hp => InB_mono h (ht p hp)

/-- An early return out of the lookup block returns a cached score. -/
theorem ttLookup_some_score {cached : Option TTEntry} {depth : Int}
    {alpha beta a1 b1 : JNum} {s : JNum}
    (h : ttLookup cached depth alpha beta = (a1, b1, some s)) :
    ∃ e, cached = some e ∧ s = e.score := by
  cases cached with
  | none => simp [ttLookup] at h
  | some e =>
    obtain ⟨sc, dep, fl⟩ := e
    refine ⟨⟨sc, dep, fl⟩, rfl, ?_⟩
    cases fl <;> simp only [ttLookup] at h <;> split_ifs at h <;>
      simp only [Prod.mk.injEq, Option.some.injEq] at h <;>
      first
        | exact h.2.2.symm
        | exact absurd h.2.2 (by simp)

/-- `JNum.max` of an accumulator (possibly `-Infinity`) and a bounded
value is bounded. -/
theorem InB_max {W : Nat} {acc x : JNum}
    (hacc : acc = JNum.negInf ∨ InB W acc) (hx : InB W x) :
    InB W (JNum.max acc x) := by
  obtain ⟨n, rfl, hb⟩ := hx
  rcases hacc with rfl | ⟨m, rfl, hbm⟩
  · exact ⟨n, rfl, hb⟩
  · unfold JNum.max JNum.blt
    split_ifs
    · exact ⟨n, rfl, hb⟩
    · exact ⟨m, rfl, hbm⟩

/-- `JNum.min` of an accumulator (possibly `+Infinity`) and a bounded
value is bounded. -/
theorem InB_min {W : Nat} {acc x : JNum}
    (hacc : acc = JNum.posInf ∨ InB W acc) (hx : InB W x) :
    InB W (JNum.min acc x) := by
  obtain ⟨n, rfl, hb⟩ := hx
  rcases hacc with rfl | ⟨m, rfl, hbm⟩
  · exact ⟨n, rfl, hb⟩
  · unfold JNum.min JNum.blt
    split_ifs
    · exact ⟨m, rfl, hbm⟩
    · exact ⟨n, rfl, hb⟩

/-- Bound propagation through the maximizing memory loop. -/
theorem memMaxLoop_bound {W : Nat} (child : Board → JNum → JNum → TT → JNum × TT × Nat)
    (b : Board) (cur : Player)
    (hchild : ∀ col ∈ getValidMoves b, ∀ a bb t', TBnd W t' →
      InB W (child (makeMove b col cur.val) a bb t').1 ∧
      TBnd W (child (makeMove b col cur.val) a bb t').2.1) :
    ∀ (moves : List Nat), (∀ c ∈ moves, c ∈ getValidMoves b) →
      ∀ (alpha beta : JNum) (t : TT) (acc : JNum), TBnd W t →
      (acc = JNum.negInf ∨ InB W acc) → (moves = [] → InB W acc) →
      InB W (memMaxLoop child b cur moves alpha beta t acc).1 ∧
      TBnd W (memMaxLoop child b cur moves alpha beta t acc).2.1 := by
  intro moves
  induction moves with
  | nil =>
    intro _ alpha beta t acc ht hacc hne
    exact ⟨hne rfl, ht⟩
  | cons col rest ih =>
    intro hsub alpha beta t acc ht hacc hne
    obtain ⟨hr1, hr2⟩ := hchild col (hsub col (List.mem_cons_self _ _))
      alpha beta t ht
    rw [memMaxLoop]
    dsimp only
    by_cases hcut : JNum.ble beta (JNum.max alpha
        (JNum.max acc (child (makeMove b col cur.val) alpha beta t).1)) = true
    · rw [if_pos hcut]
      exact ⟨InB_max hacc hr1, hr2⟩
    · rw [if_neg hcut]
      have hrec := ih (fun c hc => hsub c (List.mem_cons_of_mem _ hc))
        (JNum.max alpha (JNum.max acc (child (makeMove b col cur.val) alpha beta t).1))
        beta (child (makeMove b col cur.val) alpha beta t).2.1
        (JNum.max acc (child (makeMove b col cur.val) alpha beta t).1)
        hr2 (Or.inr (InB_max hacc hr1)) (fun _ => InB_max hacc hr1)
      exact ⟨hrec.1, hrec.2⟩

/-- Bound propagation through the minimizing memory loop. -/
theorem memMinLoop_bound {W : Nat} (child : Board → JNum → JNum → TT → JNum × TT × Nat)
    (b : Board) (cur : Player)
    (hchild : ∀ col ∈ getValidMoves b, ∀ a bb t', TBnd W t' →
      InB W (child (makeMove b col cur.val) a bb t').1 ∧
      TBnd W (child (makeMove b col cur.val) a bb t').2.1) :
    ∀ (moves : List Nat), (∀ c ∈ moves, c ∈ getValidMoves b) →
      ∀ (alpha beta : JNum) (t : TT) (acc : JNum), TBnd W t →
      (acc = JNum.posInf ∨ InB W acc) → (moves = [] → InB W acc) →
      InB W (memMinLoop child b cur moves alpha beta t acc).1 ∧
      TBnd W (memMinLoop child b cur moves alpha beta t acc).2.1 := by
  intro moves
  induction moves with
  | nil =>
    intro _ alpha beta t acc ht hacc hne
    exact ⟨hne rfl, ht⟩
  | cons col rest ih =>
    intro hsub alpha beta t acc ht hacc hne
    obtain ⟨hr1, hr2⟩ := hchild col (hsub col (List.mem_cons_self _ _))
      alpha beta t ht
    rw [memMinLoop]
    dsimp only
    by_cases hcut : JNum.ble (JNum.min beta
        (JNum.min acc (child (makeMove b col cur.val) alpha beta t).1)) alpha = true
    · rw [if_pos hcut]
      exact ⟨InB_min hacc hr1, hr2⟩
    · rw [if_neg hcut]
      have hrec := ih (fun c hc => hsub c (List.mem_cons_of_mem _ hc))
        alpha (JNum.min beta (JNum.min acc (child (makeMove b col cur.val) alpha beta t).1))
        (child (makeMove b col cur.val) alpha beta t).2.1
        (JNum.min acc (child (makeMove b col cur.val) alpha beta t).1)
        hr2 (Or.inr (InB_min hacc hr1)) (fun _ => InB_min hacc hr1)
      exact ⟨hrec.1, hrec.2⟩

/-- Every value the memory search returns, and every score it stores, is
finite and bounded by `W`, provided the fuel covers the empty cells and
`W` covers the win scores reachable from this depth and the table. -/
theorem memAB_bound : ∀ (fuel : Nat) (b : Board) (depth : Int)
    (alpha beta : JNum) (cur bot : Player) (t : TT) (W : Nat),
    BoardWF b → TBnd W t →
    10001 + depth.natAbs + countEmpty b ≤ W → countEmpty b < fuel →
    InB W (alphaBetaPruningWithMemoryAlgorithm fuel b depth alpha beta cur bot t).1 ∧
    TBnd W (alphaBetaPruningWithMemoryAlgorithm fuel b depth alpha beta cur bot t).2.1 := by
  intro fuel
  induction fuel with
  | zero => intro b depth alpha beta cur bot t W _ _ _ hf; omega
  | succ fuel ih =>
    intro b depth alpha beta cur bot t W hWF ht hW hf
    rw [alphaBetaPruningWithMemoryAlgorithm]
    dsimp only
    rcases hlk : ttLookup (ttGet t (getBoardHash b ++ "-" ++
        toString cur.val)) depth alpha beta with ⟨a1, b1, es⟩
    cases es with
    | some s =>
      obtain ⟨e, hget, rfl⟩ := ttLookup_some_score hlk
      exact ⟨TBnd_ttGet ht hget, ht⟩
    | none =>
      by_cases hw1 : checkWinner b = bot.val
      · rw [if_pos hw1]
        exact ⟨⟨10000 + depth, rfl, by omega⟩, ht⟩
      · rw [if_neg hw1]
        by_cases hw2 : checkWinner b ≠ 0 ∧ checkWinner b ≠ bot.val
        · rw [if_pos hw2]
          exact ⟨⟨-10000 - depth, rfl, by omega⟩, ht⟩
        · rw [if_neg hw2]
          by_cases hleaf : depth = 0 ∨ isBoardFull b = true
          · rw [if_pos hleaf]
            refine ⟨⟨evaluateBoard b bot.val, rfl, ?_⟩, ht⟩
            have := evaluateBoard_bound hWF bot.val
            omega
          · rw [if_neg hleaf]
            have hfull : isBoardFull b = false := by
              rcases hb : isBoardFull b with _ | _
              · rfl
              · exact absurd (Or.inr hb) hleaf
            have hmoves : getValidMoves b ≠ [] := getValidMoves_ne_nil hWF hfull
            have hchild : ∀ col ∈ getValidMoves b, ∀ a bb t', TBnd W t' →
                InB W (alphaBetaPruningWithMemoryAlgorithm fuel
                  (makeMove b col cur.val) (depth - 1) a bb
                  (opponentOf cur) bot t').1 ∧
                TBnd W (alphaBetaPruningWithMemoryAlgorithm fuel
                  (makeMove b col cur.val) (depth - 1) a bb
                  (opponentOf cur) bot t').2.1 := by
              intro col hcol a bb t' ht'
              have hlt := countEmpty_makeMove_lt hcol (player_val_ne_zero cur)
              refine ih (makeMove b col cur.val) (depth - 1) a bb
                (opponentOf cur) bot t' W
                (BoardWF_makeMove hWF col (by rcases cur.2 with h | h <;> simp [h]))
                ht' (by omega) (by omega)
            by_cases hcb : cur = bot
            · rw [if_pos hcb]
              dsimp only
              have hloop := memMaxLoop_bound
                (fun nb a bb t' => alphaBetaPruningWithMemoryAlgorithm fuel nb
                  (depth - 1) a bb (opponentOf cur) bot t')
                b cur hchild (getValidMoves b)
                (fun c hc => hc) a1 b1 t JNum.negInf ht (Or.inl rfl)
                (fun hnil => absurd hnil hmoves)
              exact ⟨hloop.1, TBnd_ttSet hloop.2 hloop.1⟩
            · rw [if_neg hcb]
              dsimp only
              have hloop := memMinLoop_bound
                (fun nb a bb t' => alphaBetaPruningWithMemoryAlgorithm fuel nb
                  (depth - 1) a bb (opponentOf cur) bot t')
                b cur hchild (getValidMoves b)
                (fun c hc => hc) a1 b1 t JNum.posInf ht (Or.inl rfl)
                (fun hnil => absurd hnil hmoves)
              exact ⟨hloop.1, TBnd_ttSet hloop.2 hloop.1⟩

/-! ## Termination of the MTD(f) loop -/

/-- Clamp a window bound into `[-(W+1), W+1]` for the loop measure. -/
def jClampInt (W : Nat) : JNum → Int
  | JNum.negInf => -((W : Int) + 1)
  | JNum.fin n => n
  | JNum.posInf => (W : Int) + 1

/-- The loop measure: the clamped width of the `[lowerBound, upperBound]`
interval. -/
def mtdfMeasure (W : Nat) (lower upper : JNum) : Nat :=
  (jClampInt W upper - jClampInt W lower).toNat

/-- The loop invariant at the head of each MTD(f) iteration: each bound is
either still infinite or a finite value within `W`, and the running guess
does not exceed a finite upper bound (it is the value that set it, or
smaller). -/
def MtdfInv (W : Nat) (g lower upper : JNum) : Prop :=
  (upper = JNum.posInf ∨
    ∃ u : Int, upper = JNum.fin u ∧ u.natAbs ≤ W ∧
      JNum.ble g (JNum.fin u) = true) ∧
  (lower = JNum.negInf ∨ ∃ l : Int, lower = JNum.fin l ∧ l.natAbs ≤ W)

theorem jClamp_lt_of_blt_upper {W : Nat} {x u : JNum} (hx : InB W x)
    (h : JNum.blt x u = true) : jClampInt W x < jClampInt W u := by
  obtain ⟨n, rfl, hn⟩ := hx
  cases u <;> simp [JNum.blt, jClampInt] at * <;> omega

theorem jClamp_lt_of_blt_lower {W : Nat} {l x : JNum} (hx : InB W x)
    (h : JNum.blt l x = true) : jClampInt W l < jClampInt W x := by
  obtain ⟨n, rfl, hn⟩ := hx
  cases l <;> simp [JNum.blt, jClampInt] at * <;> omega

/-- One MTD(f) iteration strictly tightens the bound it updates: a
fail-low result is strictly below the current upper bound, a fail-high
result is strictly above the current lower bound. -/
theorem mtdfStep_tightens {W : Nat} {g lower upper g' : JNum}
    (hg' : InB W g') (hInv : MtdfInv W g lower upper)
    (hcont : JNum.blt lower upper = true) :
    (JNum.blt g' (JNum.max g (JNum.addInt lower 1)) = true →
      JNum.blt g' upper = true) ∧
    (JNum.blt g' (JNum.max g (JNum.addInt lower 1)) = false →
      JNum.blt lower g' = true) := by
  obtain ⟨n', rfl, hn'⟩ := hg'
  obtain ⟨hu, hl⟩ := hInv
  rcases hu with rfl | ⟨u, rfl, hub, hgu⟩ <;>
    rcases hl with rfl | ⟨l, rfl, hlb⟩ <;>
    rcases g with _ | m | _ <;>
    simp only [JNum.max, JNum.addInt] <;>
    split_ifs <;>
    constructor <;> intro hcond <;>
    simp_all [JNum.blt, JNum.ble] <;> omega

/-- The MTD(f) iteration preserves the invariant when the loop continues. -/
theorem mtdfStep_inv {W : Nat} {g lower upper g' : JNum}
    (hg' : InB W g') (hInv : MtdfInv W g lower upper)
    (hcont : JNum.blt lower upper = true) :
    (JNum.blt g' (JNum.max g (JNum.addInt lower 1)) = true →
      MtdfInv W g' lower g') ∧
    (JNum.blt g' (JNum.max g (JNum.addInt lower 1)) = false →
      JNum.blt g' upper = true → MtdfInv W g' g' upper) := by
  obtain ⟨n', rfl, hn'⟩ := hg'
  obtain ⟨hu, hl⟩ := hInv
  constructor
  · intro _
    exact ⟨Or.inr ⟨n', rfl, hn', by simp [JNum.ble]⟩, hl⟩
  · intro _ hlt
    refine ⟨?_, Or.inr ⟨n', rfl, hn'⟩⟩
    rcases hu with rfl | ⟨u, rfl, hub, hgu⟩
    · exact Or.inl rfl
    · exact Or.inr ⟨u, rfl, hub, by
        simp [JNum.blt] at hlt
        simp [JNum.ble]
        omega⟩

/-- The MTD(f) loop terminates (returns `some`) whenever the fuel exceeds
the clamped interval width, the board is well formed and the table's
scores fit in `W`. -/
theorem mtdfLoop_some (b : Board) (depth : Int) (cur bot : Player)
    (W : Nat) (hWF : BoardWF b)
    (hW : 10001 + depth.natAbs + countEmpty b ≤ W) :
    ∀ (fuel : Nat) (g lower upper : JNum) (t : TT) (nodes : Nat),
      TBnd W t →
      (JNum.blt lower upper = true →
        MtdfInv W g lower upper ∧ mtdfMeasure W lower upper < fuel) →
      mtdfLoop b depth cur bot fuel g lower upper t nodes ≠ none := by
  intro fuel
  induction fuel with
  | zero =>
    intro g lower upper t nodes ht hcont
    rw [mtdfLoop]
    cases hblt : JNum.blt lower upper with
    | false => simp
    | true => exact absurd (hcont hblt).2 (by omega)
  | succ fuel ih =>
    intro g lower upper t nodes ht hcont
    rw [mtdfLoop]
    cases hblt : JNum.blt lower upper with
    | false => simp
    | true =>
      simp only [if_pos hblt]
      obtain ⟨hInv, hm⟩ := hcont hblt
      have hbmem := memAB_bound (countEmpty b + 1) b depth
        (JNum.addInt (JNum.max g (JNum.addInt lower 1)) (-1))
        (JNum.max g (JNum.addInt lower 1)) cur bot t W hWF ht hW
        (Nat.lt_succ_self _)
      obtain ⟨hg', ht'⟩ := hbmem
      obtain ⟨htight_lo, htight_hi⟩ := mtdfStep_tightens hg' hInv hblt
      obtain ⟨hinv_lo, hinv_hi⟩ := mtdfStep_inv hg' hInv hblt
      cases hfl : JNum.blt (alphaBetaPruningWithMemoryAlgorithm
          (countEmpty b + 1) b depth
          (JNum.addInt (JNum.max g (JNum.addInt lower 1)) (-1))
          (JNum.max g (JNum.addInt lower 1)) cur bot t).1
          (JNum.max g (JNum.addInt lower 1)) with
      | true =>
        simp only [hfl, if_pos]
        apply ih _ _ _ _ _ ht'
        intro hblt'
        refine ⟨hinv_lo hfl, ?_⟩
        have h1 := jClamp_lt_of_blt_upper (W := W) hg' (htight_lo hfl)
        have h2 := jClamp_lt_of_blt_lower (W := W) hg' hblt'
        unfold mtdfMeasure at hm ⊢
        omega
      | false =>
        simp only [hfl, Bool.false_eq_true, if_false]
        apply ih _ _ _ _ _ ht'
        intro hblt'
        have hup : JNum.blt (alphaBetaPruningWithMemoryAlgorithm
            (countEmpty b + 1) b depth
            (JNum.addInt (JNum.max g (JNum.addInt lower 1)) (-1))
            (JNum.max g (JNum.addInt lower 1)) cur bot t).1 upper = true :=
          hblt'
        refine ⟨hinv_hi hfl hup, ?_⟩
        have h1 := jClamp_lt_of_blt_lower (W := W) hg' (htight_hi hfl)
        have h2 := jClamp_lt_of_blt_upper (W := W) hg' hup
        unfold mtdfMeasure at hm ⊢
        omega

/-! ## Order toolkit for `JNum`

Small facts about the JavaScript comparisons and `Math.max`/`Math.min`
used throughout the fail-soft correctness proofs for claim C1. -/

theorem jblt_irrefl (a : JNum) : JNum.blt a a = false := by
  cases a <;> simp [JNum.blt]

theorem jnot_ble {a b : JNum} : JNum.ble a b = false ↔ JNum.blt b a = true := by
  cases a <;> cases b <;> simp [JNum.ble, JNum.blt] <;> omega

theorem jnot_blt {a b : JNum} : JNum.blt a b = false ↔ JNum.ble b a = true := by
  cases a <;> cases b <;> simp [JNum.ble, JNum.blt] <;> omega

theorem jble_trans {a b c : JNum} (h1 : JNum.ble a b = true)
    (h2 : JNum.ble b c = true) : JNum.ble a c = true := by
  cases a <;> cases b <;> cases c <;> simp_all [JNum.ble] <;> omega

theorem jble_blt_trans {a b c : JNum} (h1 : JNum.ble a b = true)
    (h2 : JNum.blt b c = true) : JNum.blt a c = true := by
  cases a <;> cases b <;> cases c <;> simp_all [JNum.ble, JNum.blt] <;> omega

theorem jblt_ble_trans {a b c : JNum} (h1 : JNum.blt a b = true)
    (h2 : JNum.ble b c = true) : JNum.blt a c = true := by
  cases a <;> cases b <;> cases c <;> simp_all [JNum.ble, JNum.blt] <;> omega

theorem jble_of_blt {a b : JNum} (h : JNum.blt a b = true) :
    JNum.ble a b = true := by
  cases a <;> cases b <;> simp_all [JNum.ble, JNum.blt] <;> omega

theorem jmax_negInf_left (a : JNum) : JNum.max JNum.negInf a = a := by
  cases a <;> rfl

theorem jmax_negInf_right (a : JNum) : JNum.max a JNum.negInf = a := by
  cases a <;> rfl

theorem jmax_posInf_left (a : JNum) : JNum.max JNum.posInf a = JNum.posInf := by
  cases a <;> rfl

theorem jmax_posInf_right (a : JNum) : JNum.max a JNum.posInf = JNum.posInf := by
  cases a <;> rfl

theorem jmax_fin_fin (m n : Int) :
    JNum.max (JNum.fin m) (JNum.fin n) = JNum.fin (Max.max m n) := by
  unfold JNum.max JNum.blt
  split_ifs with h <;> simp at h <;> congr 1 <;> omega

theorem jmin_posInf_left (a : JNum) : JNum.min JNum.posInf a = a := by
  cases a <;> rfl

theorem jmin_posInf_right (a : JNum) : JNum.min a JNum.posInf = a := by
  cases a <;> rfl

theorem jmin_negInf_left (a : JNum) : JNum.min JNum.negInf a = JNum.negInf := by
  cases a <;> rfl

theorem jmin_negInf_right (a : JNum) : JNum.min a JNum.negInf = JNum.negInf := by
  cases a <;> rfl

theorem jmin_fin_fin (m n : Int) :
    JNum.min (JNum.fin m) (JNum.fin n) = JNum.fin (Min.min m n) := by
  unfold JNum.min JNum.blt
  split_ifs with h <;> simp at h <;> congr 1 <;> omega

theorem jmax_eq_right {a b : JNum} (h : JNum.blt a b = true) :
    JNum.max a b = b := by
  unfold JNum.max
  rw [if_pos h]

theorem jmin_eq_right {a b : JNum} (h : JNum.blt a b = false) :
    JNum.min a b = b := by
  unfold JNum.min
  rw [if_neg (by simp [h])]

theorem jmax_lt_iff {a b c : JNum} :
    JNum.blt (JNum.max a b) c = true ↔
      JNum.blt a c = true ∧ JNum.blt b c = true := by
  unfold JNum.max
  split_ifs with h <;>
    cases a <;> cases b <;> cases c <;> simp_all [JNum.ble, JNum.blt] <;> omega

theorem jle_max_iff {a b c : JNum} :
    JNum.ble c (JNum.max a b) = true ↔
      JNum.ble c a = true ∨ JNum.ble c b = true := by
  unfold JNum.max
  split_ifs with h <;>
    cases a <;> cases b <;> cases c <;> simp_all [JNum.ble, JNum.blt] <;> omega

theorem jble_left_max (a b : JNum) : JNum.ble a (JNum.max a b) = true := by
  unfold JNum.max
  split_ifs with h <;>
    cases a <;> cases b <;> simp_all [JNum.ble, JNum.blt] <;> omega

theorem jble_right_max (a b : JNum) : JNum.ble b (JNum.max a b) = true := by
  unfold JNum.max
  split_ifs with h <;>
    cases a <;> cases b <;> simp_all [JNum.ble, JNum.blt] <;> omega

theorem jmax_mono_left {a a' : JNum} (h : JNum.ble a a' = true) (b : JNum) :
    JNum.ble (JNum.max a b) (JNum.max a' b) = true := by
  unfold JNum.max
  split_ifs with h1 h2 <;>
    cases a <;> cases a' <;> cases b <;> simp_all [JNum.ble, JNum.blt] <;> omega

theorem jgt_min_iff {a b c : JNum} :
    JNum.blt c (JNum.min a b) = true ↔
      JNum.blt c a = true ∧ JNum.blt c b = true := by
  unfold JNum.min
  split_ifs with h <;>
    cases a <;> cases b <;> cases c <;> simp_all [JNum.ble, JNum.blt] <;> omega

theorem jmin_le_iff {a b c : JNum} :
    JNum.ble (JNum.min a b) c = true ↔
      JNum.ble a c = true ∨ JNum.ble b c = true := by
  unfold JNum.min
  split_ifs with h <;>
    cases a <;> cases b <;> cases c <;> simp_all [JNum.ble, JNum.blt] <;> omega

theorem jble_min_left (a b : JNum) : JNum.ble (JNum.min a b) a = true := by
  unfold JNum.min
  split_ifs with h <;>
    cases a <;> cases b <;> simp_all [JNum.ble, JNum.blt] <;> omega

theorem jble_min_right (a b : JNum) : JNum.ble (JNum.min a b) b = true := by
  unfold JNum.min
  split_ifs with h <;>
    cases a <;> cases b <;> simp_all [JNum.ble, JNum.blt] <;> omega

theorem jmin_mono_left {a a' : JNum} (h : JNum.ble a' a = true) (b : JNum) :
    JNum.ble (JNum.min a' b) (JNum.min a b) = true := by
  unfold JNum.min
  split_ifs with h1 h2 <;>
    cases a <;> cases a' <;> cases b <;> simp_all [JNum.ble, JNum.blt] <;> omega

theorem jmax_assoc (a b c : JNum) :
    JNum.max (JNum.max a b) c = JNum.max a (JNum.max b c) := by
  cases a <;> cases b <;> cases c <;>
    simp only [jmax_negInf_left, jmax_negInf_right, jmax_posInf_left,
      jmax_posInf_right, jmax_fin_fin] <;>
    first
      | rfl
      | (congr 1; exact max_assoc _ _ _)

theorem jmin_assoc (a b c : JNum) :
    JNum.min (JNum.min a b) c = JNum.min a (JNum.min b c) := by
  cases a <;> cases b <;> cases c <;>
    simp only [jmin_negInf_left, jmin_negInf_right, jmin_posInf_left,
      jmin_posInf_right, jmin_fin_fin] <;>
    first
      | rfl
      | (congr 1; exact min_assoc _ _ _)

/-! ## The reference minimax value (claim C1)

The claim says the three search strategies agree on the selected column
and evaluation.  We prove each (for depth >= 1) equal to the plain
minimax value below, defined by recursion on the number of empty cells
with the exact terminal conventions of the code. -/

/-- `JavaScript`'s `Math.max(...)` over a list (the fail-soft maximizing
loop computes exactly this when no cutoff fires); `0` for the empty list,
which no caller uses. -/
def maxList : List Int → Int
  | [] => 0
  | x :: xs => xs.foldl Max.max x

/-- Dual of `maxList`. -/
def minList : List Int → Int
  | [] => 0
  | x :: xs => xs.foldl Min.min x

theorem maxList_cons_cons (x y : Int) (xs : List Int) :
    maxList (x :: y :: xs) = maxList (Max.max x y :: xs) := rfl

theorem minList_cons_cons (x y : Int) (xs : List Int) :
    minList (x :: y :: xs) = minList (Min.min x y :: xs) := rfl

theorem le_maxList_head {a x : Int} (h : a ≤ x) (xs : List Int) :
    a ≤ maxList (x :: xs) := by
  induction xs generalizing x with
  | nil => exact h
  | cons y ys ih =>
    rw [maxList_cons_cons]
    exact ih (le_trans h (le_max_left x y))

theorem minList_head_le {a x : Int} (h : x ≤ a) (xs : List Int) :
    minList (x :: xs) ≤ a := by
  induction xs generalizing x with
  | nil => exact h
  | cons y ys ih =>
    rw [minList_cons_cons]
    exact ih (le_trans (min_le_left x y) h)

theorem maxList_head_mono {y y' : Int} (h : y ≤ y') (ys : List Int) :
    maxList (y :: ys) ≤ maxList (y' :: ys) := by
  induction ys generalizing y y' with
  | nil => exact h
  | cons z zs ih =>
    rw [maxList_cons_cons, maxList_cons_cons]
    exact ih (max_le_max h le_rfl)

theorem minList_head_mono {y y' : Int} (h : y ≤ y') (ys : List Int) :
    minList (y :: ys) ≤ minList (y' :: ys) := by
  induction ys generalizing y y' with
  | nil => exact h
  | cons z zs ih =>
    rw [minList_cons_cons, minList_cons_cons]
    exact ih (min_le_min h le_rfl)

theorem le_maxList_of_mem {a : Int} : ∀ {l : List Int}, a ∈ l → a ≤ maxList l := by
  intro l
  induction l with
  | nil => intro h; cases h
  | cons x xs ih =>
    intro h
    rcases List.mem_cons.mp h with rfl | h
    · exact le_maxList_head le_rfl xs
    · cases xs with
      | nil => cases h
      | cons y ys =>
        rw [maxList_cons_cons]
        calc a ≤ maxList (y :: ys) := ih h
          _ ≤ maxList (Max.max x y :: ys) :=
            maxList_head_mono (le_max_right x y) ys

theorem minList_le_of_mem {a : Int} : ∀ {l : List Int}, a ∈ l → minList l ≤ a := by
  intro l
  induction l with
  | nil => intro h; cases h
  | cons x xs ih =>
    intro h
    rcases List.mem_cons.mp h with rfl | h
    · exact minList_head_le le_rfl xs
    · cases xs with
      | nil => cases h
      | cons y ys =>
        rw [minList_cons_cons]
        calc minList (Min.min x y :: ys)
            ≤ minList (y :: ys) := minList_head_mono (min_le_right x y) ys
          _ ≤ a := ih h

/-- The game-theoretic value the searches compute: same terminal cases as
the code (win for the bot scores `10000 + depth`, win for the human
`-10000 - depth`, depth exhausted or full board scores the static
evaluation), then max/min over the children. -/
def minimax (b : Board) (depth : Int) (maximizing : Bool) (bot : Player) : Int :=
  let winner := checkWinner b
  if winner = bot.val then 10000 + depth
  else if winner = (humanOf bot).val then -10000 - depth
  else if depth = 0 ∨ isBoardFull b then evaluateBoard b bot.val
  else if maximizing then
    maxList ((getValidMoves b).attach.map (fun c =>
      minimax (makeMove b c.val bot.val) (depth - 1) false bot))
  else
    minList ((getValidMoves b).attach.map (fun c =>
      minimax (makeMove b c.val (humanOf bot).val) (depth - 1) true bot))
termination_by countEmpty b
decreasing_by
  · exact countEmpty_makeMove_lt c.property (player_val_ne_zero bot)
  · exact countEmpty_makeMove_lt c.property (player_val_ne_zero (humanOf bot))

theorem attach_map_val' {α β : Type} (l : List α) (f : α → β) :
    l.attach.map (fun c => f c.val) = l.map f := by
  rw [List.attach, List.attachWith, List.map_pmap]
  exact List.pmap_eq_map _ _ l _

/-- The unfolding of `minimax` with the `attach` artifact removed. -/
theorem minimax_eq (b : Board) (depth : Int) (maximizing : Bool)
    (bot : Player) :
    minimax b depth maximizing bot =
      (if checkWinner b = bot.val then 10000 + depth
      else if checkWinner b = (humanOf bot).val then -10000 - depth
      else if depth = 0 ∨ isBoardFull b then evaluateBoard b bot.val
      else if maximizing then
        maxList ((getValidMoves b).map (fun c =>
          minimax (makeMove b c bot.val) (depth - 1) false bot))
      else
        minList ((getValidMoves b).map (fun c =>
          minimax (makeMove b c (humanOf bot).val) (depth - 1) true bot))) := by
  rw [minimax]
  rw [attach_map_val' (getValidMoves b) (fun c =>
    minimax (makeMove b c bot.val) (depth - 1) false bot),
    attach_map_val' (getValidMoves b) (fun c =>
    minimax (makeMove b c (humanOf bot).val) (depth - 1) true bot)]

/-! ## Fail-soft correctness of the move loops -/

theorem jble_fin_iff {m n : Int} :
    JNum.ble (JNum.fin m) (JNum.fin n) = true ↔ m ≤ n := by
  simp [JNum.ble]

theorem jblt_fin_iff {m n : Int} :
    JNum.blt (JNum.fin m) (JNum.fin n) = true ↔ m < n := by
  simp [JNum.blt]

theorem jblt_negInf_right {x bb : JNum} (h : JNum.blt x bb = true) :
    JNum.blt JNum.negInf bb = true := by
  cases x <;> cases bb <;> simp_all [JNum.blt]

theorem jblt_posInf_left {x a : JNum} (h : JNum.blt a x = true) :
    JNum.blt a JNum.posInf = true := by
  cases x <;> cases a <;> simp_all [JNum.blt]

/-- The fail-soft alpha-beta contract: the returned score `gv` is finite,
is an upper bound on the true value `v` when it fails low (`gv <= alpha`),
a lower bound when it fails high (`gv >= beta`), and equals `v` when it
lands strictly inside the `(alpha, beta)` window. -/
def Sat (gv alpha beta : JNum) (v : Int) : Prop :=
  ∃ n : Int, gv = JNum.fin n ∧
    (JNum.ble gv alpha = true → v ≤ n) ∧
    (JNum.ble beta gv = true → n ≤ v) ∧
    (JNum.blt alpha gv = true → JNum.blt gv beta = true → n = v)

theorem Sat_exact (alpha beta : JNum) (v : Int) : Sat (JNum.fin v) alpha beta v :=
  ⟨v, rfl, fun _ => le_rfl, fun _ => le_rfl, fun _ _ => rfl⟩

/-- Folding one more fail-soft child result into the running maximum. -/
theorem Sat_max_combine {a0 bb acc g : JNum} {pv vc : Int}
    (hacc : Sat acc a0 bb pv) (haccb : JNum.blt acc bb = true)
    (hg : Sat g (JNum.max a0 acc) bb vc) (hgb : JNum.blt g bb = true) :
    Sat (JNum.max acc g) a0 bb (Max.max pv vc) := by
  obtain ⟨m, rfl, hlo1, hhi1, hex1⟩ := hacc
  obtain ⟨n, rfl, hlo2, hhi2, hex2⟩ := hg
  rw [jmax_fin_fin]
  refine ⟨Max.max m n, rfl, ?_, ?_, ?_⟩
  · intro h
    have hm : JNum.ble (JNum.fin m) a0 = true :=
      jble_trans (jble_fin_iff.mpr (le_max_left m n)) h
    have hn : JNum.ble (JNum.fin n) a0 = true :=
      jble_trans (jble_fin_iff.mpr (le_max_right m n)) h
    have h1 := hlo1 hm
    have h2 := hlo2 (jble_trans hn (jble_left_max a0 (JNum.fin m)))
    omega
  · intro h
    have hlt : JNum.blt (JNum.fin (Max.max m n)) bb = true := by
      rw [← jmax_fin_fin]
      exact jmax_lt_iff.mpr ⟨haccb, hgb⟩
    exact absurd (jble_blt_trans h hlt) (by simp [jblt_irrefl])
  · intro h1 h2
    rcases le_or_lt n m with hnm | hmn
    · rw [max_eq_left hnm] at h1 h2 ⊢
      have hpv : m = pv := hex1 h1 haccb
      by_cases hga : JNum.blt (JNum.max a0 (JNum.fin m)) (JNum.fin n) = true
      · have hvc := hex2 hga hgb
        omega
      · have hle : JNum.ble (JNum.fin n) (JNum.max a0 (JNum.fin m)) = true :=
          jnot_blt.mp (by revert hga; cases JNum.blt (JNum.max a0 (JNum.fin m)) (JNum.fin n) <;> simp)
        have hvc := hlo2 hle
        omega
    · rw [max_eq_right (le_of_lt hmn)] at h1 h2 ⊢
      have halpha : JNum.blt (JNum.max a0 (JNum.fin m)) (JNum.fin n) = true :=
        jmax_lt_iff.mpr ⟨h1, jblt_fin_iff.mpr hmn⟩
      have hvc := hex2 halpha hgb
      by_cases hacc0 : JNum.blt a0 (JNum.fin m) = true
      · have hpv := hex1 hacc0 haccb
        omega
      · have hle : JNum.ble (JNum.fin m) a0 = true :=
          jnot_blt.mp (by revert hacc0; cases JNum.blt a0 (JNum.fin m) <;> simp)
        have hpv := hlo1 hle
        omega

/-- Folding one more fail-soft child result into the running minimum. -/
theorem Sat_min_combine {a0 bb acc g : JNum} {pv vc : Int}
    (hacc : Sat acc a0 bb pv) (haccb : JNum.blt a0 acc = true)
    (hg : Sat g a0 (JNum.min bb acc) vc) (hga : JNum.blt a0 g = true) :
    Sat (JNum.min acc g) a0 bb (Min.min pv vc) := by
  obtain ⟨m, rfl, hlo1, hhi1, hex1⟩ := hacc
  obtain ⟨n, rfl, hlo2, hhi2, hex2⟩ := hg
  rw [jmin_fin_fin]
  refine ⟨Min.min m n, rfl, ?_, ?_, ?_⟩
  · intro h
    have hlt : JNum.blt a0 (JNum.fin (Min.min m n)) = true := by
      rw [← jmin_fin_fin]
      exact jgt_min_iff.mpr ⟨haccb, hga⟩
    exact absurd (jblt_ble_trans hlt h) (by simp [jblt_irrefl])
  · intro h
    have hm : JNum.ble bb (JNum.fin m) = true :=
      jble_trans h (jble_fin_iff.mpr (min_le_left m n))
    have hn : JNum.ble bb (JNum.fin n) = true :=
      jble_trans h (jble_fin_iff.mpr (min_le_right m n))
    have h1 := hhi1 hm
    have h2 := hhi2 (jble_trans (jble_min_left bb (JNum.fin m)) hn)
    omega
  · intro h1 h2
    rcases le_or_lt m n with hmn | hnm
    · rw [min_eq_left hmn] at h1 h2 ⊢
      have hpv : m = pv := hex1 haccb h2
      by_cases hgb : JNum.blt (JNum.fin n) (JNum.min bb (JNum.fin m)) = true
      · have hvc := hex2 hga hgb
        omega
      · have hle : JNum.ble (JNum.min bb (JNum.fin m)) (JNum.fin n) = true :=
          jnot_blt.mp (by revert hgb; cases JNum.blt (JNum.fin n) (JNum.min bb (JNum.fin m)) <;> simp)
        have hvc := hhi2 hle
        omega
    · rw [min_eq_right (le_of_lt hnm)] at h1 h2 ⊢
      have hbeta : JNum.blt (JNum.fin n) (JNum.min bb (JNum.fin m)) = true :=
        jgt_min_iff.mpr ⟨h2, jblt_fin_iff.mpr hnm⟩
      have hvc := hex2 hga hbeta
      by_cases hacc0 : JNum.blt (JNum.fin m) bb = true
      · have hpv := hex1 haccb hacc0
        omega
      · have hle : JNum.ble bb (JNum.fin m) = true :=
          jnot_blt.mp (by revert hacc0; cases JNum.blt (JNum.fin m) bb <;> simp)
        have hpv := hhi1 hle
        omega

/-- The accumulated best value over the already-processed candidates
(`none` when none yet) joined with the values of the remaining list. -/
def maxVal : Option Int → List Int → Int
  | none, l => maxList l
  | some pv, l => maxList (pv :: l)

/-- Dual of `maxVal`. -/
def minVal : Option Int → List Int → Int
  | none, l => minList l
  | some pv, l => minList (pv :: l)

/-- Absorbing one value into the accumulator. -/
def pushMax : Option Int → Int → Int
  | none, vc => vc
  | some pv, vc => Max.max pv vc

/-- Dual of `pushMax`. -/
def pushMin : Option Int → Int → Int
  | none, vc => vc
  | some pv, vc => Min.min pv vc

theorem maxVal_cons (past : Option Int) (vc : Int) (l : List Int) :
    maxVal past (vc :: l) = maxVal (some (pushMax past vc)) l := by
  cases past with
  | none => rfl
  | some pv => exact maxList_cons_cons pv vc l

theorem minVal_cons (past : Option Int) (vc : Int) (l : List Int) :
    minVal past (vc :: l) = minVal (some (pushMin past vc)) l := by
  cases past with
  | none => rfl
  | some pv => exact minList_cons_cons pv vc l

theorem le_maxVal_of_mem {x : Int} {l : List Int} (h : x ∈ l)
    (past : Option Int) : x ≤ maxVal past l := by
  cases past with
  | none => exact le_maxList_of_mem h
  | some pv => exact le_maxList_of_mem (List.mem_cons_of_mem pv h)

theorem minVal_le_of_mem {x : Int} {l : List Int} (h : x ∈ l)
    (past : Option Int) : minVal past l ≤ x := by
  cases past with
  | none => exact minList_le_of_mem h
  | some pv => exact minList_le_of_mem (List.mem_cons_of_mem pv h)

/-- Fail-soft correctness of the maximizing move loop of the plain search:
starting from original alpha `a0`, an accumulator `acc` that is the
running maximum of the processed candidates (`past`), the loop's result
satisfies the fail-soft contract for `a0` against the maximum over all
candidates. -/
theorem abMaxLoop_sat (child : Board → JNum → JNum → JNum × Nat) (b : Board)
    (bot : Player) (bb : JNum) (vals : Nat → Int)
    (hchild : ∀ col ∈ getValidMoves b, ∀ a : JNum, JNum.blt a bb = true →
      Sat (child (makeMove b col bot.val) a bb).1 a bb (vals col)) :
    ∀ (moves : List Nat), (∀ c ∈ moves, c ∈ getValidMoves b) →
    ∀ (a0 acc : JNum) (past : Option Int),
      (match past with
       | none => acc = JNum.negInf
       | some pv => Sat acc a0 bb pv ∧ JNum.blt acc bb = true) →
      JNum.blt (JNum.max a0 acc) bb = true →
      (past = none → moves ≠ []) →
      Sat (abMaxLoop child b bot moves (JNum.max a0 acc) bb acc).1 a0 bb
        (maxVal past (moves.map vals)) := by
  intro moves
  induction moves with
  | nil =>
    intro _ a0 acc past hinv hw hne
    cases past with
    | none => exact absurd rfl (hne rfl)
    | some pv => exact hinv.1
  | cons col rest ih =>
    intro hsub a0 acc past hinv hw hne
    have hcolmem : col ∈ getValidMoves b := hsub col (List.mem_cons_self _ _)
    have hg := hchild col hcolmem (JNum.max a0 acc) hw
    simp only [abMaxLoop, List.map_cons]
    by_cases hcut : JNum.ble bb
        (JNum.max (JNum.max a0 acc)
          (child (makeMove b col bot.val) (JNum.max a0 acc) bb).1) = true
    · rw [if_pos hcut]
      have hab := jmax_lt_iff.mp hw
      have hbbg : JNum.ble bb
          (child (makeMove b col bot.val) (JNum.max a0 acc) bb).1 = true := by
        rcases jle_max_iff.mp hcut with h | h
        · exact absurd (jble_blt_trans h hw) (by simp [jblt_irrefl])
        · exact h
      obtain ⟨n, hn, hlo, hhi, hex⟩ := hg
      have haccg : JNum.blt acc
          (child (makeMove b col bot.val) (JNum.max a0 acc) bb).1 = true := by
        cases past with
        | none =>
          replace hinv : acc = JNum.negInf := hinv
          rw [hn, hinv]
          rfl
        | some pv => exact jblt_ble_trans hinv.2 hbbg
      show Sat (JNum.max acc
        (child (makeMove b col bot.val) (JNum.max a0 acc) bb).1) a0 bb _
      rw [jmax_eq_right haccg, hn]
      rw [hn] at hbbg
      refine ⟨n, rfl, ?_, ?_, ?_⟩
      · intro hle
        exact absurd (jble_blt_trans (jble_trans hbbg hle) hab.1)
          (by simp [jblt_irrefl])
      · intro _
        exact le_trans (hhi (hn ▸ hbbg))
          (le_maxVal_of_mem (List.mem_cons_self _ _) past)
      · intro _ hlt
        exact absurd (jble_blt_trans hbbg hlt) (by simp [jblt_irrefl])
    · rw [if_neg hcut]
      have hcut' : JNum.ble bb
          (JNum.max (JNum.max a0 acc)
            (child (makeMove b col bot.val) (JNum.max a0 acc) bb).1) = false := by
        revert hcut
        cases JNum.ble bb (JNum.max (JNum.max a0 acc)
          (child (makeMove b col bot.val) (JNum.max a0 acc) bb).1) <;> simp
      have hlt := jnot_ble.mp hcut'
      have hparts := jmax_lt_iff.mp hlt
      rw [maxVal_cons]
      show Sat (abMaxLoop child b bot rest
        (JNum.max (JNum.max a0 acc)
          (child (makeMove b col bot.val) (JNum.max a0 acc) bb).1) bb
        (JNum.max acc
          (child (makeMove b col bot.val) (JNum.max a0 acc) bb).1)).1 a0 bb _
      rw [jmax_assoc]
      refine ih (fun c hc => hsub c (List.mem_cons_of_mem _ hc)) a0 _
        (some (pushMax past (vals col))) ?_ ?_ (fun h => absurd h (by simp))
      · refine ⟨?_, ?_⟩
        · cases past with
          | none =>
            replace hinv : acc = JNum.negInf := hinv
            rw [hinv, jmax_negInf_left, jmax_negInf_right]
            rw [hinv, jmax_negInf_right] at hg
            exact hg
          | some pv => exact Sat_max_combine hinv.1 hinv.2 hg hparts.2
        · refine jmax_lt_iff.mpr ⟨?_, hparts.2⟩
          cases past with
          | none =>
            replace hinv : acc = JNum.negInf := hinv
            rw [hinv]
            exact jblt_negInf_right hparts.2
          | some pv => exact hinv.2
      · rw [← jmax_assoc]
        exact hlt

/-- Fail-soft correctness of the minimizing move loop of the plain
search. -/
theorem abMinLoop_sat (child : Board → JNum → JNum → JNum × Nat) (b : Board)
    (human : Player) (a0 : JNum) (vals : Nat → Int)
    (hchild : ∀ col ∈ getValidMoves b, ∀ bb : JNum, JNum.blt a0 bb = true →
      Sat (child (makeMove b col human.val) a0 bb).1 a0 bb (vals col)) :
    ∀ (moves : List Nat), (∀ c ∈ moves, c ∈ getValidMoves b) →
    ∀ (bb0 acc : JNum) (past : Option Int),
      (match past with
       | none => acc = JNum.posInf
       | some pv => Sat acc a0 bb0 pv ∧ JNum.blt a0 acc = true) →
      JNum.blt a0 (JNum.min bb0 acc) = true →
      (past = none → moves ≠ []) →
      Sat (abMinLoop child b human moves a0 (JNum.min bb0 acc) acc).1 a0 bb0
        (minVal past (moves.map vals)) := by
  intro moves
  induction moves with
  | nil =>
    intro _ bb0 acc past hinv hw hne
    cases past with
    | none => exact absurd rfl (hne rfl)
    | some pv => exact hinv.1
  | cons col rest ih =>
    intro hsub bb0 acc past hinv hw hne
    have hcolmem : col ∈ getValidMoves b := hsub col (List.mem_cons_self _ _)
    have hg := hchild col hcolmem (JNum.min bb0 acc) hw
    simp only [abMinLoop, List.map_cons]
    by_cases hcut : JNum.ble
        (JNum.min (JNum.min bb0 acc)
          (child (makeMove b col human.val) a0 (JNum.min bb0 acc)).1) a0 = true
    · rw [if_pos hcut]
      have hab := jgt_min_iff.mp hw
      have hga0 : JNum.ble
          (child (makeMove b col human.val) a0 (JNum.min bb0 acc)).1 a0 = true := by
        rcases jmin_le_iff.mp hcut with h | h
        · exact absurd (jblt_ble_trans hw h) (by simp [jblt_irrefl])
        · exact h
      obtain ⟨n, hn, hlo, hhi, hex⟩ := hg
      have haccg : JNum.blt acc
          (child (makeMove b col human.val) a0 (JNum.min bb0 acc)).1 = false := by
        refine jnot_blt.mpr ?_
        cases past with
        | none =>
          replace hinv : acc = JNum.posInf := hinv
          rw [hn, hinv]
          rfl
        | some pv => exact jble_of_blt (jble_blt_trans hga0 hinv.2)
      show Sat (JNum.min acc
        (child (makeMove b col human.val) a0 (JNum.min bb0 acc)).1) a0 bb0 _
      rw [jmin_eq_right haccg, hn]
      rw [hn] at hga0
      refine ⟨n, rfl, ?_, ?_, ?_⟩
      · intro _
        exact le_trans (minVal_le_of_mem (List.mem_cons_self _ _) past)
          (hlo (hn ▸ hga0))
      · intro hle
        exact absurd (jble_blt_trans (jble_trans hle hga0) hab.1)
          (by simp [jblt_irrefl])
      · intro hlt _
        exact absurd (jble_blt_trans hga0 hlt) (by simp [jblt_irrefl])
    · rw [if_neg hcut]
      have hcut' : JNum.ble
          (JNum.min (JNum.min bb0 acc)
            (child (makeMove b col human.val) a0 (JNum.min bb0 acc)).1) a0 = false := by
        revert hcut
        cases JNum.ble (JNum.min (JNum.min bb0 acc)
          (child (makeMove b col human.val) a0 (JNum.min bb0 acc)).1) a0 <;> simp
      have hlt := jnot_ble.mp hcut'
      have hparts := jgt_min_iff.mp hlt
      rw [minVal_cons]
      show Sat (abMinLoop child b human rest a0
        (JNum.min (JNum.min bb0 acc)
          (child (makeMove b col human.val) a0 (JNum.min bb0 acc)).1)
        (JNum.min acc
          (child (makeMove b col human.val) a0 (JNum.min bb0 acc)).1)).1 a0 bb0 _
      rw [jmin_assoc]
      refine ih (fun c hc => hsub c (List.mem_cons_of_mem _ hc)) bb0 _
        (some (pushMin past (vals col))) ?_ ?_ (fun h => absurd h (by simp))
      · refine ⟨?_, ?_⟩
        · cases past with
          | none =>
            replace hinv : acc = JNum.posInf := hinv
            rw [hinv, jmin_posInf_left, jmin_posInf_right]
            rw [hinv, jmin_posInf_right] at hg
            exact hg
          | some pv => exact Sat_min_combine hinv.1 hinv.2 hg hparts.2
        · refine jgt_min_iff.mpr ⟨?_, hparts.2⟩
          cases past with
          | none =>
            replace hinv : acc = JNum.posInf := hinv
            rw [hinv]
            exact jblt_posInf_left hparts.2
          | some pv => exact hinv.2
      · rw [← jmin_assoc]
        exact hlt

theorem player_val_le_two (p : Player) : p.val ≤ 2 := by
  rcases p.2 with h | h <;> omega

/-- The plain alpha-beta search meets the fail-soft contract against the
reference minimax value, on any valid window. -/
theorem plainAB_sat : ∀ (fuel : Nat) (b : Board) (depth : Int)
    (alpha beta : JNum) (maxi : Bool) (bot : Player),
    BoardWF b → countEmpty b < fuel → JNum.blt alpha beta = true →
    Sat (alphaBetaPruningAlgorithm fuel b depth alpha beta maxi bot).1
      alpha beta (minimax b depth maxi bot) := by
  intro fuel
  induction fuel with
  | zero => intro b _ _ _ _ _ hWF hfuel; omega
  | succ fuel ih =>
    intro b depth alpha beta maxi bot hWF hfuel hw
    rw [minimax_eq]
    simp only [alphaBetaPruningAlgorithm]
    split_ifs with h1 h2 h3 h4
    · exact Sat_exact _ _ _
    · exact Sat_exact _ _ _
    · exact Sat_exact _ _ _
    · -- maximizing loop
      have hfull : isBoardFull b = false := by
        rcases Bool.eq_false_or_eq_true (isBoardFull b) with h | h
        · exact absurd (Or.inr h) h3
        · exact h
      have hchild : ∀ col ∈ getValidMoves b, ∀ a : JNum,
          JNum.blt a beta = true →
          Sat ((fun nb a bb => alphaBetaPruningAlgorithm fuel nb (depth - 1)
              a bb false bot) (makeMove b col bot.val) a beta).1 a beta
            (minimax (makeMove b col bot.val) (depth - 1) false bot) := by
        intro col hcol a hwa
        exact ih (makeMove b col bot.val) (depth - 1) a beta false bot
          (BoardWF_makeMove hWF col (player_val_le_two bot))
          (by have := countEmpty_makeMove_lt hcol (player_val_ne_zero bot); omega)
          hwa
      have := abMaxLoop_sat
        (fun nb a bb => alphaBetaPruningAlgorithm fuel nb (depth - 1) a bb
          false bot) b bot beta
        (fun c => minimax (makeMove b c bot.val) (depth - 1) false bot)
        hchild (getValidMoves b) (fun c h => h) alpha JNum.negInf none rfl
        (by rw [jmax_negInf_right]; exact hw)
        (fun _ => getValidMoves_ne_nil hWF hfull)
      rw [jmax_negInf_right] at this
      exact this
    · -- minimizing loop
      have hfull : isBoardFull b = false := by
        rcases Bool.eq_false_or_eq_true (isBoardFull b) with h | h
        · exact absurd (Or.inr h) h3
        · exact h
      have hchild : ∀ col ∈ getValidMoves b, ∀ bb : JNum,
          JNum.blt alpha bb = true →
          Sat ((fun nb a bb => alphaBetaPruningAlgorithm fuel nb (depth - 1)
              a bb true bot) (makeMove b col (humanOf bot).val) alpha bb).1
            alpha bb
            (minimax (makeMove b col (humanOf bot).val) (depth - 1) true bot) := by
        intro col hcol bb hwb
        exact ih (makeMove b col (humanOf bot).val) (depth - 1) alpha bb true bot
          (BoardWF_makeMove hWF col (player_val_le_two (humanOf bot)))
          (by have := countEmpty_makeMove_lt hcol
                (player_val_ne_zero (humanOf bot)); omega)
          hwb
      have := abMinLoop_sat
        (fun nb a bb => alphaBetaPruningAlgorithm fuel nb (depth - 1) a bb
          true bot) b (humanOf bot) alpha
        (fun c => minimax (makeMove b c (humanOf bot).val) (depth - 1) true bot)
        hchild (getValidMoves b) (fun c h => h) beta JNum.posInf none rfl
        (by rw [jmin_posInf_right]; exact hw)
        (fun _ => getValidMoves_ne_nil hWF hfull)
      rw [jmin_posInf_right] at this
      exact this

/-- On the full window the plain search returns exactly the minimax
value. -/
theorem plainAB_exact (fuel : Nat) (b : Board) (depth : Int) (maxi : Bool)
    (bot : Player) (hWF : BoardWF b) (hfuel : countEmpty b < fuel) :
    (alphaBetaPruningAlgorithm fuel b depth JNum.negInf JNum.posInf maxi bot).1
      = JNum.fin (minimax b depth maxi bot) := by
  obtain ⟨n, hn, _, _, hex⟩ :=
    plainAB_sat fuel b depth JNum.negInf JNum.posInf maxi bot hWF hfuel rfl
  rw [hn, hex (by rw [hn]; rfl) (by rw [hn]; rfl)]

/-! ## Injectivity of the board hash on well-formed boards

`getBoardHash` writes each cell as one digit and separates the six rows
with `"-"`; on 6×7 boards with cells in `{0,1,2}` this is injective, which
is what lets a cached entry be trusted for the board being searched. -/

/-- The character a cell is serialized to. -/
def cellChar (c : Nat) : Char :=
  if c = 0 then '0' else if c = 1 then '1' else '2'

theorem toString_cell_data {c : Nat} (h : c ≤ 2) :
    (toString c).data = [cellChar c] := by
  interval_cases c <;> decide

theorem join_data_aux (l : List String) (acc : String) :
    (l.foldl (fun r s => r ++ s) acc).data = acc.data ++ (l.map String.data).join := by
  induction l generalizing acc with
  | nil => simp
  | cons s rest ih =>
    rw [List.foldl_cons, ih]
    simp [List.append_assoc]

theorem join_singletons {α : Type} (f : Nat → α) (row : List Nat) :
    (row.map (fun c => [f c])).join = row.map f := by
  induction row with
  | nil => rfl
  | cons c cs ih => simp [ih]

theorem rowString_data {row : List Nat} (h : ∀ c ∈ row, c ≤ 2) :
    (String.join (row.map (fun c => toString c))).data = row.map cellChar := by
  show ((row.map (fun c => toString c)).foldl (fun r s => r ++ s) "").data = _
  rw [join_data_aux]
  have hmap : (row.map (fun c => toString c)).map String.data =
      row.map (fun c => [cellChar c]) := by
    rw [List.map_map]
    exact List.map_congr_left (fun c hc => toString_cell_data (h c hc))
  rw [hmap, join_singletons]
  rfl

theorem intercalate_go_data (sep : String) :
    ∀ (as : List String) (acc : String),
    (String.intercalate.go acc sep as).data =
      acc.data ++ (as.map (fun a => sep.data ++ a.data)).join := by
  intro as
  induction as with
  | nil => intro acc; simp [String.intercalate.go]
  | cons a rest ih =>
    intro acc
    rw [show String.intercalate.go acc sep (a :: rest) =
      String.intercalate.go (acc ++ sep ++ a) sep rest from rfl, ih]
    simp [List.append_assoc]

theorem intercalate_data_cons (sep a : String) (as : List String) :
    (String.intercalate sep (a :: as)).data =
      a.data ++ (as.map (fun x => sep.data ++ x.data)).join := by
  show (String.intercalate.go a sep as).data = _
  rw [intercalate_go_data]

theorem getBoardHash_data {b : Board} (hWF : BoardWF b) :
    ∃ r0 r1 r2 r3 r4 r5 : List Nat,
      b = [r0, r1, r2, r3, r4, r5] ∧
      (getBoardHash b).data =
        r0.map cellChar ++ '-' :: (r1.map cellChar ++ '-' :: (r2.map cellChar ++
          '-' :: (r3.map cellChar ++ '-' :: (r4.map cellChar ++
            '-' :: r5.map cellChar)))) := by
  obtain ⟨hlen, hrows⟩ := hWF
  have h6 : b.length = 6 := hlen
  rcases b with _ | ⟨r0, b⟩
  · simp at h6
  rcases b with _ | ⟨r1, b⟩
  · simp at h6
  rcases b with _ | ⟨r2, b⟩
  · simp at h6
  rcases b with _ | ⟨r3, b⟩
  · simp at h6
  rcases b with _ | ⟨r4, b⟩
  · simp at h6
  rcases b with _ | ⟨r5, b⟩
  · simp at h6
  rcases b with _ | ⟨r6, b⟩
  case cons => simp at h6
  refine ⟨r0, r1, r2, r3, r4, r5, rfl, ?_⟩
  have e0 := rowString_data (fun c hc => (hrows r0 (by simp)).2 c hc)
  have e1 := rowString_data (fun c hc => (hrows r1 (by simp)).2 c hc)
  have e2 := rowString_data (fun c hc => (hrows r2 (by simp)).2 c hc)
  have e3 := rowString_data (fun c hc => (hrows r3 (by simp)).2 c hc)
  have e4 := rowString_data (fun c hc => (hrows r4 (by simp)).2 c hc)
  have e5 := rowString_data (fun c hc => (hrows r5 (by simp)).2 c hc)
  unfold getBoardHash
  simp only [List.map_cons, List.map_nil]
  rw [intercalate_data_cons]
  simp only [List.map_cons, List.map_nil, List.join_cons, List.join_nil]
  rw [e0, e1, e2, e3, e4, e5]
  simp [List.append_assoc]

theorem cellChar_inj {c c' : Nat} (h1 : c ≤ 2) (h2 : c' ≤ 2)
    (h : cellChar c = cellChar c') : c = c' := by
  interval_cases c <;> interval_cases c' <;> revert h <;> decide

theorem map_cellChar_inj : ∀ {r r' : List Nat}, (∀ c ∈ r, c ≤ 2) →
    (∀ c ∈ r', c ≤ 2) → r.map cellChar = r'.map cellChar → r = r' := by
  intro r
  induction r with
  | nil =>
    intro r' _ _ h
    cases r' with
    | nil => rfl
    | cons c cs => simp at h
  | cons c cs ih =>
    intro r' h1 h2 h
    cases r' with
    | nil => simp at h
    | cons c' cs' =>
      simp only [List.map_cons, List.cons.injEq] at h
      rw [cellChar_inj (h1 c (List.mem_cons_self _ _))
        (h2 c' (List.mem_cons_self _ _)) h.1,
        ih (fun x hx => h1 x (List.mem_cons_of_mem _ hx))
          (fun x hx => h2 x (List.mem_cons_of_mem _ hx)) h.2]

theorem rowlen7 {b : Board} (hWF : BoardWF b) {row : List Nat}
    (h : row ∈ b) : row.length = 7 := (hWF.2 row h).1

/-- `getBoardHash` is injective on well-formed boards. -/
theorem getBoardHash_inj {b b' : Board} (h1 : BoardWF b) (h2 : BoardWF b')
    (heq : getBoardHash b = getBoardHash b') : b = b' := by
  obtain ⟨r0, r1, r2, r3, r4, r5, hb, hd⟩ := getBoardHash_data h1
  obtain ⟨s0, s1, s2, s3, s4, s5, hb', hd'⟩ := getBoardHash_data h2
  have hdata := congrArg String.data heq
  rw [hd, hd'] at hdata
  have hcell : ∀ r ∈ b, ∀ c ∈ r, c ≤ 2 := fun r hr c hc => (h1.2 r hr).2 c hc
  have hcell' : ∀ r ∈ b', ∀ c ∈ r, c ≤ 2 := fun r hr c hc => (h2.2 r hr).2 c hc
  subst hb hb'
  have m0 : r0 ∈ [r0, r1, r2, r3, r4, r5] := by simp
  have m1 : r1 ∈ [r0, r1, r2, r3, r4, r5] := by simp
  have m2 : r2 ∈ [r0, r1, r2, r3, r4, r5] := by simp
  have m3 : r3 ∈ [r0, r1, r2, r3, r4, r5] := by simp
  have m4 : r4 ∈ [r0, r1, r2, r3, r4, r5] := by simp
  have m5 : r5 ∈ [r0, r1, r2, r3, r4, r5] := by simp
  have n0 : s0 ∈ [s0, s1, s2, s3, s4, s5] := by simp
  have n1 : s1 ∈ [s0, s1, s2, s3, s4, s5] := by simp
  have n2 : s2 ∈ [s0, s1, s2, s3, s4, s5] := by simp
  have n3 : s3 ∈ [s0, s1, s2, s3, s4, s5] := by simp
  have n4 : s4 ∈ [s0, s1, s2, s3, s4, s5] := by simp
  have n5 : s5 ∈ [s0, s1, s2, s3, s4, s5] := by simp
  obtain ⟨e0, hdata⟩ := List.append_inj hdata
    (by rw [List.length_map, List.length_map, rowlen7 h1 m0, rowlen7 h2 n0])
  obtain ⟨e1, hdata⟩ := List.append_inj (List.cons_injective.eq_iff.mp hdata)
    (by rw [List.length_map, List.length_map, rowlen7 h1 m1, rowlen7 h2 n1])
  obtain ⟨e2, hdata⟩ := List.append_inj (List.cons_injective.eq_iff.mp hdata)
    (by rw [List.length_map, List.length_map, rowlen7 h1 m2, rowlen7 h2 n2])
  obtain ⟨e3, hdata⟩ := List.append_inj (List.cons_injective.eq_iff.mp hdata)
    (by rw [List.length_map, List.length_map, rowlen7 h1 m3, rowlen7 h2 n3])
  obtain ⟨e4, hdata⟩ := List.append_inj (List.cons_injective.eq_iff.mp hdata)
    (by rw [List.length_map, List.length_map, rowlen7 h1 m4, rowlen7 h2 n4])
  have e5 := List.cons_injective.eq_iff.mp hdata
  rw [map_cellChar_inj (hcell r0 m0) (hcell' s0 n0) e0,
    map_cellChar_inj (hcell r1 m1) (hcell' s1 n1) e1,
    map_cellChar_inj (hcell r2 m2) (hcell' s2 n2) e2,
    map_cellChar_inj (hcell r3 m3) (hcell' s3 n3) e3,
    map_cellChar_inj (hcell r4 m4) (hcell' s4 n4) e4,
    map_cellChar_inj (hcell r5 m5) (hcell' s5 n5) e5]

theorem getBoardHash_data_length {b : Board} (hWF : BoardWF b) :
    (getBoardHash b).data.length = 47 := by
  obtain ⟨r0, r1, r2, r3, r4, r5, hb, hd⟩ := getBoardHash_data hWF
  subst hb
  rw [hd]
  simp [List.length_append, rowlen7 hWF (show r0 ∈ _ by simp),
    rowlen7 hWF (show r1 ∈ _ by simp), rowlen7 hWF (show r2 ∈ _ by simp),
    rowlen7 hWF (show r3 ∈ _ by simp), rowlen7 hWF (show r4 ∈ _ by simp),
    rowlen7 hWF (show r5 ∈ _ by simp)]

/-- Full-key injectivity for the memory search's keys
(`hash + "-" + currentPlayer`). -/
theorem memKey_inj {b b' : Board} {cur cur' : Player} (h1 : BoardWF b)
    (h2 : BoardWF b')
    (heq : getBoardHash b ++ "-" ++ toString cur.val =
      getBoardHash b' ++ "-" ++ toString cur'.val) :
    b = b' ∧ cur = cur' := by
  have hdata := congrArg String.data heq
  simp only [String.data_append] at hdata
  rw [List.append_assoc, List.append_assoc] at hdata
  obtain ⟨eh, es⟩ := List.append_inj hdata
    (by rw [getBoardHash_data_length h1, getBoardHash_data_length h2])
  refine ⟨getBoardHash_inj h1 h2 ?_, ?_⟩
  · cases hb : getBoardHash b with
    | mk d =>
      cases hb' : getBoardHash b' with
      | mk d' =>
        rw [hb, hb'] at eh
        exact congrArg String.mk eh
  · have hs : (toString cur.val).data = (toString cur'.val).data := by
      have := List.append_inj es (by rfl)
      exact this.2
    rcases cur.2 with hc | hc <;> rcases cur'.2 with hc' | hc' <;>
      rw [hc, hc'] at hs
    · exact Subtype.ext (by rw [hc, hc'])
    · exact absurd hs (by decide)
    · exact absurd hs (by decide)
    · exact Subtype.ext (by rw [hc, hc'])

/-- Full-key injectivity for the transposition-table search's keys
(`hash + "-" + (maximizing ? "max" : "min")`). -/
theorem ttKey_inj {b b' : Board} {maxi maxi' : Bool} (h1 : BoardWF b)
    (h2 : BoardWF b')
    (heq : getBoardHash b ++ "-" ++ (if maxi then "max" else "min") =
      getBoardHash b' ++ "-" ++ (if maxi' then "max" else "min")) :
    b = b' ∧ maxi = maxi' := by
  have hdata := congrArg String.data heq
  simp only [String.data_append] at hdata
  rw [List.append_assoc, List.append_assoc] at hdata
  obtain ⟨eh, es⟩ := List.append_inj hdata
    (by rw [getBoardHash_data_length h1, getBoardHash_data_length h2])
  refine ⟨getBoardHash_inj h1 h2 ?_, ?_⟩
  · cases hb : getBoardHash b with
    | mk d =>
      cases hb' : getBoardHash b' with
      | mk d' =>
        rw [hb, hb'] at eh
        exact congrArg String.mk eh
  · have hs : (if maxi then "max" else "min").data =
        (if maxi' then "max" else "min").data := by
      have := List.append_inj es (by rfl)
      exact this.2
    cases maxi <;> cases maxi' <;> revert hs <;> decide

/-! ## Exact empty-cell count of a move, player algebra, winner range -/

theorem countP_set_pred {l : List Nat} {i : Nat} (h : l.get? i = some 0)
    {x : Nat} (hx : x ≠ 0) :
    (l.set i x).countP (fun c => c == 0) + 1 = l.countP (fun c => c == 0) := by
  induction l generalizing i with
  | nil => simp at h
  | cons a tl ih =>
    cases i with
    | zero =>
      simp only [List.get?] at h
      injection h with h
      subst h
      simp [List.countP_cons, hx]
    | succ j =>
      simp only [List.get?] at h
      have := ih h
      simp only [List.set, List.countP_cons]
      omega

theorem sum_set_exact {l : List Nat} {i : Nat} {x y : Nat}
    (h : l.get? i = some x) (hy : y + 1 = x) : (l.set i y).sum + 1 = l.sum := by
  induction l generalizing i with
  | nil => simp at h
  | cons a tl ih =>
    cases i with
    | zero =>
      simp only [List.get?] at h
      injection h with h
      subst h
      simp only [List.set, List.sum_cons]
      omega
    | succ j =>
      simp only [List.get?] at h
      have := ih h
      simp only [List.set, List.sum_cons]
      omega

/-- Placing a non-empty value into an empty cell decreases the number of
empty cells by exactly one. -/
theorem countEmpty_setCell_eq {b : Board} {r c : Nat}
    (h : getCell b r c = some 0) {p : Nat} (hp : p ≠ 0) :
    countEmpty (setCell b r c p) + 1 = countEmpty b := by
  unfold getCell at h
  cases hrow : b.get? r with
  | none => rw [hrow] at h; simp at h
  | some row =>
    rw [hrow] at h
    replace h : row.get? c = some 0 := h
    unfold setCell
    rw [hrow]
    unfold countEmpty
    rw [List.map_set]
    exact sum_set_exact (by rw [List.get?_map, hrow]; rfl) (countP_set_pred h hp)

/-- A legal move decreases the number of empty cells by exactly one. -/
theorem countEmpty_makeMove_eq {b : Board} {col : Nat}
    (h : col ∈ getValidMoves b) {p : Nat} (hp : p ≠ 0) :
    countEmpty (makeMove b col p) + 1 = countEmpty b := by
  have hv : isValidMove b col = true := by
    unfold getValidMoves at h
    exact (List.mem_filter.mp h).2
  obtain ⟨r, hdrop, hcell⟩ := dropRow_of_valid hv
  unfold makeMove
  rw [hdrop]
  exact countEmpty_setCell_eq hcell hp

/-- `true` exactly when the memory search maximizes: the player to move is
the bot. -/
def maxiOf (cur bot : Player) : Bool := decide (cur = bot)

theorem maxiOf_self (bot : Player) : maxiOf bot bot = true := by
  simp [maxiOf]

theorem jble_refl (a : JNum) : JNum.ble a a = true := by
  cases a <;> simp [JNum.ble]

theorem player_eq_or {cur bot : Player} (h : cur ≠ bot) : cur = humanOf bot := by
  apply Subtype.ext
  unfold humanOf
  rcases cur.2 with hc | hc <;> rcases bot.2 with hb | hb
  · exact absurd (Subtype.ext (hc.trans hb.symm)) h
  · rw [hc, hb]; rfl
  · rw [hc, hb]; rfl
  · exact absurd (Subtype.ext (hc.trans hb.symm)) h

theorem opponentOf_of_eq (bot : Player) : opponentOf bot = humanOf bot := by
  apply Subtype.ext
  rcases bot.2 with hb | hb <;> unfold opponentOf humanOf <;> rw [hb] <;> rfl

theorem opponentOf_human (bot : Player) : opponentOf (humanOf bot) = bot := by
  apply Subtype.ext
  rcases bot.2 with hb | hb <;> unfold opponentOf humanOf <;> rw [hb] <;>
    simp [playerP, playerB, PLAYER, BOT, hb]

theorem maxiOf_human (bot : Player) : maxiOf (humanOf bot) bot = false := by
  unfold maxiOf
  rcases bot.2 with hb | hb <;>
    simp [humanOf, hb, playerP, playerB, PLAYER, BOT] <;>
    intro hcon <;>
    rw [Subtype.ext_iff, hb] at hcon <;> simp [playerP, playerB] at hcon

/-- A non-zero value of a well-formed board's cell is 1 or 2. -/
theorem getCell_le_two {b : Board} (hWF : BoardWF b) {r c v : Nat}
    (h : getCell b r c = some v) : v ≤ 2 := by
  unfold getCell at h
  cases hrow : b.get? r with
  | none => rw [hrow] at h; simp at h
  | some row =>
    rw [hrow] at h
    replace h : row.get? c = some v := h
    exact (hWF.2 row (List.get?_mem hrow)).2 v (List.get?_mem h)

theorem checkWinner_cases {b : Board} (hWF : BoardWF b) :
    checkWinner b = 0 ∨ checkWinner b = 1 ∨ checkWinner b = 2 := by
  by_cases h : checkWinner b = 0
  · exact Or.inl h
  · obtain ⟨r, c, hrun⟩ := checkWinner_sound h
    rcases hrun with h4 | h4 | h4 | h4 <;>
      have := getCell_le_two hWF h4.1 <;> omega

/-- The memory search's losing-terminal test (`winner !== 0 && winner !==
botPlayer`) is, on well-formed boards, the same as testing for the human's
win (given the bot did not win). -/
theorem winner_human_iff {b : Board} (hWF : BoardWF b) (bot : Player)
    (h1 : ¬ checkWinner b = bot.val) :
    (checkWinner b ≠ 0 ∧ checkWinner b ≠ bot.val) ↔
      checkWinner b = (humanOf bot).val := by
  rcases checkWinner_cases hWF with hw | hw | hw <;>
    rcases bot.2 with hb | hb <;>
    simp [hw, humanOf, hb, playerP, playerB, PLAYER, BOT] <;>
    simp [hw, hb] at h1

theorem jmax_idem (a : JNum) : JNum.max a a = a := by
  cases a <;> simp [JNum.max, jblt_irrefl]

theorem jmax_comm (a b : JNum) : JNum.max a b = JNum.max b a := by
  cases a <;> cases b <;>
    simp only [jmax_negInf_left, jmax_negInf_right, jmax_posInf_left,
      jmax_posInf_right, jmax_fin_fin] <;>
    first
      | rfl
      | (congr 1; exact max_comm _ _)

theorem jmin_idem (a : JNum) : JNum.min a a = a := by
  cases a <;> simp [JNum.min, jblt_irrefl]

theorem jmin_comm (a b : JNum) : JNum.min a b = JNum.min b a := by
  cases a <;> cases b <;>
    simp only [jmin_negInf_left, jmin_negInf_right, jmin_posInf_left,
      jmin_posInf_right, jmin_fin_fin] <;>
    first
      | rfl
      | (congr 1; exact min_comm _ _)

/-- The alpha update of the memory search's maximizing loop
(`alpha = max(alpha, bestScore)` with `bestScore` already folded in)
coincides with the plain representation. -/
theorem jmax_absorb (a c g : JNum) :
    JNum.max (JNum.max a c) (JNum.max c g) = JNum.max a (JNum.max c g) := by
  rw [jmax_assoc]
  congr 1
  rw [← jmax_assoc, jmax_idem]

theorem jmin_absorb (a c g : JNum) :
    JNum.min (JNum.min a c) (JNum.min c g) = JNum.min a (JNum.min c g) := by
  rw [jmin_assoc]
  congr 1
  rw [← jmin_assoc, jmin_idem]

theorem jble_min_elim {beta x g : JNum}
    (h : JNum.ble (JNum.min beta x) g = true) (h2 : JNum.blt g beta = true) :
    JNum.ble x g = true := by
  unfold JNum.min at h
  split_ifs at h with hc
  · exact absurd (jble_blt_trans h h2) (by simp [jblt_irrefl])
  · exact h

theorem jble_max_elim {alpha x g : JNum}
    (h : JNum.ble g (JNum.max alpha x) = true) (h1 : JNum.blt alpha g = true) :
    JNum.ble g x = true := by
  unfold JNum.max at h
  split_ifs at h with hc
  · exact h
  · exact absurd (jble_blt_trans h h1) (by simp [jblt_irrefl])

/-- A fail-soft result for a lookup-narrowed window is still fail-soft for
the original window, provided each narrowing bound was itself sound for
the true value `v`. -/
theorem Sat_widen {alpha beta a1 b1 g : JNum} {v : Int}
    (hA : a1 = alpha ∨ ∃ nL : Int, a1 = JNum.max alpha (JNum.fin nL) ∧ nL ≤ v)
    (hB : b1 = beta ∨ ∃ nU : Int, b1 = JNum.min beta (JNum.fin nU) ∧ v ≤ nU)
    (hg : Sat g a1 b1 v) : Sat g alpha beta v := by
  obtain ⟨n, hn, hlo, hhi, hex⟩ := hg
  have halpha : JNum.ble alpha a1 = true := by
    rcases hA with rfl | ⟨nL, rfl, _⟩
    · exact jble_refl _
    · exact jble_left_max _ _
  have hbeta : JNum.ble b1 beta = true := by
    rcases hB with rfl | ⟨nU, rfl, _⟩
    · exact jble_refl _
    · exact jble_min_left _ _
  refine ⟨n, hn, ?_, ?_, ?_⟩
  · intro h
    exact hlo (jble_trans h halpha)
  · intro h
    exact hhi (jble_trans hbeta h)
  · intro h1 h2
    by_cases hga : JNum.blt a1 g = true
    · by_cases hgb : JNum.blt g b1 = true
      · exact hex hga hgb
      · have hble : JNum.ble b1 g = true :=
          jnot_blt.mp (by revert hgb; cases JNum.blt g b1 <;> simp)
        have hnv := hhi hble
        rcases hB with rfl | ⟨nU, rfl, hU⟩
        · exact absurd (jble_blt_trans hble h2) (by simp [jblt_irrefl])
        · have hnU : JNum.ble (JNum.fin nU) g = true := jble_min_elim hble h2
          rw [hn] at hnU
          have := jble_fin_iff.mp hnU
          omega
    · have hble : JNum.ble g a1 = true :=
        jnot_blt.mp (by revert hga; cases JNum.blt a1 g <;> simp)
      have hvn := hlo hble
      rcases hA with rfl | ⟨nL, rfl, hL⟩
      · exact absurd (jblt_ble_trans h1 hble) (by simp [jblt_irrefl])
      · have hnL : JNum.ble g (JNum.fin nL) = true := jble_max_elim hble h1
        rw [hn] at hnL
        have := jble_fin_iff.mp hnL
        omega

theorem jmax_absorb2 (a c g : JNum) :
    JNum.max (JNum.max a c) (JNum.max c g) = JNum.max (JNum.max a c) g := by
  rw [jmax_absorb, ← jmax_assoc]

theorem jmin_absorb2 (a c g : JNum) :
    JNum.min (JNum.min a c) (JNum.min c g) = JNum.min (JNum.min a c) g := by
  rw [jmin_absorb, ← jmin_assoc]

/-- Fail-soft correctness of the maximizing move loop of the
transposition-table search, threading an arbitrary table invariant `P`
preserved by the recursive calls. -/
theorem ttMaxLoop_sat (child : Board → JNum → JNum → TT → JNum × TT × Nat)
    (b : Board) (bot : Player) (bb : JNum) (vals : Nat → Int) (P : TT → Prop)
    (hchild : ∀ col ∈ getValidMoves b, ∀ (a : JNum) (t : TT), P t →
      JNum.blt a bb = true →
      Sat (child (makeMove b col bot.val) a bb t).1 a bb (vals col) ∧
      P (child (makeMove b col bot.val) a bb t).2.1) :
    ∀ (moves : List Nat), (∀ c ∈ moves, c ∈ getValidMoves b) →
    ∀ (a0 acc : JNum) (past : Option Int) (t : TT), P t →
      (match past with
       | none => acc = JNum.negInf
       | some pv => Sat acc a0 bb pv ∧ JNum.blt acc bb = true) →
      JNum.blt (JNum.max a0 acc) bb = true →
      (past = none → moves ≠ []) →
      Sat (ttMaxLoop child b bot moves (JNum.max a0 acc) bb t acc).1 a0 bb
        (maxVal past (moves.map vals)) ∧
      P (ttMaxLoop child b bot moves (JNum.max a0 acc) bb t acc).2.1 := by
  intro moves
  induction moves with
  | nil =>
    intro _ a0 acc past t hP hinv hw hne
    cases past with
    | none => exact absurd rfl (hne rfl)
    | some pv => exact ⟨hinv.1, hP⟩
  | cons col rest ih =>
    intro hsub a0 acc past t hP hinv hw hne
    have hcolmem : col ∈ getValidMoves b := hsub col (List.mem_cons_self _ _)
    have hg := hchild col hcolmem (JNum.max a0 acc) t hP hw
    simp only [ttMaxLoop, List.map_cons]
    by_cases hcut : JNum.ble bb
        (JNum.max (JNum.max a0 acc)
          (child (makeMove b col bot.val) (JNum.max a0 acc) bb t).1) = true
    · rw [if_pos hcut]
      have hab := jmax_lt_iff.mp hw
      have hbbg : JNum.ble bb
          (child (makeMove b col bot.val) (JNum.max a0 acc) bb t).1 = true := by
        rcases jle_max_iff.mp hcut with h | h
        · exact absurd (jble_blt_trans h hw) (by simp [jblt_irrefl])
        · exact h
      refine ⟨?_, hg.2⟩
      obtain ⟨n, hn, hlo, hhi, hex⟩ := hg.1
      have haccg : JNum.blt acc
          (child (makeMove b col bot.val) (JNum.max a0 acc) bb t).1 = true := by
        cases past with
        | none =>
          replace hinv : acc = JNum.negInf := hinv
          rw [hn, hinv]
          rfl
        | some pv => exact jblt_ble_trans hinv.2 hbbg
      show Sat (JNum.max acc
        (child (makeMove b col bot.val) (JNum.max a0 acc) bb t).1) a0 bb _
      rw [jmax_eq_right haccg, hn]
      rw [hn] at hbbg
      refine ⟨n, rfl, ?_, ?_, ?_⟩
      · intro hle
        exact absurd (jble_blt_trans (jble_trans hbbg hle) hab.1)
          (by simp [jblt_irrefl])
      · intro _
        exact le_trans (hhi (hn ▸ hbbg))
          (le_maxVal_of_mem (List.mem_cons_self _ _) past)
      · intro _ hlt
        exact absurd (jble_blt_trans hbbg hlt) (by simp [jblt_irrefl])
    · rw [if_neg hcut]
      have hcut' : JNum.ble bb
          (JNum.max (JNum.max a0 acc)
            (child (makeMove b col bot.val) (JNum.max a0 acc) bb t).1) = false := by
        revert hcut
        cases JNum.ble bb (JNum.max (JNum.max a0 acc)
          (child (makeMove b col bot.val) (JNum.max a0 acc) bb t).1) <;> simp
      have hlt := jnot_ble.mp hcut'
      have hparts := jmax_lt_iff.mp hlt
      rw [maxVal_cons]
      show Sat (ttMaxLoop child b bot rest
        (JNum.max (JNum.max a0 acc)
          (child (makeMove b col bot.val) (JNum.max a0 acc) bb t).1) bb
        (child (makeMove b col bot.val) (JNum.max a0 acc) bb t).2.1
        (JNum.max acc
          (child (makeMove b col bot.val) (JNum.max a0 acc) bb t).1)).1 a0 bb _ ∧
        P (ttMaxLoop child b bot rest
        (JNum.max (JNum.max a0 acc)
          (child (makeMove b col bot.val) (JNum.max a0 acc) bb t).1) bb
        (child (makeMove b col bot.val) (JNum.max a0 acc) bb t).2.1
        (JNum.max acc
          (child (makeMove b col bot.val) (JNum.max a0 acc) bb t).1)).2.1
      rw [jmax_assoc]
      refine ih (fun c hc => hsub c (List.mem_cons_of_mem _ hc)) a0 _
        (some (pushMax past (vals col))) _ hg.2 ?_ ?_
        (fun h => absurd h (by simp))
      · refine ⟨?_, ?_⟩
        · cases past with
          | none =>
            replace hinv : acc = JNum.negInf := hinv
            have hgs := hg.1
            rw [hinv, jmax_negInf_left, jmax_negInf_right]
            rw [hinv, jmax_negInf_right] at hgs
            exact hgs
          | some pv => exact Sat_max_combine hinv.1 hinv.2 hg.1 hparts.2
        · refine jmax_lt_iff.mpr ⟨?_, hparts.2⟩
          cases past with
          | none =>
            replace hinv : acc = JNum.negInf := hinv
            rw [hinv]
            exact jblt_negInf_right hparts.2
          | some pv => exact hinv.2
      · rw [← jmax_assoc]
        exact hlt

/-- Fail-soft correctness of the minimizing move loop of the
transposition-table search. -/
theorem ttMinLoop_sat (child : Board → JNum → JNum → TT → JNum × TT × Nat)
    (b : Board) (human : Player) (a0 : JNum) (vals : Nat → Int) (P : TT → Prop)
    (hchild : ∀ col ∈ getValidMoves b, ∀ (bb : JNum) (t : TT), P t →
      JNum.blt a0 bb = true →
      Sat (child (makeMove b col human.val) a0 bb t).1 a0 bb (vals col) ∧
      P (child (makeMove b col human.val) a0 bb t).2.1) :
    ∀ (moves : List Nat), (∀ c ∈ moves, c ∈ getValidMoves b) →
    ∀ (bb0 acc : JNum) (past : Option Int) (t : TT), P t →
      (match past with
       | none => acc = JNum.posInf
       | some pv => Sat acc a0 bb0 pv ∧ JNum.blt a0 acc = true) →
      JNum.blt a0 (JNum.min bb0 acc) = true →
      (past = none → moves ≠ []) →
      Sat (ttMinLoop child b human moves a0 (JNum.min bb0 acc) t acc).1 a0 bb0
        (minVal past (moves.map vals)) ∧
      P (ttMinLoop child b human moves a0 (JNum.min bb0 acc) t acc).2.1 := by
  intro moves
  induction moves with
  | nil =>
    intro _ bb0 acc past t hP hinv hw hne
    cases past with
    | none => exact absurd rfl (hne rfl)
    | some pv => exact ⟨hinv.1, hP⟩
  | cons col rest ih =>
    intro hsub bb0 acc past t hP hinv hw hne
    have hcolmem : col ∈ getValidMoves b := hsub col (List.mem_cons_self _ _)
    have hg := hchild col hcolmem (JNum.min bb0 acc) t hP hw
    simp only [ttMinLoop, List.map_cons]
    by_cases hcut : JNum.ble
        (JNum.min (JNum.min bb0 acc)
          (child (makeMove b col human.val) a0 (JNum.min bb0 acc) t).1) a0 = true
    · rw [if_pos hcut]
      have hab := jgt_min_iff.mp hw
      have hga0 : JNum.ble
          (child (makeMove b col human.val) a0 (JNum.min bb0 acc) t).1 a0 = true := by
        rcases jmin_le_iff.mp hcut with h | h
        · exact absurd (jblt_ble_trans hw h) (by simp [jblt_irrefl])
        · exact h
      refine ⟨?_, hg.2⟩
      obtain ⟨n, hn, hlo, hhi, hex⟩ := hg.1
      have haccg : JNum.blt acc
          (child (makeMove b col human.val) a0 (JNum.min bb0 acc) t).1 = false := by
        refine jnot_blt.mpr ?_
        cases past with
        | none =>
          replace hinv : acc = JNum.posInf := hinv
          rw [hn, hinv]
          rfl
        | some pv => exact jble_of_blt (jble_blt_trans hga0 hinv.2)
      show Sat (JNum.min acc
        (child (makeMove b col human.val) a0 (JNum.min bb0 acc) t).1) a0 bb0 _
      rw [jmin_eq_right haccg, hn]
      rw [hn] at hga0
      refine ⟨n, rfl, ?_, ?_, ?_⟩
      · intro _
        exact le_trans (minVal_le_of_mem (List.mem_cons_self _ _) past)
          (hlo (hn ▸ hga0))
      · intro hle
        exact absurd (jble_blt_trans (jble_trans hle hga0) hab.1)
          (by simp [jblt_irrefl])
      · intro hlt _
        exact absurd (jble_blt_trans hga0 hlt) (by simp [jblt_irrefl])
    · rw [if_neg hcut]
      have hcut' : JNum.ble
          (JNum.min (JNum.min bb0 acc)
            (child (makeMove b col human.val) a0 (JNum.min bb0 acc) t).1) a0 = false := by
        revert hcut
        cases JNum.ble (JNum.min (JNum.min bb0 acc)
          (child (makeMove b col human.val) a0 (JNum.min bb0 acc) t).1) a0 <;> simp
      have hlt := jnot_ble.mp hcut'
      have hparts := jgt_min_iff.mp hlt
      rw [minVal_cons]
      show Sat (ttMinLoop child b human rest a0
        (JNum.min (JNum.min bb0 acc)
          (child (makeMove b col human.val) a0 (JNum.min bb0 acc) t).1)
        (child (makeMove b col human.val) a0 (JNum.min bb0 acc) t).2.1
        (JNum.min acc
          (child (makeMove b col human.val) a0 (JNum.min bb0 acc) t).1)).1 a0 bb0 _ ∧
        P (ttMinLoop child b human rest a0
        (JNum.min (JNum.min bb0 acc)
          (child (makeMove b col human.val) a0 (JNum.min bb0 acc) t).1)
        (child (makeMove b col human.val) a0 (JNum.min bb0 acc) t).2.1
        (JNum.min acc
          (child (makeMove b col human.val) a0 (JNum.min bb0 acc) t).1)).2.1
      rw [jmin_assoc]
      refine ih (fun c hc => hsub c (List.mem_cons_of_mem _ hc)) bb0 _
        (some (pushMin past (vals col))) _ hg.2 ?_ ?_
        (fun h => absurd h (by simp))
      · refine ⟨?_, ?_⟩
        · cases past with
          | none =>
            replace hinv : acc = JNum.posInf := hinv
            have hgs := hg.1
            rw [hinv, jmin_posInf_left, jmin_posInf_right]
            rw [hinv, jmin_posInf_right] at hgs
            exact hgs
          | some pv => exact Sat_min_combine hinv.1 hinv.2 hg.1 hparts.2
        · refine jgt_min_iff.mpr ⟨?_, hparts.2⟩
          cases past with
          | none =>
            replace hinv : acc = JNum.posInf := hinv
            rw [hinv]
            exact jblt_posInf_left hparts.2
          | some pv => exact hinv.2
      · rw [← jmin_assoc]
        exact hlt

/-- Fail-soft correctness of the maximizing move loop of the memory
search; its `alpha = max(alpha, bestScore)` update is absorbed into the
same representation as the other loops. -/
theorem memMaxLoop_sat (child : Board → JNum → JNum → TT → JNum × TT × Nat)
    (b : Board) (cur : Player) (bb : JNum) (vals : Nat → Int) (P : TT → Prop)
    (hchild : ∀ col ∈ getValidMoves b, ∀ (a : JNum) (t : TT), P t →
      JNum.blt a bb = true →
      Sat (child (makeMove b col cur.val) a bb t).1 a bb (vals col) ∧
      P (child (makeMove b col cur.val) a bb t).2.1) :
    ∀ (moves : List Nat), (∀ c ∈ moves, c ∈ getValidMoves b) →
    ∀ (a0 acc : JNum) (past : Option Int) (t : TT), P t →
      (match past with
       | none => acc = JNum.negInf
       | some pv => Sat acc a0 bb pv ∧ JNum.blt acc bb = true) →
      JNum.blt (JNum.max a0 acc) bb = true →
      (past = none → moves ≠ []) →
      Sat (memMaxLoop child b cur moves (JNum.max a0 acc) bb t acc).1 a0 bb
        (maxVal past (moves.map vals)) ∧
      P (memMaxLoop child b cur moves (JNum.max a0 acc) bb t acc).2.1 := by
  intro moves
  induction moves with
  | nil =>
    intro _ a0 acc past t hP hinv hw hne
    cases past with
    | none => exact absurd rfl (hne rfl)
    | some pv => exact ⟨hinv.1, hP⟩
  | cons col rest ih =>
    intro hsub a0 acc past t hP hinv hw hne
    have hcolmem : col ∈ getValidMoves b := hsub col (List.mem_cons_self _ _)
    have hg := hchild col hcolmem (JNum.max a0 acc) t hP hw
    simp only [memMaxLoop, List.map_cons]
    rw [jmax_absorb2]
    by_cases hcut : JNum.ble bb
        (JNum.max (JNum.max a0 acc)
          (child (makeMove b col cur.val) (JNum.max a0 acc) bb t).1) = true
    · rw [if_pos hcut]
      have hab := jmax_lt_iff.mp hw
      have hbbg : JNum.ble bb
          (child (makeMove b col cur.val) (JNum.max a0 acc) bb t).1 = true := by
        rcases jle_max_iff.mp hcut with h | h
        · exact absurd (jble_blt_trans h hw) (by simp [jblt_irrefl])
        · exact h
      refine ⟨?_, hg.2⟩
      obtain ⟨n, hn, hlo, hhi, hex⟩ := hg.1
      have haccg : JNum.blt acc
          (child (makeMove b col cur.val) (JNum.max a0 acc) bb t).1 = true := by
        cases past with
        | none =>
          replace hinv : acc = JNum.negInf := hinv
          rw [hn, hinv]
          rfl
        | some pv => exact jblt_ble_trans hinv.2 hbbg
      show Sat (JNum.max acc
        (child (makeMove b col cur.val) (JNum.max a0 acc) bb t).1) a0 bb _
      rw [jmax_eq_right haccg, hn]
      rw [hn] at hbbg
      refine ⟨n, rfl, ?_, ?_, ?_⟩
      · intro hle
        exact absurd (jble_blt_trans (jble_trans hbbg hle) hab.1)
          (by simp [jblt_irrefl])
      · intro _
        exact le_trans (hhi (hn ▸ hbbg))
          (le_maxVal_of_mem (List.mem_cons_self _ _) past)
      · intro _ hlt
        exact absurd (jble_blt_trans hbbg hlt) (by simp [jblt_irrefl])
    · rw [if_neg hcut]
      have hcut' : JNum.ble bb
          (JNum.max (JNum.max a0 acc)
            (child (makeMove b col cur.val) (JNum.max a0 acc) bb t).1) = false := by
        revert hcut
        cases JNum.ble bb (JNum.max (JNum.max a0 acc)
          (child (makeMove b col cur.val) (JNum.max a0 acc) bb t).1) <;> simp
      have hlt := jnot_ble.mp hcut'
      have hparts := jmax_lt_iff.mp hlt
      rw [maxVal_cons]
      show Sat (memMaxLoop child b cur rest
        (JNum.max (JNum.max a0 acc)
          (child (makeMove b col cur.val) (JNum.max a0 acc) bb t).1) bb
        (child (makeMove b col cur.val) (JNum.max a0 acc) bb t).2.1
        (JNum.max acc
          (child (makeMove b col cur.val) (JNum.max a0 acc) bb t).1)).1 a0 bb _ ∧
        P (memMaxLoop child b cur rest
        (JNum.max (JNum.max a0 acc)
          (child (makeMove b col cur.val) (JNum.max a0 acc) bb t).1) bb
        (child (makeMove b col cur.val) (JNum.max a0 acc) bb t).2.1
        (JNum.max acc
          (child (makeMove b col cur.val) (JNum.max a0 acc) bb t).1)).2.1
      rw [jmax_assoc]
      refine ih (fun c hc => hsub c (List.mem_cons_of_mem _ hc)) a0 _
        (some (pushMax past (vals col))) _ hg.2 ?_ ?_
        (fun h => absurd h (by simp))
      · refine ⟨?_, ?_⟩
        · cases past with
          | none =>
            replace hinv : acc = JNum.negInf := hinv
            have hgs := hg.1
            rw [hinv, jmax_negInf_left, jmax_negInf_right]
            rw [hinv, jmax_negInf_right] at hgs
            exact hgs
          | some pv => exact Sat_max_combine hinv.1 hinv.2 hg.1 hparts.2
        · refine jmax_lt_iff.mpr ⟨?_, hparts.2⟩
          cases past with
          | none =>
            replace hinv : acc = JNum.negInf := hinv
            rw [hinv]
            exact jblt_negInf_right hparts.2
          | some pv => exact hinv.2
      · rw [← jmax_assoc]
        exact hlt

/-- Fail-soft correctness of the minimizing move loop of the memory
search. -/
theorem memMinLoop_sat (child : Board → JNum → JNum → TT → JNum × TT × Nat)
    (b : Board) (cur : Player) (a0 : JNum) (vals : Nat → Int) (P : TT → Prop)
    (hchild : ∀ col ∈ getValidMoves b, ∀ (bb : JNum) (t : TT), P t →
      JNum.blt a0 bb = true →
      Sat (child (makeMove b col cur.val) a0 bb t).1 a0 bb (vals col) ∧
      P (child (makeMove b col cur.val) a0 bb t).2.1) :
    ∀ (moves : List Nat), (∀ c ∈ moves, c ∈ getValidMoves b) →
    ∀ (bb0 acc : JNum) (past : Option Int) (t : TT), P t →
      (match past with
       | none => acc = JNum.posInf
       | some pv => Sat acc a0 bb0 pv ∧ JNum.blt a0 acc = true) →
      JNum.blt a0 (JNum.min bb0 acc) = true →
      (past = none → moves ≠ []) →
      Sat (memMinLoop child b cur moves a0 (JNum.min bb0 acc) t acc).1 a0 bb0
        (minVal past (moves.map vals)) ∧
      P (memMinLoop child b cur moves a0 (JNum.min bb0 acc) t acc).2.1 := by
  intro moves
  induction moves with
  | nil =>
    intro _ bb0 acc past t hP hinv hw hne
    cases past with
    | none => exact absurd rfl (hne rfl)
    | some pv => exact ⟨hinv.1, hP⟩
  | cons col rest ih =>
    intro hsub bb0 acc past t hP hinv hw hne
    have hcolmem : col ∈ getValidMoves b := hsub col (List.mem_cons_self _ _)
    have hg := hchild col hcolmem (JNum.min bb0 acc) t hP hw
    simp only [memMinLoop, List.map_cons]
    rw [jmin_absorb2]
    by_cases hcut : JNum.ble
        (JNum.min (JNum.min bb0 acc)
          (child (makeMove b col cur.val) a0 (JNum.min bb0 acc) t).1) a0 = true
    · rw [if_pos hcut]
      have hab := jgt_min_iff.mp hw
      have hga0 : JNum.ble
          (child (makeMove b col cur.val) a0 (JNum.min bb0 acc) t).1 a0 = true := by
        rcases jmin_le_iff.mp hcut with h | h
        · exact absurd (jblt_ble_trans hw h) (by simp [jblt_irrefl])
        · exact h
      refine ⟨?_, hg.2⟩
      obtain ⟨n, hn, hlo, hhi, hex⟩ := hg.1
      have haccg : JNum.blt acc
          (child (makeMove b col cur.val) a0 (JNum.min bb0 acc) t).1 = false := by
        refine jnot_blt.mpr ?_
        cases past with
        | none =>
          replace hinv : acc = JNum.posInf := hinv
          rw [hn, hinv]
          rfl
        | some pv => exact jble_of_blt (jble_blt_trans hga0 hinv.2)
      show Sat (JNum.min acc
        (child (makeMove b col cur.val) a0 (JNum.min bb0 acc) t).1) a0 bb0 _
      rw [jmin_eq_right haccg, hn]
      rw [hn] at hga0
      refine ⟨n, rfl, ?_, ?_, ?_⟩
      · intro _
        exact le_trans (minVal_le_of_mem (List.mem_cons_self _ _) past)
          (hlo (hn ▸ hga0))
      · intro hle
        exact absurd (jble_blt_trans (jble_trans hle hga0) hab.1)
          (by simp [jblt_irrefl])
      · intro hlt _
        exact absurd (jble_blt_trans hga0 hlt) (by simp [jblt_irrefl])
    · rw [if_neg hcut]
      have hcut' : JNum.ble
          (JNum.min (JNum.min bb0 acc)
            (child (makeMove b col cur.val) a0 (JNum.min bb0 acc) t).1) a0 = false := by
        revert hcut
        cases JNum.ble (JNum.min (JNum.min bb0 acc)
          (child (makeMove b col cur.val) a0 (JNum.min bb0 acc) t).1) a0 <;> simp
      have hlt := jnot_ble.mp hcut'
      have hparts := jgt_min_iff.mp hlt
      rw [minVal_cons]
      show Sat (memMinLoop child b cur rest a0
        (JNum.min (JNum.min bb0 acc)
          (child (makeMove b col cur.val) a0 (JNum.min bb0 acc) t).1)
        (child (makeMove b col cur.val) a0 (JNum.min bb0 acc) t).2.1
        (JNum.min acc
          (child (makeMove b col cur.val) a0 (JNum.min bb0 acc) t).1)).1 a0 bb0 _ ∧
        P (memMinLoop child b cur rest a0
        (JNum.min (JNum.min bb0 acc)
          (child (makeMove b col cur.val) a0 (JNum.min bb0 acc) t).1)
        (child (makeMove b col cur.val) a0 (JNum.min bb0 acc) t).2.1
        (JNum.min acc
          (child (makeMove b col cur.val) a0 (JNum.min bb0 acc) t).1)).2.1
      rw [jmin_assoc]
      refine ih (fun c hc => hsub c (List.mem_cons_of_mem _ hc)) bb0 _
        (some (pushMin past (vals col))) _ hg.2 ?_ ?_
        (fun h => absurd h (by simp))
      · refine ⟨?_, ?_⟩
        · cases past with
          | none =>
            replace hinv : acc = JNum.posInf := hinv
            have hgs := hg.1
            rw [hinv, jmin_posInf_left, jmin_posInf_right]
            rw [hinv, jmin_posInf_right] at hgs
            exact hgs
          | some pv => exact Sat_min_combine hinv.1 hinv.2 hg.1 hparts.2
        · refine jgt_min_iff.mpr ⟨?_, hparts.2⟩
          cases past with
          | none =>
            replace hinv : acc = JNum.posInf := hinv
            rw [hinv]
            exact jblt_posInf_left hparts.2
          | some pv => exact hinv.2
      · rw [← jmin_assoc]
        exact hlt

/-! ## Soundness of the memory-enhanced search against minimax -/

theorem humanOf_ne (bot : Player) : humanOf bot ≠ bot := by
  intro h
  have hv := congrArg Subtype.val h
  unfold humanOf at hv
  rcases bot.2 with hb | hb <;> rw [hb] at hv <;>
    simp [playerP, playerB, PLAYER, BOT] at hv

theorem ttGet_ttSet_cases (t : TT) (k k' : String) (e : TTEntry) :
    ttGet (ttSet t k e) k' = if k = k' then some e else ttGet t k' := by
  unfold ttGet ttSet
  rw [List.find?_cons]
  by_cases h : k = k'
  · rw [if_pos h]
    simp [h]
  · rw [if_neg h]
    rw [show (k == k') = false from by simp [h]]

/-- What a stored entry promises about the true value `v` of its node. -/
def EBounds (e : TTEntry) (v : Int) : Prop :=
  match e.flag with
  | TTFlag.EXACT => e.score = JNum.fin v
  | TTFlag.LOWERBOUND => ∃ n : Int, e.score = JNum.fin n ∧ n ≤ v
  | TTFlag.UPPERBOUND => ∃ n : Int, e.score = JNum.fin n ∧ v ≤ n

/-- Table invariant of the memory search within one `findBestMove` run:
every entry sits at the depth the current run searches its board with
(`K + countEmpty`), and its score/flag bound the minimax value of that
board for the keyed player. -/
def TTInvM (K : Int) (bot : Player) (t : TT) : Prop :=
  ∀ (b' : Board) (cur : Player) (e : TTEntry), BoardWF b' →
    ttGet t (getBoardHash b' ++ "-" ++ toString cur.val) = some e →
    e.depth ≤ K + countEmpty b' ∧
    EBounds e (minimax b' e.depth (maxiOf cur bot) bot)

/-- The flag classification at store time is sound: the stored entry
bounds (or pins) the true value. -/
theorem EBounds_store {g alpha beta a1 b1 : JNum} {v : Int} {depth : Int}
    (hsat1 : Sat g a1 b1 v) (hsatW : Sat g alpha beta v)
    (hA : a1 = alpha ∨ ∃ nL : Int, a1 = JNum.max alpha (JNum.fin nL) ∧ nL ≤ v) :
    EBounds ⟨g, depth, storeFlag g alpha b1⟩ v := by
  obtain ⟨n, hn, hlo1, hhi1, hex1⟩ := hsat1
  obtain ⟨n', hn', hloW, hhiW, hexW⟩ := hsatW
  rw [hn] at hn'
  injection hn' with hnn
  subst hnn
  by_cases h1 : JNum.ble g alpha = true
  · have hf : storeFlag g alpha b1 = TTFlag.UPPERBOUND := by
      unfold storeFlag
      rw [if_pos h1]
    rw [hf]
    show ∃ m : Int, g = JNum.fin m ∧ v ≤ m
    exact ⟨n, hn, hloW h1⟩
  · by_cases h2 : JNum.ble b1 g = true
    · have hf : storeFlag g alpha b1 = TTFlag.LOWERBOUND := by
        unfold storeFlag
        rw [if_neg h1, if_pos h2]
      rw [hf]
      show ∃ m : Int, g = JNum.fin m ∧ m ≤ v
      exact ⟨n, hn, hhi1 h2⟩
    · have hf : storeFlag g alpha b1 = TTFlag.EXACT := by
        unfold storeFlag
        rw [if_neg h1, if_neg h2]
      rw [hf]
      show g = JNum.fin v
      have hbltag : JNum.blt alpha g = true :=
        jnot_ble.mp (by revert h1; cases JNum.ble g alpha <;> simp)
      have hbltgb : JNum.blt g b1 = true :=
        jnot_ble.mp (by revert h2; cases JNum.ble b1 g <;> simp)
      rcases hA with rfl | ⟨nL, rfl, hL⟩
      · rw [hn, hex1 hbltag hbltgb]
      · by_cases hnl : JNum.blt (JNum.fin nL) g = true
        · have hnv := hex1 (jmax_lt_iff.mpr ⟨hbltag, hnl⟩) hbltgb
          rw [hn, hnv]
        · have hlen : JNum.ble g (JNum.fin nL) = true :=
            jnot_blt.mp (by revert hnl; cases JNum.blt (JNum.fin nL) g <;> simp)
          have h3 : n ≤ nL := by
            rw [hn] at hlen
            exact jble_fin_iff.mp hlen
          have h4 := hlo1 (jble_trans hlen (jble_right_max alpha (JNum.fin nL)))
          rw [hn]
          congr 1
          omega

/-- The body of the memory search after a lookup that narrowed the window
to `(a1, b1)` without returning: fail-soft for the original window and
invariant-preserving. -/
theorem memAB_step (fuel : Nat) (b : Board) (depth : Int)
    (alpha beta a1 b1 : JNum) (cur bot : Player) (t : TT) (K : Int)
    (hWF : BoardWF b) (hfuel : countEmpty b < fuel + 1)
    (hdep : depth = K + countEmpty b) (hInv : TTInvM K bot t)
    (hlk : ttLookup (ttGet t (getBoardHash b ++ "-" ++ toString cur.val))
      depth alpha beta = (a1, b1, none))
    (hw1 : JNum.blt a1 b1 = true)
    (hA : a1 = alpha ∨ ∃ nL : Int, a1 = JNum.max alpha (JNum.fin nL) ∧
      nL ≤ minimax b depth (maxiOf cur bot) bot)
    (hB : b1 = beta ∨ ∃ nU : Int, b1 = JNum.min beta (JNum.fin nU) ∧
      minimax b depth (maxiOf cur bot) bot ≤ nU)
    (hIH : ∀ (b' : Board) (depth' : Int) (alpha' beta' : JNum)
      (cur' bot' : Player) (t' : TT) (K' : Int),
      BoardWF b' → countEmpty b' < fuel → depth' = K' + countEmpty b' →
      TTInvM K' bot' t' → JNum.blt alpha' beta' = true →
      Sat (alphaBetaPruningWithMemoryAlgorithm fuel b' depth' alpha' beta'
          cur' bot' t').1 alpha' beta'
        (minimax b' depth' (maxiOf cur' bot') bot') ∧
      TTInvM K' bot'
        (alphaBetaPruningWithMemoryAlgorithm fuel b' depth' alpha' beta'
          cur' bot' t').2.1) :
    Sat (alphaBetaPruningWithMemoryAlgorithm (fuel + 1) b depth alpha beta
        cur bot t).1 alpha beta (minimax b depth (maxiOf cur bot) bot) ∧
    TTInvM K bot
      (alphaBetaPruningWithMemoryAlgorithm (fuel + 1) b depth alpha beta
        cur bot t).2.1 := by
  simp only [alphaBetaPruningWithMemoryAlgorithm]
  rw [hlk]
  dsimp only
  by_cases hwin1 : checkWinner b = bot.val
  · rw [if_pos hwin1, minimax_eq, if_pos hwin1]
    exact ⟨Sat_exact _ _ _, hInv⟩
  · rw [if_neg hwin1]
    by_cases hwin2 : checkWinner b = (humanOf bot).val
    · rw [if_pos ((winner_human_iff hWF bot hwin1).mpr hwin2), minimax_eq,
        if_neg hwin1, if_pos hwin2]
      exact ⟨Sat_exact _ _ _, hInv⟩
    · rw [if_neg (fun hc => hwin2 ((winner_human_iff hWF bot hwin1).mp hc))]
      by_cases hterm : depth = 0 ∨ isBoardFull b = true
      · rw [if_pos hterm, minimax_eq, if_neg hwin1, if_neg hwin2, if_pos hterm]
        exact ⟨Sat_exact _ _ _, hInv⟩
      · rw [if_neg hterm]
        have hfull : isBoardFull b = false := by
          rcases Bool.eq_false_or_eq_true (isBoardFull b) with h | h
          · exact absurd (Or.inr h) hterm
          · exact h
        have hvalid : getValidMoves b ≠ [] := getValidMoves_ne_nil hWF hfull
        by_cases hcur : cur = bot
        · rw [hcur]
          rw [hcur] at hA hB
          rw [if_pos rfl]
          have hveq : minimax b depth (maxiOf bot bot) bot =
              maxList ((getValidMoves b).map (fun c =>
                minimax (makeMove b c bot.val) (depth - 1) false bot)) := by
            rw [minimax_eq, if_neg hwin1, if_neg hwin2, if_neg hterm,
              maxiOf_self, if_pos rfl]
          have hchild : ∀ col ∈ getValidMoves b, ∀ (a : JNum) (t' : TT),
              TTInvM K bot t' → JNum.blt a b1 = true →
              Sat ((fun nb a bb t' => alphaBetaPruningWithMemoryAlgorithm fuel
                  nb (depth - 1) a bb (opponentOf bot) bot t')
                  (makeMove b col bot.val) a b1 t').1 a b1
                (minimax (makeMove b col bot.val) (depth - 1) false bot) ∧
              TTInvM K bot
                ((fun nb a bb t' => alphaBetaPruningWithMemoryAlgorithm fuel
                  nb (depth - 1) a bb (opponentOf bot) bot t')
                  (makeMove b col bot.val) a b1 t').2.1 := by
            intro col hcol a t' ht' hwa
            have hcnt := countEmpty_makeMove_eq hcol (player_val_ne_zero bot)
            have h := hIH (makeMove b col bot.val) (depth - 1) a b1
              (opponentOf bot) bot t' K
              (BoardWF_makeMove hWF col (player_val_le_two bot))
              (by omega) (by omega) ht' hwa
            rw [show maxiOf (opponentOf bot) bot = false from by
              rw [opponentOf_of_eq]; exact maxiOf_human bot] at h
            exact h
          have hloop := memMaxLoop_sat
            (fun nb a bb t' => alphaBetaPruningWithMemoryAlgorithm fuel
              nb (depth - 1) a bb (opponentOf bot) bot t') b bot b1
            (fun c => minimax (makeMove b c bot.val) (depth - 1) false bot)
            (TTInvM K bot) hchild (getValidMoves b) (fun c h => h)
            a1 JNum.negInf none t hInv rfl
            (by rw [jmax_negInf_right]; exact hw1)
            (fun _ => hvalid)
          rw [jmax_negInf_right] at hloop
          have hsat1 : Sat (memMaxLoop (fun nb a bb t' =>
              alphaBetaPruningWithMemoryAlgorithm fuel nb (depth - 1) a bb
                (opponentOf bot) bot t') b bot (getValidMoves b) a1 b1 t
              JNum.negInf).1 a1 b1 (minimax b depth (maxiOf bot bot) bot) := by
            rw [hveq]
            exact hloop.1
          have hsatW := Sat_widen hA hB hsat1
          refine ⟨hsatW, ?_⟩
          intro b'' cur'' e'' hWF'' hget''
          rw [ttGet_ttSet_cases] at hget''
          by_cases hkey : getBoardHash b ++ "-" ++ toString bot.val =
              getBoardHash b'' ++ "-" ++ toString cur''.val
          · rw [if_pos hkey] at hget''
            obtain ⟨hbb, hcc⟩ := memKey_inj hWF hWF'' hkey
            injection hget'' with he
            subst hbb
            subst hcc
            subst he
            exact ⟨le_of_eq hdep, EBounds_store hsat1 hsatW hA⟩
          · rw [if_neg hkey] at hget''
            exact hloop.2 b'' cur'' e'' hWF'' hget''
        · have hcur' : cur = humanOf bot := player_eq_or hcur
          rw [hcur']
          rw [hcur'] at hA hB
          rw [if_neg (humanOf_ne bot)]
          have hveq : minimax b depth (maxiOf (humanOf bot) bot) bot =
              minList ((getValidMoves b).map (fun c =>
                minimax (makeMove b c (humanOf bot).val) (depth - 1) true bot)) := by
            rw [minimax_eq, if_neg hwin1, if_neg hwin2, if_neg hterm,
              maxiOf_human, if_neg (by simp)]
          have hchild : ∀ col ∈ getValidMoves b, ∀ (bb : JNum) (t' : TT),
              TTInvM K bot t' → JNum.blt a1 bb = true →
              Sat ((fun nb a bb t' => alphaBetaPruningWithMemoryAlgorithm fuel
                  nb (depth - 1) a bb (opponentOf (humanOf bot)) bot t')
                  (makeMove b col (humanOf bot).val) a1 bb t').1 a1 bb
                (minimax (makeMove b col (humanOf bot).val) (depth - 1) true bot) ∧
              TTInvM K bot
                ((fun nb a bb t' => alphaBetaPruningWithMemoryAlgorithm fuel
                  nb (depth - 1) a bb (opponentOf (humanOf bot)) bot t')
                  (makeMove b col (humanOf bot).val) a1 bb t').2.1 := by
            intro col hcol bb t' ht' hwb
            have hcnt := countEmpty_makeMove_eq hcol
              (player_val_ne_zero (humanOf bot))
            have h := hIH (makeMove b col (humanOf bot).val) (depth - 1) a1 bb
              (opponentOf (humanOf bot)) bot t' K
              (BoardWF_makeMove hWF col (player_val_le_two (humanOf bot)))
              (by omega) (by omega) ht' hwb
            rw [show maxiOf (opponentOf (humanOf bot)) bot = true from by
              rw [opponentOf_human]; exact maxiOf_self bot] at h
            exact h
          have hloop := memMinLoop_sat
            (fun nb a bb t' => alphaBetaPruningWithMemoryAlgorithm fuel
              nb (depth - 1) a bb (opponentOf (humanOf bot)) bot t') b
            (humanOf bot) a1
            (fun c => minimax (makeMove b c (humanOf bot).val) (depth - 1) true bot)
            (TTInvM K bot) hchild (getValidMoves b) (fun c h => h)
            b1 JNum.posInf none t hInv rfl
            (by rw [jmin_posInf_right]; exact hw1)
            (fun _ => hvalid)
          rw [jmin_posInf_right] at hloop
          have hsat1 : Sat (memMinLoop (fun nb a bb t' =>
              alphaBetaPruningWithMemoryAlgorithm fuel nb (depth - 1) a bb
                (opponentOf (humanOf bot)) bot t') b (humanOf bot)
              (getValidMoves b) a1 b1 t
              JNum.posInf).1 a1 b1 (minimax b depth (maxiOf (humanOf bot) bot) bot) := by
            rw [hveq]
            exact hloop.1
          have hsatW := Sat_widen hA hB hsat1
          refine ⟨hsatW, ?_⟩
          intro b'' cur'' e'' hWF'' hget''
          rw [ttGet_ttSet_cases] at hget''
          by_cases hkey : getBoardHash b ++ "-" ++ toString (humanOf bot).val =
              getBoardHash b'' ++ "-" ++ toString cur''.val
          · rw [if_pos hkey] at hget''
            obtain ⟨hbb, hcc⟩ := memKey_inj hWF hWF'' hkey
            injection hget'' with he
            subst hbb
            subst hcc
            subst he
            exact ⟨le_of_eq hdep, EBounds_store hsat1 hsatW hA⟩
          · rw [if_neg hkey] at hget''
            exact hloop.2 b'' cur'' e'' hWF'' hget''

/-- The memory-enhanced search meets the fail-soft contract against
minimax and preserves the table invariant, on any valid window, as long
as every entry of the table was stored by this run (`TTInvM`). -/
theorem memAB_sat : ∀ (fuel : Nat) (b : Board) (depth : Int)
    (alpha beta : JNum) (cur bot : Player) (t : TT) (K : Int),
    BoardWF b → countEmpty b < fuel → depth = K + countEmpty b →
    TTInvM K bot t → JNum.blt alpha beta = true →
    Sat (alphaBetaPruningWithMemoryAlgorithm fuel b depth alpha beta cur bot
        t).1 alpha beta (minimax b depth (maxiOf cur bot) bot) ∧
    TTInvM K bot
      (alphaBetaPruningWithMemoryAlgorithm fuel b depth alpha beta cur bot
        t).2.1 := by
  intro fuel
  induction fuel with
  | zero => intro b depth alpha beta cur bot t K hWF hfuel; omega
  | succ fuel ih =>
    intro b depth alpha beta cur bot t K hWF hfuel hdep hInv hw
    cases hget : ttGet t (getBoardHash b ++ "-" ++ toString cur.val) with
    | none =>
      have hlk : ttLookup (ttGet t (getBoardHash b ++ "-" ++
          toString cur.val)) depth alpha beta = (alpha, beta, none) := by
        rw [hget]
        rfl
      exact memAB_step fuel b depth alpha beta alpha beta cur bot t K hWF
        hfuel hdep hInv hlk hw (Or.inl rfl) (Or.inl rfl) ih
    | some e =>
      by_cases hd : depth ≤ e.depth
      · obtain ⟨hedep, hbounds⟩ := hInv b cur e hWF hget
        have hed : e.depth = depth := by omega
        rw [hed] at hbounds
        cases hf : e.flag with
        | EXACT =>
          replace hbounds : e.score =
              JNum.fin (minimax b depth (maxiOf cur bot) bot) := by
            unfold EBounds at hbounds
            rw [hf] at hbounds
            exact hbounds
          have hlk : ttLookup (some e) depth alpha beta =
              (alpha, beta, some e.score) := by
            unfold ttLookup
            dsimp only
            rw [if_pos hd, hf]
          simp only [alphaBetaPruningWithMemoryAlgorithm]
          rw [hget, hlk]
          dsimp only
          refine ⟨?_, hInv⟩
          rw [hbounds]
          exact Sat_exact _ _ _
        | LOWERBOUND =>
          replace hbounds : ∃ n : Int, e.score = JNum.fin n ∧
              n ≤ minimax b depth (maxiOf cur bot) bot := by
            unfold EBounds at hbounds
            rw [hf] at hbounds
            exact hbounds
          obtain ⟨nc, hsc, hncv⟩ := hbounds
          by_cases hco : JNum.ble beta (JNum.max alpha e.score) = true
          · have hlk : ttLookup (some e) depth alpha beta =
                (JNum.max alpha e.score, beta, some e.score) := by
              unfold ttLookup
              dsimp only
              rw [if_pos hd, hf]
              dsimp only
              rw [if_pos hco]
            simp only [alphaBetaPruningWithMemoryAlgorithm]
            rw [hget, hlk]
            dsimp only
            refine ⟨?_, hInv⟩
            rw [hsc]
            rw [hsc] at hco
            have hbeta_nc : JNum.ble beta (JNum.fin nc) = true := by
              rcases jle_max_iff.mp hco with h | h
              · exact absurd (jble_blt_trans h hw) (by simp [jblt_irrefl])
              · exact h
            refine ⟨nc, rfl, ?_, ?_, ?_⟩
            · intro hle
              exact absurd (jble_blt_trans (jble_trans hbeta_nc hle) hw)
                (by simp [jblt_irrefl])
            · intro _
              exact hncv
            · intro _ hlt
              exact absurd (jble_blt_trans hbeta_nc hlt)
                (by simp [jblt_irrefl])
          · have hlk : ttLookup (some e) depth alpha beta =
                (JNum.max alpha e.score, beta, none) := by
              unfold ttLookup
              dsimp only
              rw [if_pos hd, hf]
              dsimp only
              rw [if_neg hco]
            have hw1 : JNum.blt (JNum.max alpha e.score) beta = true :=
              jnot_ble.mp (by revert hco; cases JNum.ble beta (JNum.max alpha e.score) <;> simp)
            exact memAB_step fuel b depth alpha beta
              (JNum.max alpha e.score) beta cur bot t K hWF hfuel hdep hInv
              (by rw [hget]; exact hlk) hw1
              (Or.inr ⟨nc, by rw [hsc], hncv⟩) (Or.inl rfl) ih
        | UPPERBOUND =>
          replace hbounds : ∃ n : Int, e.score = JNum.fin n ∧
              minimax b depth (maxiOf cur bot) bot ≤ n := by
            unfold EBounds at hbounds
            rw [hf] at hbounds
            exact hbounds
          obtain ⟨nc, hsc, hncv⟩ := hbounds
          by_cases hco : JNum.ble (JNum.min beta e.score) alpha = true
          · have hlk : ttLookup (some e) depth alpha beta =
                (alpha, JNum.min beta e.score, some e.score) := by
              unfold ttLookup
              dsimp only
              rw [if_pos hd, hf]
              dsimp only
              rw [if_pos hco]
            simp only [alphaBetaPruningWithMemoryAlgorithm]
            rw [hget, hlk]
            dsimp only
            refine ⟨?_, hInv⟩
            rw [hsc]
            rw [hsc] at hco
            have halpha_nc : JNum.ble (JNum.fin nc) alpha = true := by
              rcases jmin_le_iff.mp hco with h | h
              · exact absurd (jble_blt_trans h hw) (by simp [jblt_irrefl])
              · exact h
            refine ⟨nc, rfl, ?_, ?_, ?_⟩
            · intro _
              exact hncv
            · intro hle
              exact absurd (jble_blt_trans (jble_trans hle halpha_nc) hw)
                (by simp [jblt_irrefl])
            · intro hlt _
              exact absurd (jblt_ble_trans hlt halpha_nc)
                (by simp [jblt_irrefl])
          · have hlk : ttLookup (some e) depth alpha beta =
                (alpha, JNum.min beta e.score, none) := by
              unfold ttLookup
              dsimp only
              rw [if_pos hd, hf]
              dsimp only
              rw [if_neg hco]
            have hw1 : JNum.blt alpha (JNum.min beta e.score) = true :=
              jnot_ble.mp (by revert hco; cases JNum.ble (JNum.min beta e.score) alpha <;> simp)
            exact memAB_step fuel b depth alpha beta
              alpha (JNum.min beta e.score) cur bot t K hWF hfuel hdep hInv
              (by rw [hget]; exact hlk) hw1
              (Or.inl rfl) (Or.inr ⟨nc, by rw [hsc], hncv⟩) ih
      · have hlk : ttLookup (some e) depth alpha beta =
            (alpha, beta, none) := by
          unfold ttLookup
          dsimp only
          rw [if_neg hd]
        exact memAB_step fuel b depth alpha beta alpha beta cur bot t K hWF
          hfuel hdep hInv (by rw [hget]; exact hlk) hw (Or.inl rfl)
          (Or.inl rfl) ih


/-! ## Soundness of the transposition-table search against minimax -/

/-- Table invariant of the transposition-table search within one
`findBestMove` run. -/
def TTInvT (K : Int) (bot : Player) (t : TT) : Prop :=
  ∀ (b' : Board) (maxi : Bool) (e : TTEntry), BoardWF b' →
    ttGet t (getBoardHash b' ++ "-" ++ (if maxi then "max" else "min")) =
      some e →
    e.depth ≤ K + countEmpty b' ∧
    EBounds e (minimax b' e.depth maxi bot)

/-- Raising the depth offset weakens the invariant (used when iterative
deepening moves to the next depth). -/
theorem TTInvM_mono {K K' : Int} (h : K ≤ K') {bot : Player} {t : TT}
    (hi : TTInvM K bot t) : TTInvM K' bot t := by
  intro b' cur e hWF hget
  obtain ⟨h1, h2⟩ := hi b' cur e hWF hget
  exact ⟨by omega, h2⟩

/-- The body of the transposition-table search after a lookup that
narrowed the window to `(a1, b1)` without returning. -/
theorem ttAB_step (fuel : Nat) (b : Board) (depth : Int)
    (alpha beta a1 b1 : JNum) (maxi : Bool) (bot : Player) (t : TT) (K : Int)
    (hWF : BoardWF b) (hfuel : countEmpty b < fuel + 1)
    (hdep : depth = K + countEmpty b) (hInv : TTInvT K bot t)
    (hlk : ttLookup (ttGet t (getBoardHash b ++ "-" ++
      (if maxi then "max" else "min"))) depth alpha beta = (a1, b1, none))
    (hw1 : JNum.blt a1 b1 = true)
    (hA : a1 = alpha ∨ ∃ nL : Int, a1 = JNum.max alpha (JNum.fin nL) ∧
      nL ≤ minimax b depth maxi bot)
    (hB : b1 = beta ∨ ∃ nU : Int, b1 = JNum.min beta (JNum.fin nU) ∧
      minimax b depth maxi bot ≤ nU)
    (hIH : ∀ (b' : Board) (depth' : Int) (alpha' beta' : JNum)
      (maxi' : Bool) (bot' : Player) (t' : TT) (K' : Int),
      BoardWF b' → countEmpty b' < fuel → depth' = K' + countEmpty b' →
      TTInvT K' bot' t' → JNum.blt alpha' beta' = true →
      Sat (alphaBetaPruningWithTranspositionTableAlgorithm fuel b' depth'
          alpha' beta' maxi' bot' t').1 alpha' beta'
        (minimax b' depth' maxi' bot') ∧
      TTInvT K' bot'
        (alphaBetaPruningWithTranspositionTableAlgorithm fuel b' depth'
          alpha' beta' maxi' bot' t').2.1) :
    Sat (alphaBetaPruningWithTranspositionTableAlgorithm (fuel + 1) b depth
        alpha beta maxi bot t).1 alpha beta (minimax b depth maxi bot) ∧
    TTInvT K bot
      (alphaBetaPruningWithTranspositionTableAlgorithm (fuel + 1) b depth
        alpha beta maxi bot t).2.1 := by
  simp only [alphaBetaPruningWithTranspositionTableAlgorithm]
  rw [hlk]
  dsimp only
  by_cases hwin1 : checkWinner b = bot.val
  · rw [if_pos hwin1, minimax_eq, if_pos hwin1]
    exact ⟨Sat_exact _ _ _, hInv⟩
  · rw [if_neg hwin1]
    by_cases hwin2 : checkWinner b = (humanOf bot).val
    · rw [if_pos hwin2, minimax_eq, if_neg hwin1, if_pos hwin2]
      exact ⟨Sat_exact _ _ _, hInv⟩
    · rw [if_neg hwin2]
      by_cases hterm : depth = 0 ∨ isBoardFull b = true
      · rw [if_pos hterm, minimax_eq, if_neg hwin1, if_neg hwin2, if_pos hterm]
        exact ⟨Sat_exact _ _ _, hInv⟩
      · rw [if_neg hterm]
        have hfull : isBoardFull b = false := by
          rcases Bool.eq_false_or_eq_true (isBoardFull b) with h | h
          · exact absurd (Or.inr h) hterm
          · exact h
        have hvalid : getValidMoves b ≠ [] := getValidMoves_ne_nil hWF hfull
        cases maxi with
        | true =>
          rw [if_pos rfl]
          have hveq : minimax b depth true bot =
              maxList ((getValidMoves b).map (fun c =>
                minimax (makeMove b c bot.val) (depth - 1) false bot)) := by
            rw [minimax_eq, if_neg hwin1, if_neg hwin2, if_neg hterm,
              if_pos rfl]
          have hchild : ∀ col ∈ getValidMoves b, ∀ (a : JNum) (t' : TT),
              TTInvT K bot t' → JNum.blt a b1 = true →
              Sat ((fun nb a bb t' =>
                  alphaBetaPruningWithTranspositionTableAlgorithm fuel
                  nb (depth - 1) a bb false bot t')
                  (makeMove b col bot.val) a b1 t').1 a b1
                (minimax (makeMove b col bot.val) (depth - 1) false bot) ∧
              TTInvT K bot
                ((fun nb a bb t' =>
                  alphaBetaPruningWithTranspositionTableAlgorithm fuel
                  nb (depth - 1) a bb false bot t')
                  (makeMove b col bot.val) a b1 t').2.1 := by
            intro col hcol a t' ht' hwa
            have hcnt := countEmpty_makeMove_eq hcol (player_val_ne_zero bot)
            exact hIH (makeMove b col bot.val) (depth - 1) a b1
              false bot t' K
              (BoardWF_makeMove hWF col (player_val_le_two bot))
              (by omega) (by omega) ht' hwa
          have hloop := ttMaxLoop_sat
            (fun nb a bb t' =>
              alphaBetaPruningWithTranspositionTableAlgorithm fuel
              nb (depth - 1) a bb false bot t') b bot b1
            (fun c => minimax (makeMove b c bot.val) (depth - 1) false bot)
            (TTInvT K bot) hchild (getValidMoves b) (fun c h => h)
            a1 JNum.negInf none t hInv rfl
            (by rw [jmax_negInf_right]; exact hw1)
            (fun _ => hvalid)
          rw [jmax_negInf_right] at hloop
          have hsat1 : Sat (ttMaxLoop (fun nb a bb t' =>
              alphaBetaPruningWithTranspositionTableAlgorithm fuel nb
                (depth - 1) a bb false bot t') b bot (getValidMoves b) a1 b1 t
              JNum.negInf).1 a1 b1 (minimax b depth true bot) := by
            rw [hveq]
            exact hloop.1
          have hsatW := Sat_widen hA hB hsat1
          refine ⟨hsatW, ?_⟩
          intro b'' maxi'' e'' hWF'' hget''
          rw [ttGet_ttSet_cases] at hget''
          by_cases hkey : getBoardHash b ++ "-" ++
              (if true then "max" else "min") =
              getBoardHash b'' ++ "-" ++ (if maxi'' then "max" else "min")
          · rw [if_pos hkey] at hget''
            obtain ⟨hbb, hcc⟩ := ttKey_inj hWF hWF'' hkey
            injection hget'' with he
            subst hbb
            subst hcc
            subst he
            exact ⟨le_of_eq hdep, EBounds_store hsat1 hsatW hA⟩
          · rw [if_neg hkey] at hget''
            exact hloop.2 b'' maxi'' e'' hWF'' hget''
        | false =>
          rw [if_neg (by simp)]
          have hveq : minimax b depth false bot =
              minList ((getValidMoves b).map (fun c =>
                minimax (makeMove b c (humanOf bot).val) (depth - 1)
                  true bot)) := by
            rw [minimax_eq, if_neg hwin1, if_neg hwin2, if_neg hterm,
              if_neg (by simp)]
          have hchild : ∀ col ∈ getValidMoves b, ∀ (bb : JNum) (t' : TT),
              TTInvT K bot t' → JNum.blt a1 bb = true →
              Sat ((fun nb a bb t' =>
                  alphaBetaPruningWithTranspositionTableAlgorithm fuel
                  nb (depth - 1) a bb true bot t')
                  (makeMove b col (humanOf bot).val) a1 bb t').1 a1 bb
                (minimax (makeMove b col (humanOf bot).val) (depth - 1)
                  true bot) ∧
              TTInvT K bot
                ((fun nb a bb t' =>
                  alphaBetaPruningWithTranspositionTableAlgorithm fuel
                  nb (depth - 1) a bb true bot t')
                  (makeMove b col (humanOf bot).val) a1 bb t').2.1 := by
            intro col hcol bb t' ht' hwb
            have hcnt := countEmpty_makeMove_eq hcol
              (player_val_ne_zero (humanOf bot))
            exact hIH (makeMove b col (humanOf bot).val) (depth - 1) a1 bb
              true bot t' K
              (BoardWF_makeMove hWF col (player_val_le_two (humanOf bot)))
              (by omega) (by omega) ht' hwb
          have hloop := ttMinLoop_sat
            (fun nb a bb t' =>
              alphaBetaPruningWithTranspositionTableAlgorithm fuel
              nb (depth - 1) a bb true bot t') b (humanOf bot) a1
            (fun c => minimax (makeMove b c (humanOf bot).val) (depth - 1)
              true bot)
            (TTInvT K bot) hchild (getValidMoves b) (fun c h => h)
            b1 JNum.posInf none t hInv rfl
            (by rw [jmin_posInf_right]; exact hw1)
            (fun _ => hvalid)
          rw [jmin_posInf_right] at hloop
          have hsat1 : Sat (ttMinLoop (fun nb a bb t' =>
              alphaBetaPruningWithTranspositionTableAlgorithm fuel nb
                (depth - 1) a bb true bot t') b (humanOf bot)
              (getValidMoves b) a1 b1 t
              JNum.posInf).1 a1 b1 (minimax b depth false bot) := by
            rw [hveq]
            exact hloop.1
          have hsatW := Sat_widen hA hB hsat1
          refine ⟨hsatW, ?_⟩
          intro b'' maxi'' e'' hWF'' hget''
          rw [ttGet_ttSet_cases] at hget''
          by_cases hkey : getBoardHash b ++ "-" ++
              (if false then "max" else "min") =
              getBoardHash b'' ++ "-" ++ (if maxi'' then "max" else "min")
          · rw [if_pos hkey] at hget''
            obtain ⟨hbb, hcc⟩ := ttKey_inj hWF hWF'' hkey
            injection hget'' with he
            subst hbb
            subst hcc
            subst he
            exact ⟨le_of_eq hdep, EBounds_store hsat1 hsatW hA⟩
          · rw [if_neg hkey] at hget''
            exact hloop.2 b'' maxi'' e'' hWF'' hget''

/-- The transposition-table search meets the fail-soft contract against
minimax and preserves the table invariant. -/
theorem ttAB_sat : ∀ (fuel : Nat) (b : Board) (depth : Int)
    (alpha beta : JNum) (maxi : Bool) (bot : Player) (t : TT) (K : Int),
    BoardWF b → countEmpty b < fuel → depth = K + countEmpty b →
    TTInvT K bot t → JNum.blt alpha beta = true →
    Sat (alphaBetaPruningWithTranspositionTableAlgorithm fuel b depth alpha
        beta maxi bot t).1 alpha beta (minimax b depth maxi bot) ∧
    TTInvT K bot
      (alphaBetaPruningWithTranspositionTableAlgorithm fuel b depth alpha
        beta maxi bot t).2.1 := by
  intro fuel
  induction fuel with
  | zero => intro b depth alpha beta maxi bot t K hWF hfuel; omega
  | succ fuel ih =>
    intro b depth alpha beta maxi bot t K hWF hfuel hdep hInv hw
    cases hget : ttGet t (getBoardHash b ++ "-" ++
        (if maxi then "max" else "min")) with
    | none =>
      have hlk : ttLookup (ttGet t (getBoardHash b ++ "-" ++
          (if maxi then "max" else "min"))) depth alpha beta =
          (alpha, beta, none) := by
        rw [hget]
        rfl
      exact ttAB_step fuel b depth alpha beta alpha beta maxi bot t K hWF
        hfuel hdep hInv hlk hw (Or.inl rfl) (Or.inl rfl) ih
    | some e =>
      by_cases hd : depth ≤ e.depth
      · obtain ⟨hedep, hbounds⟩ := hInv b maxi e hWF hget
        have hed : e.depth = depth := by omega
        rw [hed] at hbounds
        cases hf : e.flag with
        | EXACT =>
          replace hbounds : e.score =
              JNum.fin (minimax b depth maxi bot) := by
            unfold EBounds at hbounds
            rw [hf] at hbounds
            exact hbounds
          have hlk : ttLookup (some e) depth alpha beta =
              (alpha, beta, some e.score) := by
            unfold ttLookup
            dsimp only
            rw [if_pos hd, hf]
          simp only [alphaBetaPruningWithTranspositionTableAlgorithm]
          rw [hget, hlk]
          dsimp only
          refine ⟨?_, hInv⟩
          rw [hbounds]
          exact Sat_exact _ _ _
        | LOWERBOUND =>
          replace hbounds : ∃ n : Int, e.score = JNum.fin n ∧
              n ≤ minimax b depth maxi bot := by
            unfold EBounds at hbounds
            rw [hf] at hbounds
            exact hbounds
          obtain ⟨nc, hsc, hncv⟩ := hbounds
          by_cases hco : JNum.ble beta (JNum.max alpha e.score) = true
          · have hlk : ttLookup (some e) depth alpha beta =
                (JNum.max alpha e.score, beta, some e.score) := by
              unfold ttLookup
              dsimp only
              rw [if_pos hd, hf]
              dsimp only
              rw [if_pos hco]
            simp only [alphaBetaPruningWithTranspositionTableAlgorithm]
            rw [hget, hlk]
            dsimp only
            refine ⟨?_, hInv⟩
            rw [hsc]
            rw [hsc] at hco
            have hbeta_nc : JNum.ble beta (JNum.fin nc) = true := by
              rcases jle_max_iff.mp hco with h | h
              · exact absurd (jble_blt_trans h hw) (by simp [jblt_irrefl])
              · exact h
            refine ⟨nc, rfl, ?_, ?_, ?_⟩
            · intro hle
              exact absurd (jble_blt_trans (jble_trans hbeta_nc hle) hw)
                (by simp [jblt_irrefl])
            · intro _
              exact hncv
            · intro _ hlt
              exact absurd (jble_blt_trans hbeta_nc hlt)
                (by simp [jblt_irrefl])
          · have hlk : ttLookup (some e) depth alpha beta =
                (JNum.max alpha e.score, beta, none) := by
              unfold ttLookup
              dsimp only
              rw [if_pos hd, hf]
              dsimp only
              rw [if_neg hco]
            have hw1 : JNum.blt (JNum.max alpha e.score) beta = true :=
              jnot_ble.mp (by revert hco; cases JNum.ble beta (JNum.max alpha e.score) <;> simp)
            exact ttAB_step fuel b depth alpha beta
              (JNum.max alpha e.score) beta maxi bot t K hWF hfuel hdep hInv
              (by rw [hget]; exact hlk) hw1
              (Or.inr ⟨nc, by rw [hsc], hncv⟩) (Or.inl rfl) ih
        | UPPERBOUND =>
          replace hbounds : ∃ n : Int, e.score = JNum.fin n ∧
              minimax b depth maxi bot ≤ n := by
            unfold EBounds at hbounds
            rw [hf] at hbounds
            exact hbounds
          obtain ⟨nc, hsc, hncv⟩ := hbounds
          by_cases hco : JNum.ble (JNum.min beta e.score) alpha = true
          · have hlk : ttLookup (some e) depth alpha beta =
                (alpha, JNum.min beta e.score, some e.score) := by
              unfold ttLookup
              dsimp only
              rw [if_pos hd, hf]
              dsimp only
              rw [if_pos hco]
            simp only [alphaBetaPruningWithTranspositionTableAlgorithm]
            rw [hget, hlk]
            dsimp only
            refine ⟨?_, hInv⟩
            rw [hsc]
            rw [hsc] at hco
            have halpha_nc : JNum.ble (JNum.fin nc) alpha = true := by
              rcases jmin_le_iff.mp hco with h | h
              · exact absurd (jble_blt_trans h hw) (by simp [jblt_irrefl])
              · exact h
            refine ⟨nc, rfl, ?_, ?_, ?_⟩
            · intro _
              exact hncv
            · intro hle
              exact absurd (jble_blt_trans (jble_trans hle halpha_nc) hw)
                (by simp [jblt_irrefl])
            · intro hlt _
              exact absurd (jblt_ble_trans hlt halpha_nc)
                (by simp [jblt_irrefl])
          · have hlk : ttLookup (some e) depth alpha beta =
                (alpha, JNum.min beta e.score, none) := by
              unfold ttLookup
              dsimp only
              rw [if_pos hd, hf]
              dsimp only
              rw [if_neg hco]
            have hw1 : JNum.blt alpha (JNum.min beta e.score) = true :=
              jnot_ble.mp (by revert hco; cases JNum.ble (JNum.min beta e.score) alpha <;> simp)
            exact ttAB_step fuel b depth alpha beta
              alpha (JNum.min beta e.score) maxi bot t K hWF hfuel hdep hInv
              (by rw [hget]; exact hlk) hw1
              (Or.inl rfl) (Or.inr ⟨nc, by rw [hsc], hncv⟩) ih
      · have hlk : ttLookup (some e) depth alpha beta =
            (alpha, beta, none) := by
          unfold ttLookup
          dsimp only
          rw [if_neg hd]
        exact ttAB_step fuel b depth alpha beta alpha beta maxi bot t K hWF
          hfuel hdep hInv (by rw [hget]; exact hlk) hw (Or.inl rfl)
          (Or.inl rfl) ih


/-! ## MTD(f) converges to the minimax value -/

/-- The running `[lowerBound, upperBound]` interval brackets the true
value `v`. -/
def VBounds (v : Int) (lower upper : JNum) : Prop :=
  (lower = JNum.negInf ∨ ∃ l : Int, lower = JNum.fin l ∧ l ≤ v) ∧
  (upper = JNum.posInf ∨ ∃ u : Int, upper = JNum.fin u ∧ v ≤ u)

/-- Every completed run of the MTD(f) loop returns the minimax value and
preserves the table invariants. -/
theorem mtdfLoop_value (b : Board) (depth : Int) (cur bot : Player)
    (K : Int) (W : Nat) (hWF : BoardWF b) (hdep : depth = K + countEmpty b)
    (hW : 10001 + depth.natAbs + countEmpty b ≤ W) :
    ∀ (fuel : Nat) (g lower upper : JNum) (t : TT) (nodes : Nat),
      TTInvM K bot t → TBnd W t →
      (∃ m : Int, g = JNum.fin m) →
      VBounds (minimax b depth (maxiOf cur bot) bot) lower upper →
      (JNum.blt lower upper = false →
        g = JNum.fin (minimax b depth (maxiOf cur bot) bot)) →
      mtdfLoop b depth cur bot fuel g lower upper t nodes = none ∨
      ∃ (tOut : TT) (nn : Nat),
        mtdfLoop b depth cur bot fuel g lower upper t nodes =
          some (JNum.fin (minimax b depth (maxiOf cur bot) bot), tOut, nn) ∧
        TTInvM K bot tOut ∧ TBnd W tOut := by
  intro fuel
  induction fuel with
  | zero =>
    intro g lower upper t nodes hInv hT hgf hVB hExit
    rw [mtdfLoop]
    cases hblt : JNum.blt lower upper with
    | true =>
      rw [if_pos rfl]
      exact Or.inl rfl
    | false =>
      rw [if_neg (by simp)]
      exact Or.inr ⟨t, nodes, by rw [hExit hblt], hInv, hT⟩
  | succ fuel' ih =>
    intro g lower upper t nodes hInv hT hgf hVB hExit
    rw [mtdfLoop]
    cases hblt : JNum.blt lower upper with
    | false =>
      rw [if_neg (by simp)]
      exact Or.inr ⟨t, nodes, by rw [hExit hblt], hInv, hT⟩
    | true =>
      rw [if_pos rfl]
      dsimp only
      obtain ⟨m, rfl⟩ := hgf
      obtain ⟨x, hbeta⟩ : ∃ x : Int,
          JNum.max (JNum.fin m) (JNum.addInt lower 1) = JNum.fin x := by
        rcases hVB.1 with rfl | ⟨l, rfl, _⟩
        · exact ⟨m, by rw [show JNum.addInt JNum.negInf 1 = JNum.negInf from
            rfl, jmax_negInf_right]⟩
        · exact ⟨Max.max m (l + 1), by
            rw [show JNum.addInt (JNum.fin l) 1 = JNum.fin (l + 1) from rfl,
              jmax_fin_fin]⟩
      rw [hbeta]
      have hwin : JNum.blt (JNum.addInt (JNum.fin x) (-1)) (JNum.fin x) = true := by
        rw [show JNum.addInt (JNum.fin x) (-1) = JNum.fin (x + -1) from rfl]
        exact jblt_fin_iff.mpr (by omega)
      have hmem := memAB_sat (countEmpty b + 1) b depth
        (JNum.addInt (JNum.fin x) (-1)) (JNum.fin x) cur bot t K hWF
        (Nat.lt_succ_self _) hdep hInv hwin
      have hbnd := memAB_bound (countEmpty b + 1) b depth
        (JNum.addInt (JNum.fin x) (-1)) (JNum.fin x) cur bot t W hWF hT hW
        (Nat.lt_succ_self _)
      obtain ⟨n, hn, hlo, hhi, hex⟩ := hmem.1
      cases hfl : JNum.blt (alphaBetaPruningWithMemoryAlgorithm (countEmpty b + 1) b depth (JNum.addInt (JNum.fin x) (-1)) (JNum.fin x) cur bot t).1 (JNum.fin x) with
      | true =>
        rw [if_pos rfl]
        refine ih (alphaBetaPruningWithMemoryAlgorithm (countEmpty b + 1) b depth (JNum.addInt (JNum.fin x) (-1)) (JNum.fin x) cur bot t).1 lower (alphaBetaPruningWithMemoryAlgorithm (countEmpty b + 1) b depth (JNum.addInt (JNum.fin x) (-1)) (JNum.fin x) cur bot t).1 (alphaBetaPruningWithMemoryAlgorithm (countEmpty b + 1) b depth (JNum.addInt (JNum.fin x) (-1)) (JNum.fin x) cur bot t).2.1 (nodes + (alphaBetaPruningWithMemoryAlgorithm (countEmpty b + 1) b depth (JNum.addInt (JNum.fin x) (-1)) (JNum.fin x) cur bot t).2.2) hmem.2 hbnd.2
          ⟨n, hn⟩ ⟨hVB.1, Or.inr ⟨n, hn, ?_⟩⟩ ?_
        · refine hlo ?_
          rw [hn, show JNum.addInt (JNum.fin x) (-1) = JNum.fin (x + -1) from rfl]
          rw [hn] at hfl
          exact jble_fin_iff.mpr (by have := jblt_fin_iff.mp hfl; omega)
        · intro hblt2
          rw [hn] at hblt2
          rcases hVB.1 with rfl | ⟨l, rfl, hl⟩
          · simp [JNum.blt] at hblt2
          · have h1 : n ≤ l := by
              have := jnot_blt.mp hblt2
              exact jble_fin_iff.mp this
            have h2 : minimax b depth (maxiOf cur bot) bot ≤ n := by
              refine hlo ?_
              rw [hn, show JNum.addInt (JNum.fin x) (-1) = JNum.fin (x + -1)
                from rfl]
              rw [hn] at hfl
              exact jble_fin_iff.mpr (by have := jblt_fin_iff.mp hfl; omega)
            rw [hn]
            congr 1
            omega
      | false =>
        rw [if_neg (by simp)]
        have hgex : JNum.ble (JNum.fin x) (alphaBetaPruningWithMemoryAlgorithm (countEmpty b + 1) b depth (JNum.addInt (JNum.fin x) (-1)) (JNum.fin x) cur bot t).1 = true :=
          jnot_blt.mp hfl
        refine ih (alphaBetaPruningWithMemoryAlgorithm (countEmpty b + 1) b depth (JNum.addInt (JNum.fin x) (-1)) (JNum.fin x) cur bot t).1 (alphaBetaPruningWithMemoryAlgorithm (countEmpty b + 1) b depth (JNum.addInt (JNum.fin x) (-1)) (JNum.fin x) cur bot t).1 upper (alphaBetaPruningWithMemoryAlgorithm (countEmpty b + 1) b depth (JNum.addInt (JNum.fin x) (-1)) (JNum.fin x) cur bot t).2.1 (nodes + (alphaBetaPruningWithMemoryAlgorithm (countEmpty b + 1) b depth (JNum.addInt (JNum.fin x) (-1)) (JNum.fin x) cur bot t).2.2) hmem.2 hbnd.2
          ⟨n, hn⟩ ⟨Or.inr ⟨n, hn, hhi hgex⟩, hVB.2⟩ ?_
        intro hblt2
        rw [hn] at hblt2
        rcases hVB.2 with rfl | ⟨u, rfl, hu⟩
        · simp [JNum.blt] at hblt2
        · have h1 : u ≤ n := by
            have := jnot_blt.mp hblt2
            exact jble_fin_iff.mp this
          have h2 := hhi hgex
          rw [hn]
          congr 1
          omega

/-- `mtdfAlgorithm` (with a finite first guess, a well-formed board and
a within-run table) returns exactly the minimax value and preserves the
table invariants. -/
theorem mtdfAlgorithm_value (b : Board) (depth : Int) (m0 : Int)
    (cur bot : Player) (t : TT) (K : Int) (W : Nat)
    (hWF : BoardWF b) (hdep : depth = K + countEmpty b)
    (hInv : TTInvM K bot t) (hT : TBnd W t)
    (hW : 10001 + depth.natAbs + countEmpty b ≤ W) :
    ∃ (tOut : TT) (nn : Nat),
      mtdfAlgorithm b depth (JNum.fin m0) cur bot t =
        some (JNum.fin (minimax b depth (maxiOf cur bot) bot), tOut, nn) ∧
      TTInvM K bot tOut ∧ TBnd W tOut := by
  have hfin : TTFinite t := by
    intro p hp
    obtain ⟨n, hn, _⟩ := hT p hp
    exact ⟨n, hn⟩
  have hWs : 10001 + depth.natAbs + countEmpty b ≤ scoreBound t depth := by
    have h42 := countEmpty_le_42 hWF
    calc 10001 + depth.natAbs + countEmpty b
        ≤ 10043 + depth.natAbs + ttAbsBound t := by omega
    _ ≤ scoreBound t depth := Nat.le_max_left _ _
  have hT2 : TBnd (scoreBound t depth) t := by
    apply TBnd_mono _ (TTFinite_TBnd hfin)
    calc ttAbsBound t ≤ 10043 + depth.natAbs + ttAbsBound t := by omega
    _ ≤ scoreBound t depth := Nat.le_max_left _ _
  have hsome := mtdfLoop_some b depth cur bot (scoreBound t depth) hWF hWs
    (mtdfFuel t depth) (JNum.fin m0) JNum.negInf JNum.posInf t 0 hT2
    (by
      intro _
      refine ⟨⟨Or.inl rfl, Or.inl rfl⟩, ?_⟩
      have h1 : jClampInt (scoreBound t depth) JNum.posInf =
          (scoreBound t depth : Int) + 1 := rfl
      have h2 : jClampInt (scoreBound t depth) JNum.negInf =
          -((scoreBound t depth : Int) + 1) := rfl
      unfold mtdfMeasure
      rw [h1, h2]
      unfold mtdfFuel
      omega)
  have hval := mtdfLoop_value b depth cur bot K W hWF hdep hW
    (mtdfFuel t depth) (JNum.fin m0) JNum.negInf JNum.posInf t 0 hInv hT
    ⟨m0, rfl⟩ ⟨Or.inl rfl, Or.inl rfl⟩ (fun h => by simp [JNum.blt] at h)
  rcases hval with hnone | ⟨tOut, nn, heq, hi, ht⟩
  · exact absurd hnone hsome
  · exact ⟨tOut, nn, heq, hi, ht⟩


/-! ## The root candidate fold (claim C1) -/

/-- On the full window a fail-soft result is the exact value. -/
theorem Sat_full_exact {g : JNum} {v : Int}
    (h : Sat g JNum.negInf JNum.posInf v) : g = JNum.fin v := by
  obtain ⟨n, hn, _, _, hex⟩ := h
  rw [hn, hex (by rw [hn]; rfl) (by rw [hn]; rfl)]

theorem maxiOf_PB : maxiOf playerP playerB = false := by decide

theorem ttGet_nil (k : String) : ttGet [] k = none := rfl

theorem jblt_negInf_fin (n : Int) :
    JNum.blt JNum.negInf (JNum.fin n) = true := rfl

/-- The selection fold all three root loops compute: walk the candidate
columns, keeping the first strictly-best minimax value of the child
board. -/
def rootRef (b : Board) (depth : Int) :
    List Nat → Option Nat → JNum → Option Nat × JNum
  | [], bc, bs => (bc, bs)
  | c :: rest, bc, bs =>
    if JNum.blt bs
        (JNum.fin (minimax (makeMove b c BOT) (depth - 1) false playerB)) then
      rootRef b depth rest (some c)
        (JNum.fin (minimax (makeMove b c BOT) (depth - 1) false playerB))
    else rootRef b depth rest bc bs

theorem rootRef_snd_fin (b : Board) (depth : Int) :
    ∀ (moves : List Nat) (bc : Option Nat) (v : Int),
    ∃ v' : Int, (rootRef b depth moves bc (JNum.fin v)).2 = JNum.fin v' := by
  intro moves
  induction moves with
  | nil => intro bc v; exact ⟨v, rfl⟩
  | cons c rest ih =>
    intro bc v
    rw [rootRef]
    by_cases hc : JNum.blt (JNum.fin v)
        (JNum.fin (minimax (makeMove b c BOT) (depth - 1) false playerB)) = true
    · rw [if_pos hc]
      exact ih (some c) _
    · rw [if_neg hc]
      exact ih bc v

theorem rootRef_ne_nil_fin (b : Board) (depth : Int) (c : Nat)
    (rest : List Nat) (bc : Option Nat) :
    ∃ v' : Int,
      (rootRef b depth (c :: rest) bc JNum.negInf).2 = JNum.fin v' := by
  rw [rootRef]
  rw [if_pos (jblt_negInf_fin _)]
  exact rootRef_snd_fin b depth rest (some c) _

/-- The plain branch of `findBestMove` computes the reference fold. -/
theorem rootLoopAB_plain (b : Board) (depth : Int) (hWF : BoardWF b) :
    ∀ (moves : List Nat), (∀ c ∈ moves, c ∈ getValidMoves b) →
    ∀ (bc : Option Nat) (bs : JNum) (t : TT) (nodes : Nat),
      ((rootLoopAB b false depth moves bc bs t nodes).1,
       (rootLoopAB b false depth moves bc bs t nodes).2.1) =
        rootRef b depth moves bc bs := by
  intro moves
  induction moves with
  | nil => intro _ bc bs t nodes; rfl
  | cons col rest ih =>
    intro hsub bc bs t nodes
    have hex := plainAB_exact (countEmpty (makeMove b col BOT) + 1)
      (makeMove b col BOT) (depth - 1) false playerB
      (BoardWF_makeMove hWF col (by decide)) (Nat.lt_succ_self _)
    rw [rootLoopAB, rootRef]
    dsimp only
    rw [hex, if_neg (show ¬(false = true) by simp)]
    by_cases hc : JNum.blt bs
        (JNum.fin (minimax (makeMove b col BOT) (depth - 1) false playerB)) = true
    · rw [if_pos hc, if_pos hc]
      exact ih (fun c h => hsub c (List.mem_cons_of_mem _ h)) (some col) _ t _
    · rw [if_neg hc, if_neg hc]
      exact ih (fun c h => hsub c (List.mem_cons_of_mem _ h)) bc bs t _

/-- The transposition-table branch of `findBestMove` computes the same
reference fold, for any within-run table. -/
theorem rootLoopAB_tt (b : Board) (depth : Int) (hWF : BoardWF b) (K : Int)
    (hK : ∀ c ∈ getValidMoves b,
      depth - 1 = K + countEmpty (makeMove b c BOT)) :
    ∀ (moves : List Nat), (∀ c ∈ moves, c ∈ getValidMoves b) →
    ∀ (bc : Option Nat) (bs : JNum) (t : TT) (nodes : Nat),
      TTInvT K playerB t →
      ((rootLoopAB b true depth moves bc bs t nodes).1,
       (rootLoopAB b true depth moves bc bs t nodes).2.1) =
        rootRef b depth moves bc bs := by
  intro moves
  induction moves with
  | nil => intro _ bc bs t nodes _; rfl
  | cons col rest ih =>
    intro hsub bc bs t nodes hInv
    have hcol : col ∈ getValidMoves b := hsub col (List.mem_cons_self _ _)
    have hsat := ttAB_sat (countEmpty (makeMove b col BOT) + 1)
      (makeMove b col BOT) (depth - 1) JNum.negInf JNum.posInf false playerB
      t K (BoardWF_makeMove hWF col (by decide)) (Nat.lt_succ_self _)
      (hK col hcol) hInv rfl
    have hex := Sat_full_exact hsat.1
    rw [rootLoopAB, rootRef]
    dsimp only
    rw [if_pos (show (true : Bool) = true from rfl)]
    rw [hex]
    by_cases hc : JNum.blt bs
        (JNum.fin (minimax (makeMove b col BOT) (depth - 1) false playerB)) = true
    · rw [if_pos hc, if_pos hc]
      exact ih (fun c h => hsub c (List.mem_cons_of_mem _ h)) (some col) _ _ _
        hsat.2
    · rw [if_neg hc, if_neg hc]
      exact ih (fun c h => hsub c (List.mem_cons_of_mem _ h)) bc bs _ _ hsat.2

/-- One iterative-deepening pass of the MTD(f) branch computes the same
reference fold at its depth, and preserves the table invariants. -/
theorem rootLoopMtdf_ref (b : Board) (d : Int) (hWF : BoardWF b) (K : Int)
    (W : Nat)
    (hK : ∀ c ∈ getValidMoves b, d - 1 = K + countEmpty (makeMove b c BOT))
    (hW : ∀ c ∈ getValidMoves b,
      10001 + (d - 1).natAbs + countEmpty (makeMove b c BOT) ≤ W) :
    ∀ (moves : List Nat), (∀ c ∈ moves, c ∈ getValidMoves b) →
    ∀ (m0 : Int) (tc : Option Nat) (ts : JNum) (t : TT) (nodes : Nat),
      TTInvM K playerB t → TBnd W t →
      ∃ r : Option Nat × JNum × TT × Nat,
        rootLoopMtdf b moves d (JNum.fin m0) tc ts t nodes = some r ∧
        (r.1, r.2.1) = rootRef b d moves tc ts ∧
        TTInvM K playerB r.2.2.1 ∧ TBnd W r.2.2.1 := by
  intro moves
  induction moves with
  | nil =>
    intro _ m0 tc ts t nodes hInv hT
    exact ⟨(tc, ts, t, nodes), rfl, rfl, hInv, hT⟩
  | cons col rest ih =>
    intro hsub m0 tc ts t nodes hInv hT
    have hcol : col ∈ getValidMoves b := hsub col (List.mem_cons_self _ _)
    obtain ⟨tOut, nn, heq, hi, ht⟩ := mtdfAlgorithm_value
      (makeMove b col BOT) (d - 1) m0 playerP playerB t K W
      (BoardWF_makeMove hWF col (by decide)) (hK col hcol) hInv hT
      (hW col hcol)
    rw [maxiOf_PB] at heq
    rw [rootLoopMtdf]
    dsimp only
    rw [heq]
    dsimp only
    rw [rootRef]
    by_cases hc : JNum.blt ts
        (JNum.fin (minimax (makeMove b col BOT) (d - 1) false playerB)) = true
    · rw [if_pos hc, if_pos hc]
      exact ih (fun c h => hsub c (List.mem_cons_of_mem _ h)) m0 (some col) _
        tOut _ hi ht
    · rw [if_neg hc, if_neg hc]
      exact ih (fun c h => hsub c (List.mem_cons_of_mem _ h)) m0 tc ts tOut _
        hi ht


/-- With no valid moves, every deepening run returns `(no column,
-Infinity)` untouched. -/
theorem rootDeepenMtdf_nil (b : Board) :
    ∀ (ds : List Int) (fg : JNum) (t : TT) (nodes : Nat),
      rootDeepenMtdf b [] ds fg none JNum.negInf t nodes =
        some (none, JNum.negInf, t, nodes) := by
  intro ds
  induction ds with
  | nil => intro fg t nodes; rfl
  | cons d rest ih =>
    intro fg t nodes
    rw [rootDeepenMtdf]
    exact ih _ t nodes

/-- The iterative-deepening loop of the MTD(f) branch completes, and
its final selection is the reference fold at the last depth. -/
theorem rootDeepenMtdf_ref (b : Board) (hWF : BoardWF b) (W : Nat)
    (hne : getValidMoves b ≠ []) :
    ∀ (ds : List Int), List.Pairwise (· ≤ ·) ds →
    (∀ d ∈ ds, ∀ c ∈ getValidMoves b,
      d - 1 = (d - countEmpty b) + countEmpty (makeMove b c BOT) ∧
      10001 + (d - 1).natAbs + countEmpty (makeMove b c BOT) ≤ W) →
    ∀ (K : Int), (∀ d ∈ ds, K ≤ d - countEmpty b) →
    ∀ (m0 : Int) (bc : Option Nat) (bs : JNum) (t : TT) (nodes : Nat),
      TTInvM K playerB t → TBnd W t →
      ∃ r : Option Nat × JNum × TT × Nat,
        rootDeepenMtdf b (getValidMoves b) ds (JNum.fin m0) bc bs t nodes =
          some r ∧
        (ds = [] → (r.1, r.2.1) = (bc, bs)) ∧
        ∀ dlast, ds.getLast? = some dlast →
          (r.1, r.2.1) =
            rootRef b dlast (getValidMoves b) (getValidMoves b).head?
              JNum.negInf := by
  intro ds
  induction ds with
  | nil =>
    intro _ _ K _ m0 bc bs t nodes hInv hT
    exact ⟨(bc, bs, t, nodes), rfl, fun _ => rfl, fun dlast h => by simp at h⟩
  | cons d rest ih =>
    intro hpw hprops K hK m0 bc bs t nodes hInv hT
    have hd := hprops d (List.mem_cons_self _ _)
    have hInvd : TTInvM (d - countEmpty b) playerB t :=
      TTInvM_mono (hK d (List.mem_cons_self _ _)) hInv
    obtain ⟨r1, heq1, href1, hi1, ht1⟩ := rootLoopMtdf_ref b d hWF
      (d - countEmpty b) W (fun c hc => (hd c hc).1) (fun c hc => (hd c hc).2)
      (getValidMoves b) (fun c h => h) m0 (getValidMoves b).head? JNum.negInf
      t nodes hInvd hT
    obtain ⟨c0, rest0, hvm⟩ : ∃ c0 rest0, getValidMoves b = c0 :: rest0 := by
      cases hvm : getValidMoves b with
      | nil => exact absurd hvm hne
      | cons c0 rest0 => exact ⟨c0, rest0, rfl⟩
    obtain ⟨v1, hv1⟩ : ∃ v' : Int, r1.2.1 = JNum.fin v' := by
      have h2 : r1.2.1 = (rootRef b d (getValidMoves b)
          (getValidMoves b).head? JNum.negInf).2 := congrArg Prod.snd href1
      rw [h2, hvm]
      exact rootRef_ne_nil_fin b d c0 rest0 _
    rw [rootDeepenMtdf, heq1]
    dsimp only
    rw [hv1]
    obtain ⟨r, heq2, hnil2, hlast2⟩ := ih hpw.of_cons
      (fun d' hd' c hc => hprops d' (List.mem_cons_of_mem _ hd') c hc)
      (d - countEmpty b)
      (fun d' hd' => by
        have := List.rel_of_pairwise_cons hpw hd'
        omega)
      v1 r1.1 (JNum.fin v1) r1.2.2.1 r1.2.2.2 hi1 ht1
    refine ⟨r, heq2, fun hcon => by simp at hcon, ?_⟩
    intro dlast hlast
    cases hrest : rest with
    | nil =>
      subst hrest
      have hdl : dlast = d := by symm; simpa using hlast
      subst hdl
      have h3 := hnil2 rfl
      rw [h3, ← hv1]
      exact href1
    | cons d2 rest2 =>
      subst hrest
      rw [List.getLast?_cons_cons] at hlast
      exact hlast2 dlast hlast

/-! ## Concrete boards used by witnesses and counterexamples -/

/-- The empty 6×7 board. -/
def emptyBoard : Board := List.replicate 6 (List.replicate 7 0)

/-- A board whose column 0 is completely full (alternating pieces, no
four-in-a-row), all other columns empty. -/
def fullColBoard : Board :=
  [[2, 0, 0, 0, 0, 0, 0],
   [1, 0, 0, 0, 0, 0, 0],
   [2, 0, 0, 0, 0, 0, 0],
   [1, 0, 0, 0, 0, 0, 0],
   [2, 0, 0, 0, 0, 0, 0],
   [1, 0, 0, 0, 0, 0, 0]]

/-! ## Claim theorems -/

/-- **C3, counterexample.** The claim says a move into a full column
"fails with an IllegalMove condition (the operation rejects rather than
silently clamping or returning an unchanged board)".  In fact `makeMove`
has no failure path at all: dropped into the full column 0 of
`fullColBoard` it returns the board unchanged instead of rejecting. -/
theorem claim_C3_counterexample :
    makeMove fullColBoard 0 1 = fullColBoard := by rfl

/-- **C3, amended.** `makeMove` never fails: on a full (under gravity) or
out-of-range column it returns an unchanged copy of the board; on a legal
column it returns a new board with the piece placed at the lowest empty
row of that column (the drop row is empty, every row below it is
non-empty, the piece lands there, and no other cell changes). -/
theorem claim_C3_amended (b : Board) (col : Nat) (pl : Player)
    (hWF : BoardWF b) (hG : Gravity b) :
    (isValidMove b col = false → makeMove b col pl.val = b) ∧
    (isValidMove b col = true → ∃ r, dropRow b col = some r ∧
      getCell b r col = some 0 ∧
      (∀ r', r < r' → r' < ROWS → getCell b r' col ≠ some 0) ∧
      getCell (makeMove b col pl.val) r col = some pl.val ∧
      ∀ r' c', ¬(r' = r ∧ c' = col) →
        getCell (makeMove b col pl.val) r' c' = getCell b r' c') := by
  constructor
  · intro hv
    exact makeMove_invalid b col pl.val hWF hG hv
  · intro hv
    obtain ⟨r, hdrop, hcell, hput, hother⟩ :=
      makeMove_valid_spec b col (player_val_ne_zero pl) hv
    exact ⟨r, hdrop, hcell, (dropRow_lowest hdrop).2, hput, hother⟩

/-- **C3, witness.** The amended statement instantiated at the full-column
board and column 0. -/
theorem claim_C3_witness :
    (isValidMove fullColBoard 0 = false →
      makeMove fullColBoard 0 (playerP).val = fullColBoard) ∧
    (isValidMove fullColBoard 0 = true → ∃ r,
      dropRow fullColBoard 0 = some r ∧
      getCell fullColBoard r 0 = some 0 ∧
      (∀ r', r < r' → r' < ROWS → getCell fullColBoard r' 0 ≠ some 0) ∧
      getCell (makeMove fullColBoard 0 (playerP).val) r 0 = some (playerP).val ∧
      ∀ r' c', ¬(r' = r ∧ c' = 0) →
        getCell (makeMove fullColBoard 0 (playerP).val) r' c' =
          getCell fullColBoard r' c') :=
  claim_C3_amended fullColBoard 0 playerP (by decide) (by decide)

/-- **C5.** For every well-formed board and either player, the code's
static evaluator returns the spec's formula: the sum over all length-4
windows in the four directions of the window scores (+100 all-subject,
+5 for 3 subject + 1 empty, +2 for 2 subject + 2 empty, −4 for 3 opponent
+ 1 empty, −1 for 2 opponent + 2 empty, 0 otherwise) plus 3 per subject
piece in column 3. -/
theorem claim_C5_evaluator (b : Board) (subject : Nat) (hWF : BoardWF b)
    (hs : subject = 1 ∨ subject = 2) :
    evaluateBoard b subject = specEvaluate b subject :=
  evaluateBoard_eq_spec b subject hWF hs

/-- **C5, witness.** The evaluator equality at a concrete board. -/
theorem claim_C5_witness :
    evaluateBoard fullColBoard 2 = specEvaluate fullColBoard 2 :=
  claim_C5_evaluator fullColBoard 2 (by decide) (Or.inr rfl)

/-- **C6.** On well-formed boards `checkWinner` is sound (a non-zero
result names a player with four equal consecutive non-empty cells in one
of the four directions) and complete (it returns 0 exactly when no player
has such a run). -/
theorem claim_C6_winner (b : Board) (hWF : BoardWF b) :
    (checkWinner b ≠ 0 → hasFourInRow b (checkWinner b)) ∧
    (checkWinner b = 0 ↔ ∀ p, p ≠ 0 → ¬hasFourInRow b p) := by
  refine ⟨checkWinner_sound, ?_, ?_⟩
  · intro h0 p hp hrun
    exact checkWinner_complete hWF hp hrun h0
  · intro hall
    by_contra hne
    exact hall _ hne (checkWinner_sound hne)

/-- **C6, witness.** The winner characterisation at the empty board. -/
theorem claim_C6_witness :
    (checkWinner emptyBoard ≠ 0 →
      hasFourInRow emptyBoard (checkWinner emptyBoard)) ∧
    (checkWinner emptyBoard = 0 ↔ ∀ p, p ≠ 0 → ¬hasFourInRow emptyBoard p) :=
  claim_C6_winner emptyBoard (by decide)

/-- **C7.** Applying a legal move is a pure function of the board value
(the input list is untouched; the code copies each row), and the returned
board differs from the input in exactly one cell: the drop row of the
played column changes from empty to the player's piece, and every other
cell reads identically. -/
theorem claim_C7_frame (b : Board) (col : Nat) (pl : Player)
    (hv : isValidMove b col = true) :
    ∃ r, dropRow b col = some r ∧
      getCell b r col = some 0 ∧
      getCell (makeMove b col pl.val) r col = some pl.val ∧
      pl.val ≠ 0 ∧
      ∀ r' c', ¬(r' = r ∧ c' = col) →
        getCell (makeMove b col pl.val) r' c' = getCell b r' c' := by
  obtain ⟨r, hdrop, hcell, hput, hother⟩ :=
    makeMove_valid_spec b col (player_val_ne_zero pl) hv
  exact ⟨r, hdrop, hcell, hput, player_val_ne_zero pl, hother⟩

/-- **C7, witness.** The one-cell frame property for a drop into column 3
of the empty board. -/
theorem claim_C7_witness :
    ∃ r, dropRow emptyBoard 3 = some r ∧
      getCell emptyBoard r 3 = some 0 ∧
      getCell (makeMove emptyBoard 3 (playerB).val) r 3 = some (playerB).val ∧
      (playerB).val ≠ 0 ∧
      ∀ r' c', ¬(r' = r ∧ c' = 3) →
        getCell (makeMove emptyBoard 3 (playerB).val) r' c' =
          getCell emptyBoard r' c' :=
  claim_C7_frame emptyBoard 3 playerB (by rfl)

/-- **C9, counterexample.** The claim says every root call with
`depth ≤ 0` is "rejected explicitly with an InvalidDepth condition rather
than performing a search or returning a result".  In fact `findBestMove`
never validates the depth: called with depth 0 and MTD(f) on the empty
board it happily returns a result — the first valid column with
evaluation `-Infinity` and zero nodes. -/
theorem claim_C9_counterexample :
    findBestMove emptyBoard Algorithm.mtdf 0 [] =
      some (⟨some 0, JNum.negInf, 0⟩, []) := by rfl

/-- **C9, amended.** No `InvalidDepth` rejection exists.  For every board,
table and `depth ≤ 0`, the MTD(f) root selector runs zero
iterative-deepening iterations and returns the first valid column
(`none` when there is none) with evaluation `-Infinity` and zero nodes;
the other two algorithms likewise perform their search with the negative
remaining depth rather than rejecting. -/
theorem claim_C9_amended (b : Board) (d : Int) (t : TT) (hd : d ≤ 0) :
    findBestMove b Algorithm.mtdf d t =
      some (⟨(getValidMoves b).head?, JNum.negInf, 0⟩, t) := by
  have h0 : d.toNat = 0 := Int.toNat_of_nonpos hd
  unfold findBestMove
  rw [h0]
  rfl

/-- **C9, witness.** The amended statement at the empty board, depth 0. -/
theorem claim_C9_witness :
    findBestMove emptyBoard Algorithm.mtdf 0 [] =
      some (⟨(getValidMoves emptyBoard).head?, JNum.negInf, 0⟩, []) :=
  claim_C9_amended emptyBoard 0 [] (by decide)

/-- **C10.** On a well-formed board satisfying the data model's gravity
invariant, a move into a column whose top cell is occupied returns a board
equal cell-for-cell to the input: no exception, no change (and the input
is untouched, the embedding being pure). -/
theorem claim_C10_full_column (b : Board) (col v p : Nat)
    (hWF : BoardWF b) (hG : Gravity b)
    (htop : getCell b 0 col = some v) (hv : v ≠ 0) :
    makeMove b col p = b := by
  apply makeMove_invalid b col p hWF hG
  unfold isValidMove
  rw [htop]
  simp [hv]

/-- **C10, witness.** Dropping into the full column 0 of `fullColBoard`
returns the identical board. -/
theorem claim_C10_witness : makeMove fullColBoard 0 2 = fullColBoard :=
  claim_C10_full_column fullColBoard 0 2 2 (by decide) (by decide)
    (by rfl) (by decide)

/-- A board on which the bot has already won (four in a row on the bottom
row). -/
def wonBoard : Board :=
  [[0, 0, 0, 0, 0, 0, 0],
   [0, 0, 0, 0, 0, 0, 0],
   [0, 0, 0, 0, 0, 0, 0],
   [0, 0, 0, 0, 0, 0, 0],
   [0, 0, 0, 0, 0, 0, 0],
   [2, 2, 2, 2, 0, 0, 0]]

/-- **C4.** For every well-formed board, depth, first guess, player
assignment and table with finite scores, the MTD(f) loop terminates
(the fuelled model returns `some` rather than exhausting its fuel), and
every iteration strictly tightens one of the two bounds: with
`beta = max(g, lowerBound + 1)`, the memory-enhanced search on the null
window `[beta - 1, beta]` yields a result that is strictly below
`upperBound` when it fails low (`result < beta`, and `upperBound` is then
set to it) and strictly above `lowerBound` otherwise (`lowerBound` is set
to it). -/
theorem claim_C4_mtdf_terminates (b : Board) (depth : Int)
    (firstGuess : JNum) (cur bot : Player) (t : TT)
    (hWF : BoardWF b) (hfin : TTFinite t) :
    mtdfAlgorithm b depth firstGuess cur bot t ≠ none ∧
    (∀ (g lower upper : JNum) (t' : TT), TBnd (scoreBound t depth) t' →
      MtdfInv (scoreBound t depth) g lower upper →
      JNum.blt lower upper = true →
      (JNum.blt (alphaBetaPruningWithMemoryAlgorithm (countEmpty b + 1) b
          depth (JNum.addInt (JNum.max g (JNum.addInt lower 1)) (-1))
          (JNum.max g (JNum.addInt lower 1)) cur bot t').1
          (JNum.max g (JNum.addInt lower 1)) = true →
        JNum.blt (alphaBetaPruningWithMemoryAlgorithm (countEmpty b + 1) b
          depth (JNum.addInt (JNum.max g (JNum.addInt lower 1)) (-1))
          (JNum.max g (JNum.addInt lower 1)) cur bot t').1 upper = true) ∧
      (JNum.blt (alphaBetaPruningWithMemoryAlgorithm (countEmpty b + 1) b
          depth (JNum.addInt (JNum.max g (JNum.addInt lower 1)) (-1))
          (JNum.max g (JNum.addInt lower 1)) cur bot t').1
          (JNum.max g (JNum.addInt lower 1)) = false →
        JNum.blt lower (alphaBetaPruningWithMemoryAlgorithm (countEmpty b + 1)
          b depth (JNum.addInt (JNum.max g (JNum.addInt lower 1)) (-1))
          (JNum.max g (JNum.addInt lower 1)) cur bot t').1 = true)) := by
  have hW : 10001 + depth.natAbs + countEmpty b ≤ scoreBound t depth := by
    have h42 := countEmpty_le_42 hWF
    calc 10001 + depth.natAbs + countEmpty b
        ≤ 10043 + depth.natAbs + ttAbsBound t := by omega
    _ ≤ scoreBound t depth := Nat.le_max_left _ _
  have hT : TBnd (scoreBound t depth) t := by
    apply TBnd_mono _ (TTFinite_TBnd hfin)
    calc ttAbsBound t ≤ 10043 + depth.natAbs + ttAbsBound t := by omega
    _ ≤ scoreBound t depth := Nat.le_max_left _ _
  constructor
  · unfold mtdfAlgorithm
    apply mtdfLoop_some b depth cur bot (scoreBound t depth) hWF hW _
      firstGuess JNum.negInf JNum.posInf t 0 hT
    intro _
    refine ⟨⟨Or.inl rfl, Or.inl rfl⟩, ?_⟩
    have h1 : jClampInt (scoreBound t depth) JNum.posInf =
        (scoreBound t depth : Int) + 1 := rfl
    have h2 : jClampInt (scoreBound t depth) JNum.negInf =
        -((scoreBound t depth : Int) + 1) := rfl
    unfold mtdfMeasure
    rw [h1, h2]
    unfold mtdfFuel
    omega
  · intro g lower upper t' ht' hInv hcont
    have hbmem := memAB_bound (countEmpty b + 1) b depth
      (JNum.addInt (JNum.max g (JNum.addInt lower 1)) (-1))
      (JNum.max g (JNum.addInt lower 1)) cur bot t' (scoreBound t depth)
      hWF ht' hW (Nat.lt_succ_self _)
    exact mtdfStep_tightens hbmem.1 hInv hcont

/-- **C4, witness.** MTD(f) at depth 0 on a board the bot has already won,
empty table: the loop converges (and the tightening law holds there). -/
theorem claim_C4_witness :
    mtdfAlgorithm wonBoard 0 (JNum.fin 0) playerP playerB [] ≠ none ∧
    (∀ (g lower upper : JNum) (t' : TT), TBnd (scoreBound [] 0) t' →
      MtdfInv (scoreBound [] 0) g lower upper →
      JNum.blt lower upper = true →
      (JNum.blt (alphaBetaPruningWithMemoryAlgorithm (countEmpty wonBoard + 1)
          wonBoard 0 (JNum.addInt (JNum.max g (JNum.addInt lower 1)) (-1))
          (JNum.max g (JNum.addInt lower 1)) playerP playerB t').1
          (JNum.max g (JNum.addInt lower 1)) = true →
        JNum.blt (alphaBetaPruningWithMemoryAlgorithm (countEmpty wonBoard + 1)
          wonBoard 0 (JNum.addInt (JNum.max g (JNum.addInt lower 1)) (-1))
          (JNum.max g (JNum.addInt lower 1)) playerP playerB t').1 upper = true) ∧
      (JNum.blt (alphaBetaPruningWithMemoryAlgorithm (countEmpty wonBoard + 1)
          wonBoard 0 (JNum.addInt (JNum.max g (JNum.addInt lower 1)) (-1))
          (JNum.max g (JNum.addInt lower 1)) playerP playerB t').1
          (JNum.max g (JNum.addInt lower 1)) = false →
        JNum.blt lower (alphaBetaPruningWithMemoryAlgorithm
          (countEmpty wonBoard + 1) wonBoard 0
          (JNum.addInt (JNum.max g (JNum.addInt lower 1)) (-1))
          (JNum.max g (JNum.addInt lower 1)) playerP playerB t').1 = true)) :=
  claim_C4_mtdf_terminates wonBoard 0 (JNum.fin 0) playerP playerB []
    (by decide) (fun p hp => absurd hp (List.not_mem_nil p))

/-! ## C2: the flag stored by the transposition-table searches -/

/-- A board with one bot piece at row 5, column 1; its column-0 child has
static evaluation 2 for the bot. -/
def bC2 : Board :=
  [[0, 0, 0, 0, 0, 0, 0],
   [0, 0, 0, 0, 0, 0, 0],
   [0, 0, 0, 0, 0, 0, 0],
   [0, 0, 0, 0, 0, 0, 0],
   [0, 0, 0, 0, 0, 0, 0],
   [0, 2, 0, 0, 0, 0, 0]]

/-- The maximizing transposition key of `bC2`. -/
def keyC2 : String := getBoardHash bC2 ++ "-max"

/-- A table holding an `UPPERBOUND` entry of score 2 at depth 1 for
`bC2` (as a real search could have produced after a fail-low there). -/
def tC2 : TT := [(keyC2, ⟨JNum.fin 2, 1, TTFlag.UPPERBOUND⟩)]

/-- **C2, counterexample.** The claim says the stored flag is classified
against `originalAlpha` *and* `originalBeta`, "both the window bounds
exactly as received at function entry, captured before any narrowing by a
cache hit".  False for the beta side: `betaOrig` is captured at line 424
(resp. 551), *after* the lookup may have lowered `beta` to a cached
upper bound.  Calling the Alpha-Beta+TT search on `bC2` at depth 1 with
entry window `(-5, 10)` and a cached `UPPERBOUND 2` narrows beta to 2;
the search fails high against the narrowed window with score 2 and stores
`LOWERBOUND`, while classifying score 2 against the entry window
`(-5, 10)` as the claim prescribes would give `EXACT`. -/
theorem claim_C2_counterexample :
    (ttGet (alphaBetaPruningWithTranspositionTableAlgorithm
        (countEmpty bC2 + 1) bC2 1
        (JNum.fin (-5)) (JNum.fin 10) true playerB tC2).2.1 keyC2 =
      some ⟨JNum.fin 2, 1, TTFlag.LOWERBOUND⟩) ∧
    storeFlag (JNum.fin 2) (JNum.fin (-5)) (JNum.fin 10) = TTFlag.EXACT := by
  constructor
  · rfl
  · rfl

/-- **C2, amended.** In both transposition-table searches, whenever a call
reaches the store point (no early cached return, no terminal result, no
leaf evaluation), the entry stored under the node's key carries the
returned score, the requested depth, and the flag
`storeFlag score alphaOrig betaOrig`, where `alphaOrig` is the alpha
received at entry (captured *before* the lookup can raise alpha on a
LowerBound hit) but `betaOrig` is the beta *after* the lookup (an
UpperBound hit lowers it): UpperBound when `score <= alphaOrig`,
LowerBound when `score >= betaOrig(post-lookup)`, Exact otherwise. -/
theorem claim_C2_amended :
    (∀ (fuel : Nat) (b : Board) (depth : Int) (alpha beta : JNum)
      (maximizing : Bool) (bot : Player) (t : TT) (a1 b1 : JNum),
      ttLookup (ttGet t (getBoardHash b ++ "-" ++
          (if maximizing then "max" else "min"))) depth alpha beta =
        (a1, b1, none) →
      checkWinner b ≠ bot.val → checkWinner b ≠ (humanOf bot).val →
      ¬(depth = 0 ∨ isBoardFull b = true) →
      ttGet (alphaBetaPruningWithTranspositionTableAlgorithm (fuel + 1) b
          depth alpha beta maximizing bot t).2.1
        (getBoardHash b ++ "-" ++ (if maximizing then "max" else "min")) =
      some ⟨(alphaBetaPruningWithTranspositionTableAlgorithm (fuel + 1) b
          depth alpha beta maximizing bot t).1, depth,
        storeFlag (alphaBetaPruningWithTranspositionTableAlgorithm (fuel + 1)
          b depth alpha beta maximizing bot t).1 alpha b1⟩) ∧
    (∀ (fuel : Nat) (b : Board) (depth : Int) (alpha beta : JNum)
      (currentPlayer bot : Player) (t : TT) (a1 b1 : JNum),
      ttLookup (ttGet t (getBoardHash b ++ "-" ++ toString currentPlayer.val))
        depth alpha beta = (a1, b1, none) →
      checkWinner b ≠ bot.val →
      ¬(checkWinner b ≠ 0 ∧ checkWinner b ≠ bot.val) →
      ¬(depth = 0 ∨ isBoardFull b = true) →
      ttGet (alphaBetaPruningWithMemoryAlgorithm (fuel + 1) b depth alpha
          beta currentPlayer bot t).2.1
        (getBoardHash b ++ "-" ++ toString currentPlayer.val) =
      some ⟨(alphaBetaPruningWithMemoryAlgorithm (fuel + 1) b depth alpha
          beta currentPlayer bot t).1, depth,
        storeFlag (alphaBetaPruningWithMemoryAlgorithm (fuel + 1) b depth
          alpha beta currentPlayer bot t).1 alpha b1⟩) := by
  constructor
  · intro fuel b depth alpha beta maximizing bot t a1 b1 hlook hw1 hw2 hleaf
    rw [alphaBetaPruningWithTranspositionTableAlgorithm]
    rw [hlook]
    simp only [if_neg hw1, if_neg hw2, if_neg hleaf]
    cases maximizing <;> simp only [ttGet_ttSet_same]
  · intro fuel b depth alpha beta currentPlayer bot t a1 b1 hlook hw1 hw2 hleaf
    rw [alphaBetaPruningWithMemoryAlgorithm]
    rw [hlook]
    simp only [if_neg hw1, if_neg hw2, if_neg hleaf]
    by_cases hcur : currentPlayer = bot <;> simp [hcur, ttGet_ttSet_same]

/-- **C2, witness.** The amended characterisation exercised at the
counterexample's inputs: the stored entry is exactly
`{score, depth, storeFlag score alphaOrig betaNarrowed}` with the
narrowed beta 2, not the entry beta 10. -/
theorem claim_C2_witness :
    ttGet (alphaBetaPruningWithTranspositionTableAlgorithm
        (countEmpty bC2 + 1) bC2 1
        (JNum.fin (-5)) (JNum.fin 10) true playerB tC2).2.1
      (getBoardHash bC2 ++ "-" ++ (if true then "max" else "min")) =
    some ⟨(alphaBetaPruningWithTranspositionTableAlgorithm
        (countEmpty bC2 + 1) bC2 1
        (JNum.fin (-5)) (JNum.fin 10) true playerB tC2).1, 1,
      storeFlag (alphaBetaPruningWithTranspositionTableAlgorithm
        (countEmpty bC2 + 1) bC2 1
        (JNum.fin (-5)) (JNum.fin 10) true playerB tC2).1
        (JNum.fin (-5)) (JNum.fin 2)⟩ :=
  claim_C2_amended.1 (countEmpty bC2) bC2 1 (JNum.fin (-5)) (JNum.fin 10)
    true playerB tC2 (JNum.fin (-5)) (JNum.fin 2) (by rfl) (by decide)
    (by decide) (by decide)


/-- A board with one empty cell (top of column 0) where dropping the
bot's piece completes a vertical four-in-a-row; used to separate the
algorithms at depth 0. -/
def cbC1 : Board :=
  [[0, 1, 2, 1, 2, 1, 2],
   [2, 2, 1, 2, 1, 2, 1],
   [2, 1, 2, 1, 2, 1, 2],
   [2, 2, 1, 2, 1, 2, 1],
   [2, 1, 2, 1, 2, 1, 2],
   [2, 2, 1, 2, 1, 2, 1]]

/-- **C1, counterexample.** The claim quantifies over every fixed depth;
at depth 0 the non-MTD(f) branches still search (with negative remaining
depth) and report a finite score, while the MTD(f) branch runs zero
deepening iterations and reports `-Infinity`: on `cbC1` plain alpha-beta
returns evaluation 9999 and MTD(f) returns `-Infinity`, so the three
strategies do not agree for every depth. -/
theorem claim_C1_counterexample :
    BoardWF cbC1 ∧
    findBestMove cbC1 Algorithm.alphabeta 0 [] =
      some (⟨some 0, JNum.fin 9999, 1⟩, []) ∧
    findBestMove cbC1 Algorithm.mtdf 0 [] =
      some (⟨some 0, JNum.negInf, 0⟩, []) ∧
    (JNum.fin 9999 : JNum) ≠ JNum.negInf :=
  ⟨by decide, by rfl, by rfl, by decide⟩

/-- **C1, amended.** For every well-formed board and every depth >= 1,
with the transposition table empty at the start of each run, the root
move selector returns a result with all three strategies, and they agree
on both the selected column and the reported evaluation. -/
theorem claim_C1_amended (b : Board) (depth : Int) (hWF : BoardWF b)
    (hd : 1 ≤ depth) :
    ∃ rab rtt rmt : SearchResult × TT,
      findBestMove b Algorithm.alphabeta depth [] = some rab ∧
      findBestMove b Algorithm.transposition depth [] = some rtt ∧
      findBestMove b Algorithm.mtdf depth [] = some rmt ∧
      rab.1.col = rtt.1.col ∧ rab.1.evaluation = rtt.1.evaluation ∧
      rab.1.col = rmt.1.col ∧ rab.1.evaluation = rmt.1.evaluation := by
  cases hvm : getValidMoves b with
  | nil =>
    refine ⟨(⟨none, JNum.negInf, 0⟩, []), (⟨none, JNum.negInf, 0⟩, []),
      (⟨none, JNum.negInf, 0⟩, []), ?_, ?_, ?_, rfl, rfl, rfl, rfl⟩
    · simp only [findBestMove]
      rw [hvm]
      rfl
    · simp only [findBestMove]
      rw [hvm]
      rfl
    · simp only [findBestMove]
      rw [hvm, List.head?_nil, rootDeepenMtdf_nil]
  | cons c0 rest0 =>
    have hne : getValidMoves b ≠ [] := by rw [hvm]; simp
    have hcnt : ∀ c ∈ getValidMoves b,
        countEmpty (makeMove b c BOT) + 1 = countEmpty b :=
      fun c hc => countEmpty_makeMove_eq hc (by decide)
    have h42 := countEmpty_le_42 hWF
    have hplain := rootLoopAB_plain b depth hWF (getValidMoves b)
      (fun c h => h) (getValidMoves b).head? JNum.negInf [] 0
    have htt := rootLoopAB_tt b depth hWF (depth - countEmpty b)
      (fun c hc => by have := hcnt c hc; omega) (getValidMoves b)
      (fun c h => h) (getValidMoves b).head? JNum.negInf [] 0
      (fun b' maxi e hWF' hget => by rw [ttGet_nil] at hget; cases hget)
    have hmem : ∀ d ∈ (List.range depth.toNat).map (fun i => Int.ofNat i + 1),
        1 ≤ d ∧ d ≤ depth := by
      intro d hdm
      obtain ⟨i, hi, rfl⟩ := List.mem_map.mp hdm
      have := List.mem_range.mp hi
      simp only [Int.ofNat_eq_natCast]
      omega
    obtain ⟨r, heqmt, hnil, hlast⟩ := rootDeepenMtdf_ref b hWF
      (10044 + depth.natAbs) hne
      ((List.range depth.toNat).map (fun i => Int.ofNat i + 1))
      (by
        rw [List.pairwise_map]
        exact (List.pairwise_lt_range depth.toNat).imp
          (fun h => by simp only [Int.ofNat_eq_natCast]; omega))
      (by
        intro d hdm c hc
        have hdr := hmem d hdm
        have hc1 := hcnt c hc
        have hc2 := countEmpty_le_42
          (BoardWF_makeMove hWF c (show BOT ≤ 2 by decide))
        refine ⟨by omega, ?_⟩
        have habs : (d - 1).natAbs ≤ depth.natAbs := by omega
        omega)
      (1 - countEmpty b)
      (fun d hdm => by have := hmem d hdm; omega)
      0 (getValidMoves b).head? JNum.negInf [] 0
      (fun b' cur e hWF' hget => by rw [ttGet_nil] at hget; cases hget)
      (fun p hp => absurd hp (List.not_mem_nil p))
    have hdslast : ((List.range depth.toNat).map
        (fun i => Int.ofNat i + 1)).getLast? = some depth := by
      obtain ⟨m, hm⟩ : ∃ m, depth.toNat = m + 1 := ⟨depth.toNat - 1, by omega⟩
      rw [hm, List.range_succ, List.map_append]
      simp only [List.map_cons, List.map_nil]
      rw [List.getLast?_concat]
      simp only [Int.ofNat_eq_natCast]
      congr 1
      omega
    have hfold := hlast depth hdslast
    have hab_tt := hplain.trans htt.symm
    have hab_mt := hplain.trans hfold.symm
    refine ⟨(⟨(rootLoopAB b false depth (getValidMoves b)
        (getValidMoves b).head? JNum.negInf [] 0).1,
      (rootLoopAB b false depth (getValidMoves b)
        (getValidMoves b).head? JNum.negInf [] 0).2.1,
      (rootLoopAB b false depth (getValidMoves b)
        (getValidMoves b).head? JNum.negInf [] 0).2.2.2⟩,
      (rootLoopAB b false depth (getValidMoves b)
        (getValidMoves b).head? JNum.negInf [] 0).2.2.1),
      (⟨(rootLoopAB b true depth (getValidMoves b)
        (getValidMoves b).head? JNum.negInf [] 0).1,
      (rootLoopAB b true depth (getValidMoves b)
        (getValidMoves b).head? JNum.negInf [] 0).2.1,
      (rootLoopAB b true depth (getValidMoves b)
        (getValidMoves b).head? JNum.negInf [] 0).2.2.2⟩,
      (rootLoopAB b true depth (getValidMoves b)
        (getValidMoves b).head? JNum.negInf [] 0).2.2.1),
      (⟨r.1, r.2.1, r.2.2.2⟩, r.2.2.1), ?_, ?_, ?_, ?_, ?_, ?_, ?_⟩
    · simp only [findBestMove]
      rw [show (decide (Algorithm.alphabeta = Algorithm.transposition)) =
        false from rfl]
    · simp only [findBestMove]
      rfl
    · simp only [findBestMove]
      rw [heqmt]
    · exact (Prod.mk.inj hab_tt).1
    · exact (Prod.mk.inj hab_tt).2
    · exact (Prod.mk.inj hab_mt).1
    · exact (Prod.mk.inj hab_mt).2

/-- **C1, witness.** On the empty board at depth 1 all three strategies
return a result and agree on the column and evaluation. -/
theorem claim_C1_witness :
    BoardWF emptyBoard ∧ (1 : Int) ≤ 1 ∧
    ∃ rab rtt rmt : SearchResult × TT,
      findBestMove emptyBoard Algorithm.alphabeta 1 [] = some rab ∧
      findBestMove emptyBoard Algorithm.transposition 1 [] = some rtt ∧
      findBestMove emptyBoard Algorithm.mtdf 1 [] = some rmt ∧
      rab.1.col = rtt.1.col ∧ rab.1.evaluation = rtt.1.evaluation ∧
      rab.1.col = rmt.1.col ∧ rab.1.evaluation = rmt.1.evaluation :=
  ⟨by decide, by decide, claim_C1_amended emptyBoard 1 (by decide) (by decide)⟩

end Connect4
